import Mathlib

/-!
# Verification of `cargo-patch-source`

A shallow embedding in Lean 4 of the core logic of the `cargo-patch-source`
tool (files `src/toml_ops.rs`, `src/cargo_ops.rs`, `src/patch.rs`), together
with theorems settling the specification claims about it.

Modelling conventions:

* A `toml_edit::Item` is modelled by `Cps.Item`; string values, arrays,
  inline tables and standard tables are distinguished exactly as the code
  distinguishes them (`as_str`, `as_array`, `as_inline_table`, `as_table`);
  every other scalar value collapses to `Item.scalar` (the code never looks
  inside those).  A `DocumentMut` (and every TOML table) is an ordered
  association list `Entries`; `toml_edit`'s `insert` replaces the value of
  an existing key in place and appends new keys at the end, which is what
  `Cps.insertE` does.
* In-place mutation through `&mut` references becomes functional update.
  A Rust `panic!`/`expect`/`unwrap` abort is modelled as the distinguished
  error `PatchError.panicEscape` (it aborts the operation before any write,
  like an error return).
* `HashMap`/`HashSet` iteration order is unspecified in Rust; the model
  fixes one deterministic order (the order the elements were produced in).
  All uses in the code either only test membership or perform commuting
  per-key updates, so this choice is observationally faithful.
* File-system access is modelled at the boundary: the on-disk manifest is
  an `Option Doc` (absent or parsed), read at the start and written only by
  the final write step, exactly as in `apply_patches` / `remove_patches`.
-/

namespace Cps

/-- Model of a `toml_edit::Item` / `Value` tree. -/
inductive Item where
  | str (s : String)
  | scalar
  | arr (xs : List Item)
  | inlineTbl (es : List (String × Item))
  | table (es : List (String × Item))
deriving Repr

/-- An ordered TOML table: an association list preserving key order. -/
abbrev Entries := List (String × Item)

/-- A parsed manifest document (`toml_edit::DocumentMut`): its top-level table. -/
abbrev Doc := Entries

/-- Key lookup in an ordered string-keyed map (first matching key); used
both for TOML tables and for version maps. -/
def lookupE {β : Type} (es : List (String × β)) (k : String) : Option β :=
  match es with
  | [] => none
  | (k', v) :: rest => if k' = k then some v else lookupE rest k

/-- `toml_edit` table insert (also the effect of `HashMap::insert` on the
model's ordered maps): replaces the value of an existing key in place,
appends a fresh key at the end. -/
def insertE {β : Type} (es : List (String × β)) (k : String) (v : β) : List (String × β) :=
  match es with
  | [] => [(k, v)]
  | (k', v') :: rest => if k' = k then (k, v) :: rest else (k', v') :: insertE rest k v

/-- `toml_edit` table remove. -/
def removeE {β : Type} : List (String × β) → String → List (String × β)
  | [], _ => []
  | (k', v') :: rest, k => if k' = k then removeE rest k else (k', v') :: removeE rest k

/-- `Value::as_str`. -/
def Item.asStr? : Item → Option String
  | .str s => some s
  | _ => none

/-- `Item::as_table` (standard tables only, not inline tables). -/
def Item.asTable? : Item → Option Entries
  | .table es => some es
  | _ => none

/-- `Item::get` — works through any table-like item (table or inline table). -/
def Item.getKey? : Item → String → Option Item
  | .table es, k => lookupE es k
  | .inlineTbl es, k => lookupE es k
  | _, _ => none

/-- In-place update of one key inside a table-like item (the functional
image of mutating through `Item::get_mut`). Leaves non-table-like items
unchanged. -/
def Item.setKey (i : Item) (k : String) (v : Item) : Item :=
  match i with
  | .table es => .table (insertE es k v)
  | .inlineTbl es => .inlineTbl (insertE es k v)
  | _ => i

/-- The error type of the tool (`src/error.rs`), restricted to the variants
the embedded core can produce.  `panicEscape` stands for a Rust panic
(`expect`/`unwrap` failure), which also aborts before any write. -/
inductive PatchError where
  | targetManifestNotFound
  | noPatchesFound
  | noMatchingCrates (pattern : String)
  | notAWorkspace
  | invalidPattern (pattern : String)
  | panicEscape
deriving Repr, DecidableEq

/-! ## `src/toml_ops.rs` -/

/-- `is_workspace`: the document has a `[workspace]` key. -/
def is_workspace (doc : Doc) : Bool :=
  (lookupE doc "workspace").isSome

/-- The top-level `[dependencies]` table, if it is a standard table. -/
def topLevelDeps (doc : Doc) : Option Entries :=
  match lookupE doc "dependencies" with
  | some (.table es) => some es
  | _ => none

/-- `get_dependencies_table`: `workspace.dependencies` if that is a
standard table, otherwise the top-level `dependencies` table. -/
def get_dependencies_table (doc : Doc) : Option Entries :=
  match lookupE doc "workspace" with
  | some w =>
    match Item.getKey? w "dependencies" with
    | some (.table es) => some es
    | _ => topLevelDeps doc
  | none => topLevelDeps doc

/-- The test made by `get_dependencies_table_mut`: does
`workspace.dependencies` exist as a standard table? -/
def hasWorkspaceDeps (doc : Doc) : Bool :=
  (((lookupE doc "workspace").bind (fun w => Item.getKey? w "dependencies")).bind
    Item.asTable?).isSome

/-- Functional image of writing through `get_dependencies_table_mut`:
applies `f` to the resolved dependencies table (workspace first, then
top-level), leaving the document unchanged when neither resolves. -/
def modifyDeps (doc : Doc) (f : Entries → Entries) : Doc :=
  if hasWorkspaceDeps doc then
    match lookupE doc "workspace" with
    | some w =>
      match Item.getKey? w "dependencies" with
      | some (.table es) => insertE doc "workspace" (w.setKey "dependencies" (.table (f es)))
      | _ => doc
    | none => doc
  else
    match lookupE doc "dependencies" with
    | some (.table es) => insertE doc "dependencies" (.table (f es))
    | _ => doc

/-- `get_dependency_git_url`: the `git` field of an inline-table or table
dependency declaration. -/
def get_dependency_git_url (it : Item) : Option String :=
  match it with
  | .inlineTbl es => (lookupE es "git").bind Item.asStr?
  | .table es => (lookupE es "git").bind Item.asStr?
  | _ => none

/-- `get_dependency_version`: plain string, or the string `version` field
of an inline table or table. -/
def get_dependency_version (it : Item) : Option String :=
  match it with
  | .str s => some s
  | .inlineTbl es => (lookupE es "version").bind Item.asStr?
  | .table es => (lookupE es "version").bind Item.asStr?
  | _ => none

/-- `detect_common_git_url`.  The Rust code counts `git` URLs in a
`HashMap`, takes `max_by_key` over the unordered entries and keeps the
result only if its count is a strict majority (`count > len / 2`).  At most
one URL can pass that filter, so the unordered maximum is equivalent to
scanning for the first URL whose count is a strict majority, which is what
the model does. -/
def detect_common_git_url (doc : Doc) (crateNames : List String) : Option String :=
  match get_dependencies_table doc with
  | none => none
  | some deps =>
    let urls := crateNames.filterMap (fun n => (lookupE deps n).bind get_dependency_git_url)
    urls.find? (fun u => decide (crateNames.length / 2 < urls.count u))

/-- The multiset of `git` URLs declared by `crateNames` in the resolved
dependency table (the multiset `detect_common_git_url` counts over). -/
def declaredGitUrls (doc : Doc) (crateNames : List String) : List String :=
  match get_dependencies_table doc with
  | none => []
  | some deps => crateNames.filterMap (fun n => (lookupE deps n).bind get_dependency_git_url)

/-- One in-place version update of a dependency declaration
(`update_dependency_version`'s match on the entry): a plain string is
replaced wholesale; an inline table or table gets its `version` field
updated only if one exists; anything else is untouched. -/
def updateDepItem (it : Item) (newVersion : String) : Item :=
  match it with
  | .str _ => .str newVersion
  | .inlineTbl es =>
    if (lookupE es "version").isSome then .inlineTbl (insertE es "version" (.str newVersion))
    else .inlineTbl es
  | .table es =>
    if (lookupE es "version").isSome then .table (insertE es "version" (.str newVersion))
    else .table es
  | it => it

/-- One update step on a dependencies table: update the named entry in
place if present, otherwise do nothing. -/
def depsUpdate1 (es : Entries) (crateName newVersion : String) : Entries :=
  match lookupE es crateName with
  | some it => insertE es crateName (updateDepItem it newVersion)
  | none => es

/-- `update_dependency_version` (always returns `Ok` in the code, so the
model returns the document directly). -/
def update_dependency_version (doc : Doc) (crateName newVersion : String) : Doc :=
  modifyDeps doc (fun es => depsUpdate1 es crateName newVersion)

def metadataKey : String := "cargo-patch-source"

def originalVersionsKey : String := "original-versions"

def managedPatchesKey : String := "managed-patches"

/-- `metadata.get(METADATA_KEY)` under one root (`workspace` or
`package`), requiring the result to be a standard table. -/
def metaFrom (doc : Doc) (root : String) : Option Entries :=
  match (lookupE doc root).bind (fun w => Item.getKey? w "metadata") with
  | some m =>
    match Item.getKey? m metadataKey with
    | some (.table es) => some es
    | _ => none
  | none => none

/-- `get_metadata_table`: workspace metadata first, then package metadata. -/
def get_metadata_table (doc : Doc) : Option Entries :=
  match metaFrom doc "workspace" with
  | some es => some es
  | none => metaFrom doc "package"

/-- One step of `get_or_create_metadata_table`'s creation loop:
`current.entry(key).or_insert(Table::new()).as_table_mut().unwrap()`.
Returns `none` when the existing item is not a standard table (the
`unwrap` panics). -/
def withTableAt1 (es : Entries) (k : String) (f : Entries → Option Entries) : Option Entries :=
  match lookupE es k with
  | none => (f []).map (fun inner => insertE es k (.table inner))
  | some (.table inner) => (f inner).map (fun inner2 => insertE es k (.table inner2))
  | some _ => none

/-- The metadata root chosen by `get_or_create_metadata_table`. -/
def metaRootKey (doc : Doc) : String :=
  if is_workspace doc then "workspace" else "package"

/-- `get_or_create_metadata_table` followed by a mutation `f` of the
`cargo-patch-source` table (the loop unrolled over its three fixed keys). -/
def withMetaTable (doc : Doc) (f : Entries → Entries) : Option Doc :=
  withTableAt1 doc (metaRootKey doc) (fun r1 =>
    withTableAt1 r1 "metadata" (fun r2 =>
      withTableAt1 r2 metadataKey (fun m => some (f m))))

/-- Stable insertion of one pair into a name-sorted list (the model of
`sort_by_key` on crate names; the maps involved never hold duplicate
names). -/
def insertSortedByName (p : String × String) : List (String × String) → List (String × String)
  | [] => [p]
  | q :: qs => if p.1 < q.1 ∨ p.1 = q.1 then p :: q :: qs else q :: insertSortedByName p qs

/-- Sort version pairs by crate name (lexicographic), as
`store_original_versions` does for deterministic output. -/
def sortByName (l : List (String × String)) : List (String × String) :=
  l.foldr insertSortedByName []

/-- The metadata mutation performed by `store_original_versions`: write
the name-sorted version map as an inline table under `original-versions`. -/
def storeVersionsFun (versions : List (String × String)) (meta : Entries) : Entries :=
  insertE meta originalVersionsKey
    (.inlineTbl ((sortByName versions).map (fun p => (p.1, Item.str p.2))))

/-- `store_original_versions`.  `none` models the panic inside
`get_or_create_metadata_table`. -/
def store_original_versions (doc : Doc) (versions : List (String × String)) : Option Doc :=
  withMetaTable doc (storeVersionsFun versions)

/-- Read the string-valued pairs out of a stored version table. -/
def readVersionPairs (es : Entries) : List (String × String) :=
  es.filterMap (fun p => (Item.asStr? p.2).map (fun s => (p.1, s)))

/-- `get_original_versions` (never an error in the code). -/
def get_original_versions (doc : Doc) : List (String × String) :=
  match get_metadata_table doc with
  | none => []
  | some meta =>
    match lookupE meta originalVersionsKey with
    | some (.inlineTbl es) => readVersionPairs es
    | some (.table es) => readVersionPairs es
    | _ => []

/-- The metadata mutation performed by `add_managed_patch`: append the
patch key to the managed array if not already present
(`entry(…).or_insert(array)` then push); silently do nothing if the
existing item is not an array (`as_array_mut` fails). -/
def addManagedFun (patchKey : String) (meta : Entries) : Entries :=
  match lookupE meta managedPatchesKey with
  | none => insertE meta managedPatchesKey (.arr [Item.str patchKey])
  | some (.arr xs) =>
    if xs.any (fun v => Item.asStr? v == some patchKey) then meta
    else insertE meta managedPatchesKey (.arr (xs ++ [Item.str patchKey]))
  | some _ => meta

/-- `add_managed_patch`. -/
def add_managed_patch (doc : Doc) (patchKey : String) : Option Doc :=
  withMetaTable doc (addManagedFun patchKey)

/-- `get_managed_patches`. -/
def get_managed_patches (doc : Doc) : List String :=
  match get_metadata_table doc with
  | none => []
  | some meta =>
    match lookupE meta managedPatchesKey with
    | some (.arr xs) => xs.filterMap Item.asStr?
    | _ => []

/-- `clear_metadata` under one root: remove the private namespace key from
the root's metadata table and prune the metadata table if it became
empty. -/
def clearMetaRoot (doc : Doc) (root : String) : Doc :=
  match lookupE doc root with
  | none => doc
  | some w =>
    match Item.getKey? w "metadata" with
    | none => doc
    | some (.table mes) =>
      let mes2 := removeE mes metadataKey
      if mes2.isEmpty then
        match w with
        | .table wes => insertE doc root (.table (removeE wes "metadata"))
        | _ => insertE doc root (w.setKey "metadata" (.table mes2))
      else insertE doc root (w.setKey "metadata" (.table mes2))
    | some _ => doc

/-- `clear_metadata`: workspace root first, then package root. -/
def clear_metadata (doc : Doc) : Doc :=
  clearMetaRoot (clearMetaRoot doc "workspace") "package"

/-- The per-key strip loop of `remove_managed_patches`: for each managed
origin key, remove exactly the recorded crate names from that origin's
table and drop the origin table once empty. -/
def stripPatchKeys (patchEs : Entries) (managed patchedCrates : List String) : Entries :=
  managed.foldl (fun pes key =>
    match lookupE pes key with
    | some (.table src) =>
      let src2 := patchedCrates.foldl (fun s c => removeE s c) src
      if src2.isEmpty then removeE pes key else insertE pes key (.table src2)
    | _ => pes) patchEs

/-- `remove_managed_patches`: fails with `NoPatchesFound` when no managed
origin keys are recorded or when the document has no `[patch]` table;
otherwise strips the recorded crates, prunes empty tables, clears the
metadata and reports `true` (the code has no `Ok(false)` path). -/
def remove_managed_patches (doc : Doc) : Except PatchError Doc :=
  let managed := get_managed_patches doc
  if managed.isEmpty then .error .noPatchesFound
  else
    let patchedCrates := (get_original_versions doc).map (fun p => p.1)
    match lookupE doc "patch" with
    | some (.table patchEs) =>
      let patchEs2 := stripPatchKeys patchEs managed patchedCrates
      let doc2 := if patchEs2.isEmpty then removeE doc "patch"
                  else insertE doc "patch" (.table patchEs2)
      .ok (clear_metadata doc2)
    | _ => .error .noPatchesFound

/-! ## `src/cargo_ops.rs` — the pattern matcher

`filter_crates_by_pattern` builds a regex from the glob pattern by the
three textual replacements `"." → "\."`, `"*" → ".*"`, `"?" → "."` and
anchors it as `^…$`.  The model reproduces the replacements literally and
then interprets the resulting regex text with a small matcher for the
regex fragment those strings fall into: sequences of atoms (`\c`, a
literal character, or `.`) each optionally under `*` or `+` repetition.
Regex constructs outside this fragment (alternation, groups, classes,
braced repetition, a trailing backslash) make the model's parser return
`none`; executions of the real tool on such patterns are outside the
model. -/

/-- A single-character regex atom: a literal character or `.`. -/
inductive Atom where
  | chr (c : Char)
  | anyChar
deriving Repr, DecidableEq

/-- A regex token: one atom, or one atom under `*` repetition. -/
inductive RTok where
  | atom (a : Atom)
  | star (a : Atom)
deriving Repr, DecidableEq

/-- `pattern.replace(".", "\\.")` acting character by character. -/
def expandDot (c : Char) : List Char :=
  if c = '.' then ['\\', '.'] else [c]

/-- `pattern.replace("*", ".*")` acting character by character. -/
def expandStar (c : Char) : List Char :=
  if c = '*' then ['.', '*'] else [c]

/-- `pattern.replace("?", ".")` acting character by character. -/
def expandQm (c : Char) : List Char :=
  if c = '?' then ['.'] else [c]

/-- The chained replacements performed on the glob pattern before
anchoring (each replacement is on single-character needles, so it is the
character-wise expansion, applied to the previous pass's output). -/
def globToRegexChars (p : List Char) : List Char :=
  ((p.flatMap expandDot).flatMap expandStar).flatMap expandQm

/-- `format!("^{}$", regex_pattern)`: the anchored regex text handed to
`Regex::new`. -/
def regexOfPattern (p : String) : List Char :=
  '^' :: globToRegexChars p.toList ++ ['$']

/-- Regex metacharacters outside the fragment the model interprets
(`0x7b`/`0x7d` are the braces). -/
def regexSpecials : List Char :=
  ['(', ')', '[', ']', '|', '?', '^', '$', Char.ofNat 123, Char.ofNat 125]

/-- Parse the body of an anchored regex into tokens.  `\c` is a literal
`c`, `.` is the any-character atom, a postfix `*` stars the previous atom,
a postfix `+` duplicates the previous atom and stars the copy; characters
in `regexSpecials` fall outside the interpreted fragment. -/
def parseRE : List Char → List RTok → Option (List RTok)
  | [], acc => some acc.reverse
  | c :: rest, acc =>
    if c = '\\' then
      match rest with
      | [] => none
      | c2 :: rest2 => parseRE rest2 (RTok.atom (Atom.chr c2) :: acc)
    else if c = '.' then parseRE rest (RTok.atom Atom.anyChar :: acc)
    else if c = '*' then
      match acc with
      | RTok.atom a :: acc2 => parseRE rest (RTok.star a :: acc2)
      | _ => none
    else if c = '+' then
      match acc with
      | RTok.atom a :: acc2 => parseRE rest (RTok.star a :: RTok.atom a :: acc2)
      | _ => none
    else if c ∈ regexSpecials then none
    else parseRE rest (RTok.atom (Atom.chr c) :: acc)

/-- Strip the `^…$` anchors produced by `regexOfPattern`; with the anchors
at the ends, `Regex::is_match` is full-string matching of the body. -/
def stripAnchors (cs : List Char) : Option (List Char) :=
  match cs with
  | [] => none
  | c :: rest =>
    if c = '^' then
      match rest.getLast? with
      | some d => if d = '$' then some rest.dropLast else none
      | none => none
    else none

/-- `Regex::new` on the anchored glob translation: the compiled matcher,
as a token list (full-string semantics).  `none` models both a regex
compile error and a regex outside the interpreted fragment. -/
def compileGlob (p : String) : Option (List RTok) :=
  (stripAnchors (regexOfPattern p)).bind (fun body => parseRE body [])

/-- Does an atom match one character? -/
def atomMatch : Atom → Char → Bool
  | .chr c, x => c == x
  | .anyChar, _ => true

/-- Full-string matching of a token sequence, with explicit fuel (the
recursion shrinks either the tokens or the characters, so
`tokens + chars + 1` fuel always suffices). -/
def reMatchF : Nat → List RTok → List Char → Bool
  | 0, _, _ => false
  | _ + 1, [], [] => true
  | _ + 1, [], _ :: _ => false
  | _ + 1, .atom _ :: _, [] => false
  | f + 1, .atom a :: rs, x :: xs => atomMatch a x && reMatchF f rs xs
  | f + 1, .star a :: rs, s =>
    reMatchF f rs s ||
      (match s with
       | [] => false
       | x :: xs => atomMatch a x && reMatchF f (.star a :: rs) xs)

/-- Full-string matching of a token sequence against a character list. -/
def reMatch (rs : List RTok) (s : List Char) : Bool :=
  reMatchF (rs.length + s.length + 1) rs s

/-- `CrateInfo` (`src/cargo_ops.rs`): a workspace member.  The manifest
path is its list of path components. -/
structure CrateInfo where
  name : String
  version : String
  manifestPath : List String
deriving Repr, DecidableEq

/-- `filter_crates_by_pattern`: no pattern keeps everything; otherwise
compile the glob, keep the matching crates, and fail with
`NoMatchingCrates` when nothing matches. -/
def filter_crates_by_pattern (crates : List CrateInfo) (pattern : Option String) :
    Except PatchError (List CrateInfo) :=
  match pattern with
  | none => .ok crates
  | some p =>
    match compileGlob p with
    | none => .error (.invalidPattern p)
    | some toks =>
      let filtered := crates.filter (fun c => reMatch toks c.name.toList)
      if filtered.isEmpty then .error (.noMatchingCrates p) else .ok filtered

/-- The compiled matcher of `filter_crates_by_pattern` as a function:
`some (result of full-string matching)` when the pattern compiles (within
the interpreted fragment), `none` otherwise. -/
def rustGlobMatch (p s : String) : Option Bool :=
  (compileGlob p).map (fun toks => reMatch toks s.toList)

/-- Modelled from the spec (§4.1), for comparison with the compiled
matcher: one token per pattern character — `*` is "zero or more of any
character", `?` is "exactly one of any character", every other character
matches itself literally. -/
def specTok (c : Char) : RTok :=
  if c = '*' then RTok.star Atom.anyChar
  else if c = '?' then RTok.atom Atom.anyChar
  else RTok.atom (Atom.chr c)

/-- Modelled from the spec (§4.1): the glob semantics the specification
describes — anchored (the whole name must satisfy the pattern), with
`*`/`?` wildcards and all other characters literal. -/
def specGlobMatch (p s : String) : Bool :=
  reMatch (p.toList.map specTok) s.toList

/-- Modelled from the spec: `glob_pattern_regex` is imported by
`src/patch.rs` from `crate::cargo_ops` but its definition is not in the
sources; per §4.1 it compiles the same restricted glob syntax
(`*`, `?`, literal escaping) into a full-string matcher, failing with
`InvalidPattern` when compilation fails — i.e. exactly the compilation
step of `filter_crates_by_pattern`. -/
def glob_pattern_regex (p : String) : Except PatchError (List RTok) :=
  match compileGlob p with
  | none => .error (.invalidPattern p)
  | some toks => .ok toks

/-! ## `src/patch.rs` -/

/-- `GitReference` (`src/source.rs`). -/
inductive GitReference where
  | branch (s : String)
  | tag (s : String)
  | rev (s : String)
deriving Repr, DecidableEq

/-- A patch source, with the external workspace query's answer inlined
for the local-path case (the query itself is file-system I/O outside the
core; `query_workspace_crates`'s own emptiness check is part of the
model, in `apply_local_path_patches`). -/
inductive PatchSourceM where
  | localPath (members : List CrateInfo)
  | git (url : String) (reference : Option GitReference)

/-- The per-entry body of the dependency snapshot taken at the top of
`apply_patches` (lines 72–96): a plain string gives its value, an inline
table or table gives its string `version` field or `""`, anything else is
skipped. -/
def depVersionSnapshot : Item → Option String
  | .str s => some s
  | .inlineTbl es => some (((lookupE es "version").bind Item.asStr?).getD "")
  | .table es => some (((lookupE es "version").bind Item.asStr?).getD "")
  | _ => none

/-- The dependency snapshot taken at the top of `apply_patches`
(lines 67–100). -/
def currentDeps (doc : Doc) : List (String × String) :=
  match get_dependencies_table doc with
  | none => []
  | some t => t.filterMap (fun p => (depVersionSnapshot p.2).map (fun v => (p.1, v)))

/-- `collect_existing_patched_crates`: every crate name appearing in any
standard-table origin under the `[patch]` table. -/
def collect_existing_patched_crates (doc : Doc) : List String :=
  match lookupE doc "patch" with
  | some (.table patchEs) =>
    patchEs.foldl (fun acc p =>
      match p.2 with
      | .table ses => acc ++ ses.map (fun q => q.1)
      | _ => acc) []
  | _ => []

/-- `manifest_path.parent()` followed by `display()`: the directory of a
crate's manifest, `none` when the path has no parent (the `expect`
panics). -/
def crateDirOf (c : CrateInfo) : Option String :=
  match c.manifestPath with
  | [] => none
  | _ => some (String.intercalate "/" c.manifestPath.dropLast)

/-- The `patch_table` built by `apply_local_path_patches`: one
`{ path = … }` inline entry per managed crate, inserted left to right. -/
def buildPathEntries (cs : List CrateInfo) : Option Entries :=
  cs.foldlM (fun t c =>
    (crateDirOf c).map (fun dir => insertE t c.name (.inlineTbl [("path", Item.str dir)]))) []

/-- Lines 235–251 / 370–386: `entry("patch").or_insert(Table)`, then
`entry(patch_key).or_insert(Table)`, then insert every built entry,
preserving whatever was already there.  `none` models the `expect` panics
on non-table items. -/
def insertPatchEntries (doc : Doc) (patchKey : String) (patchTable : Entries) : Option Doc :=
  let patchItem :=
    match lookupE doc "patch" with
    | none => some ([] : Entries)
    | some (.table pes) => some pes
    | some _ => none
  match patchItem with
  | none => none
  | some pes =>
    let srcItem :=
      match lookupE pes patchKey with
      | none => some ([] : Entries)
      | some (.table ses) => some ses
      | some _ => none
    match srcItem with
    | none => none
    | some ses =>
      let ses2 := patchTable.foldl (fun s p => insertE s p.1 p.2) ses
      some (insertE doc "patch" (.table (insertE pes patchKey (.table ses2))))

/-- Lines 174–184: collect the pre-mutation versions of the managed
crates from the dependency table (`""` for version-less declarations). -/
def collectOriginalVersions (doc : Doc) (crateNames : List String) :
    List (String × String) :=
  match get_dependencies_table doc with
  | none => []
  | some deps =>
    crateNames.foldl (fun acc n =>
      match lookupE deps n with
      | some dv => insertE acc n ((get_dependency_version dv).getD "")
      | none => acc) []

/-- Lines 186–194: update each managed crate with a recorded non-empty
original version to the source crate's version. -/
def applyVersionUpdates (doc : Doc) (managedCrates : List CrateInfo)
    (originalVersions : List (String × String)) : Doc :=
  managedCrates.foldl (fun d c =>
    match lookupE originalVersions c.name with
    | some ov => if ov ≠ "" then update_dependency_version d c.name c.version else d
    | none => d) doc

/-- Lines 168–253 of `apply_local_path_patches`: everything after the
managed-crate set is fixed — git-URL detection, original-version
collection, version updates, patch-entry construction, metadata writes
and the patch-section merge. -/
def localBuildTail (doc : Doc) (managedCrates : List CrateInfo) : Except PatchError Doc :=
  let crateNames := managedCrates.map (fun c => c.name)
  let gitUrl := detect_common_git_url doc crateNames
  let originalVersions := collectOriginalVersions doc crateNames
  let doc1 := applyVersionUpdates doc managedCrates originalVersions
  match buildPathEntries managedCrates with
  | none => .error .panicEscape
  | some patchTable =>
    let patchKey := gitUrl.getD "crates-io"
    match store_original_versions doc1 originalVersions with
    | none => .error .panicEscape
    | some doc2 =>
      match add_managed_patch doc2 patchKey with
      | none => .error .panicEscape
      | some doc3 =>
        match insertPatchEntries doc3 patchKey patchTable with
        | none => .error .panicEscape
        | some doc4 => .ok doc4

/-- `apply_local_path_patches`, with the workspace query's answer passed
in as `members` (including `query_workspace_crates`' emptiness check) and
the dependency snapshot passed in as `current_deps`, as in the caller. -/
def apply_local_path_patches (doc : Doc) (members : List CrateInfo)
    (current_deps : List (String × String)) (pattern : Option String) :
    Except PatchError Doc :=
  if members.isEmpty then .error .notAWorkspace
  else
    match filter_crates_by_pattern members pattern with
    | .error e => .error e
    | .ok sourceCrates =>
      let cratesToPatch := sourceCrates.filter (fun c => (lookupE current_deps c.name).isSome)
      if cratesToPatch.isEmpty then .ok doc
      else
        let existing := collect_existing_patched_crates doc
        let managedCrates := cratesToPatch.filter (fun c => !(existing.contains c.name))
        if managedCrates.isEmpty then .ok doc
        else localBuildTail doc managedCrates

/-- The inline table written for one crate by `apply_git_patches`. -/
def gitPatchSpec (gitUrl : String) (reference : Option GitReference) : Item :=
  .inlineTbl (("git", Item.str gitUrl) ::
    (match reference with
     | some (.branch b) => [("branch", Item.str b)]
     | some (.tag t) => [("tag", Item.str t)]
     | some (.rev r) => [("rev", Item.str r)]
     | none => []))

/-- Lines 321–388 of `apply_git_patches`: everything after the managed
crate-name set is fixed — original-version recording (no version
rewrites in the git flow), patch-entry construction, metadata writes and
the patch-section merge under `crates-io`. -/
def gitBuildTail (doc : Doc) (gitUrl : String) (reference : Option GitReference)
    (current_deps : List (String × String)) (managedCrates : List String) :
    Except PatchError Doc :=
  let originalVersions := managedCrates.foldl (fun acc n =>
    match lookupE current_deps n with
    | some v => insertE acc n v
    | none => acc) []
  let patchTable := managedCrates.foldl (fun t n =>
    insertE t n (gitPatchSpec gitUrl reference)) []
  match store_original_versions doc originalVersions with
  | none => .error .panicEscape
  | some doc2 =>
    match add_managed_patch doc2 "crates-io" with
    | none => .error .panicEscape
    | some doc3 =>
      match insertPatchEntries doc3 "crates-io" patchTable with
      | none => .error .panicEscape
      | some doc4 => .ok doc4

/-- `apply_git_patches`: a pattern is mandatory; candidates are the
currently declared dependency names matching it. -/
def apply_git_patches (doc : Doc) (gitUrl : String) (reference : Option GitReference)
    (current_deps : List (String × String)) (pattern : Option String) :
    Except PatchError Doc :=
  match pattern with
  | none => .error (.noMatchingCrates "none specified (pattern required for git sources)")
  | some p =>
    match glob_pattern_regex p with
    | .error e => .error e
    | .ok toks =>
      let cratesToPatch := (current_deps.map (fun q => q.1)).filter
        (fun n => reMatch toks n.toList)
      if cratesToPatch.isEmpty then .error (.noMatchingCrates p)
      else
        let existing := collect_existing_patched_crates doc
        let managedCrates := cratesToPatch.filter (fun n => !(existing.contains n))
        if managedCrates.isEmpty then .ok doc
        else gitBuildTail doc gitUrl reference current_deps managedCrates

/-- The restore loops of `apply_patches` (lines 42–56) and
`remove_patches` (lines 414–431), which are textually identical: restore
every recorded original version that is non-empty. -/
def restoreRecordedVersions (doc : Doc) : Doc :=
  ((get_original_versions doc).filter (fun p => p.2 != "")).foldl
    (fun d p => update_dependency_version d p.1 p.2) doc

/-- The self-clean step of `apply_patches` (lines 39–63): when managed
state exists, restore recorded versions and strip the managed patch
entries, swallowing `NoPatchesFound` from the strip. -/
def selfCleanStep (doc : Doc) : Except PatchError Doc :=
  let existingManaged := get_managed_patches doc
  if existingManaged.isEmpty then .ok doc
  else
    let doc1 := restoreRecordedVersions doc
    match remove_managed_patches doc1 with
    | .ok d => .ok d
    | .error .noPatchesFound => .ok doc1
    | .error e => .error e

/-- The source dispatch of `apply_patches` (lines 65–114): snapshot the
current dependencies, then apply the local-path or git flow. -/
def applySourceDispatch (src : PatchSourceM) (doc : Doc) (pattern : Option String) :
    Except PatchError Doc :=
  let current_deps := currentDeps doc
  match src with
  | .localPath members => apply_local_path_patches doc members current_deps pattern
  | .git url reference => apply_git_patches doc url reference current_deps pattern

/-- `apply_patches` on the in-memory document (after the read, before the
final write): self-clean, then dispatch on the source. -/
def apply_patches_doc (src : PatchSourceM) (doc : Doc) (pattern : Option String) :
    Except PatchError Doc :=
  match selfCleanStep doc with
  | .error e => .error e
  | .ok doc1 => applySourceDispatch src doc1 pattern

/-- `remove_patches` on the in-memory document: restore recorded
versions, then strip managed patches.  `remove_managed_patches` reports
`true` whenever it succeeds, so success means "removed" and the caller
writes; its `NoPatchesFound` error is passed through. -/
def remove_patches_doc (doc : Doc) : Except PatchError Doc :=
  remove_managed_patches (restoreRecordedVersions doc)

/-- `apply_patches` at the file boundary: the manifest is read first
(absent file ⇒ `TargetManifestNotFound`), all computation happens on the
in-memory document, and the document is written back only as the final
step of a fully successful run.  Returns the result together with the
final on-disk state. -/
def apply_patches_file (src : PatchSourceM) (disk : Option Doc) (pattern : Option String) :
    Except PatchError Unit × Option Doc :=
  match disk with
  | none => (.error .targetManifestNotFound, none)
  | some doc =>
    match apply_patches_doc src doc pattern with
    | .ok d1 => (.ok (), some d1)
    | .error e => (.error e, some doc)

/-- `remove_patches` at the file boundary, analogous to
`apply_patches_file`. -/
def remove_patches_file (disk : Option Doc) : Except PatchError Unit × Option Doc :=
  match disk with
  | none => (.error .targetManifestNotFound, none)
  | some doc =>
    match remove_patches_doc doc with
    | .ok d1 => (.ok (), some d1)
    | .error e => (.error e, some doc)

/-- The on-disk manifest after running Remove on a manifest Apply just
wrote: Remove's result when it succeeds, the untouched input when it
fails (a failing Remove writes nothing). -/
def removeOnDisk (doc : Doc) : Doc :=
  match remove_patches_doc doc with
  | .ok d => d
  | .error _ => doc

/-! ## Observation helpers used by the claim statements -/

/-- The item stored under origin key `k` of the `[patch]` table. -/
def patchOriginTable (doc : Doc) (k : String) : Option Item :=
  (lookupE doc "patch").bind (fun p => Item.getKey? p k)

/-- The patch entry for crate `c` under origin key `k`. -/
def patchCrateEntry (doc : Doc) (k c : String) : Option Item :=
  (patchOriginTable doc k).bind (fun t => Item.getKey? t c)

/-- Does a `metadata` key exist under the given root key? -/
def hasMetadataUnder (doc : Doc) (root : String) : Bool :=
  ((lookupE doc root).bind (fun w => Item.getKey? w "metadata")).isSome

/-- Does the private `cargo-patch-source` metadata table exist under the
given root key? -/
def hasCpsTable (doc : Doc) (root : String) : Bool :=
  (metaFrom doc root).isSome

/-- The resolved dependency declaration of one crate. -/
def depsEntry (doc : Doc) (c : String) : Option Item :=
  (get_dependencies_table doc).bind (fun es => lookupE es c)

/-- The pattern characters that reach the generated regex unescaped with
a regex meaning (everything the translation neither escapes nor
rewrites): backslash, `+`, groups, classes, alternation, anchors and
braced repetition (`0x7b`/`0x7d` are the braces). -/
def patternUnsafeChars : List Char :=
  ['\\', '+', '(', ')', '[', ']', '|', '^', '$', Char.ofNat 123, Char.ofNat 125]

/-- The per-character composition of the three replacement passes of
`globToRegexChars`. -/
def expandAll (c : Char) : List Char :=
  ((expandDot c).flatMap expandStar).flatMap expandQm

/-! ## Ordered-map lemmas -/

theorem lookupE_insertE_self {β : Type} (es : List (String × β)) (k : String) (v : β) :
    lookupE (insertE es k v) k = some v := by
  induction es with
  | nil => simp [insertE, lookupE]
  | cons p rest ih =>
    obtain ⟨k', v'⟩ := p
    by_cases h : k' = k
    · simp [insertE, h, lookupE]
    · simp [insertE, h, lookupE, ih]

theorem lookupE_insertE_ne {β : Type} (es : List (String × β)) (k k' : String) (v : β)
    (h : k' ≠ k) : lookupE (insertE es k v) k' = lookupE es k' := by
  induction es with
  | nil => simp [insertE, lookupE, Ne.symm h]
  | cons p rest ih =>
    obtain ⟨k1, v1⟩ := p
    by_cases h1 : k1 = k
    · subst h1
      simp [insertE, lookupE, Ne.symm h]
    · simp [insertE, h1, lookupE, ih]

theorem insertE_of_lookupE {β : Type} (es : List (String × β)) (k : String) (v : β)
    (h : lookupE es k = some v) : insertE es k v = es := by
  induction es with
  | nil => simp [lookupE] at h
  | cons p rest ih =>
    obtain ⟨k1, v1⟩ := p
    by_cases h1 : k1 = k
    · subst h1
      simp [lookupE] at h
      simp [insertE, h]
    · simp [lookupE, h1] at h
      simp [insertE, h1, ih h]

theorem insertE_insertE {β : Type} (es : List (String × β)) (k : String) (v w : β) :
    insertE (insertE es k v) k w = insertE es k w := by
  induction es with
  | nil => simp [insertE]
  | cons p rest ih =>
    obtain ⟨k1, v1⟩ := p
    by_cases h1 : k1 = k
    · simp [insertE, h1]
    · simp [insertE, h1, ih]

theorem lookupE_removeE_ne {β : Type} (es : List (String × β)) (k k' : String)
    (h : k' ≠ k) : lookupE (removeE es k) k' = lookupE es k' := by
  induction es with
  | nil => simp [removeE]
  | cons p rest ih =>
    obtain ⟨k1, v1⟩ := p
    by_cases h1 : k1 = k
    · subst h1
      simp [removeE, lookupE, Ne.symm h, ih]
    · simp [removeE, h1, lookupE, ih]

theorem lookupE_removeE_self {β : Type} (es : List (String × β)) (k : String) :
    lookupE (removeE es k) k = none := by
  induction es with
  | nil => simp [removeE, lookupE]
  | cons p rest ih =>
    obtain ⟨k1, v1⟩ := p
    by_cases h1 : k1 = k
    · simp [removeE, h1, ih]
    · simp [removeE, h1, lookupE, ih]

theorem removeE_insertE {β : Type} (es : List (String × β)) (k : String) (v : β) :
    removeE (insertE es k v) k = removeE es k := by
  induction es with
  | nil => simp [insertE, removeE]
  | cons p rest ih =>
    obtain ⟨k1, v1⟩ := p
    by_cases h1 : k1 = k
    · simp [insertE, removeE, h1]
    · simp [insertE, removeE, h1, ih]

theorem removeE_of_lookupE_none {β : Type} (es : List (String × β)) (k : String)
    (h : lookupE es k = none) : removeE es k = es := by
  induction es with
  | nil => simp [removeE]
  | cons p rest ih =>
    obtain ⟨k1, v1⟩ := p
    by_cases h1 : k1 = k
    · simp [lookupE, h1] at h
    · simp [lookupE, h1] at h
      simp [removeE, h1, ih h]

/-! ## Majority counting (for the git-origin inference) -/

theorem count_add_count_le_length {l : List String} {a b : String} (h : a ≠ b) :
    l.count a + l.count b ≤ l.length := by
  induction l with
  | nil => simp
  | cons x xs ih =>
    by_cases hxa : x = a
    · subst hxa
      simp [List.count_cons, h]
      omega
    · by_cases hxb : x = b
      · subst hxb
        simp [List.count_cons, hxa]
        omega
      · simp [List.count_cons, hxa, hxb]
        omega

theorem detect_eq_some_iff (doc : Doc) (names : List String) (u : String) :
    detect_common_git_url doc names = some u ↔
      names.length / 2 < (declaredGitUrls doc names).count u := by
  unfold detect_common_git_url declaredGitUrls
  cases hd : get_dependencies_table doc with
  | none => simp
  | some deps =>
    simp only
    constructor
    · intro h
      have := List.find?_some h
      simpa using this
    · intro h
      set urls := names.filterMap (fun n => (lookupE deps n).bind get_dependency_git_url)
        with hurls
      have hmem : u ∈ urls := by
        have hpos : 0 < urls.count u := lt_of_le_of_lt (Nat.zero_le _) h
        exact List.count_pos_iff.mp hpos
      cases hf : urls.find? (fun x => decide (names.length / 2 < urls.count x)) with
      | none =>
        exfalso
        have := List.find?_eq_none.mp hf u hmem
        simp at this
        omega
      | some v =>
        have hv := List.find?_some hf
        simp at hv
        have hlen : urls.length ≤ names.length := List.length_filterMap_le _ _
        by_cases huv : v = u
        · rw [huv]
        · exfalso
          have := @count_add_count_le_length urls v u huv
          omega

/-- C6: for every manifest document and candidate list, the common-git-
origin inference returns a URL `u` if and only if the number of
candidates declaring `u` as their `git` URL is strictly greater than
`len(crate_names) / 2` (integer division); in particular ties and
pluralities without a strict majority yield `none`. -/
theorem c6_detect_majority (doc : Doc) (names : List String) (u : String) :
    detect_common_git_url doc names = some u ↔
      names.length / 2 < (declaredGitUrls doc names).count u :=
  detect_eq_some_iff doc names u

/-- C10: the common-git-origin inference is deterministic although the
Rust code folds the counts through an unordered `HashMap` and takes
`max_by_key`: any URL that is maximal by count, once filtered by the
strict-majority rule, yields the one result `detect_common_git_url`
computes — so every tie-break choice of the unordered maximum gives the
same answer, because at most one URL can exceed half the candidate
count. -/
theorem c10_detect_deterministic (doc : Doc) (names : List String) (u : String)
    (hmem : u ∈ declaredGitUrls doc names)
    (hmax : ∀ v ∈ declaredGitUrls doc names,
      (declaredGitUrls doc names).count v ≤ (declaredGitUrls doc names).count u) :
    (if names.length / 2 < (declaredGitUrls doc names).count u then some u else none) =
      detect_common_git_url doc names := by
  by_cases hmaj : names.length / 2 < (declaredGitUrls doc names).count u
  · rw [if_pos hmaj]
    exact ((detect_eq_some_iff doc names u).mpr hmaj).symm
  · rw [if_neg hmaj]
    cases hd : detect_common_git_url doc names with
    | none => rfl
    | some w =>
      exfalso
      have hw := (detect_eq_some_iff doc names w).mp hd
      have hwmem : w ∈ declaredGitUrls doc names :=
        List.count_pos_iff.mp (lt_of_le_of_lt (Nat.zero_le _) hw)
      have := hmax w hwmem
      omega

/-- A three-crate dependency table where two crates share one git URL. -/
def detectWitnessDoc : Doc :=
  [("dependencies", .table
     [("a", .inlineTbl [("git", .str "https://example.com/repo")]),
      ("b", .inlineTbl [("git", .str "https://example.com/repo")]),
      ("c", .str "1.0.0")])]

theorem c10_detect_deterministic_witness :
    (if (["a", "b", "c"] : List String).length / 2 <
        (declaredGitUrls detectWitnessDoc ["a", "b", "c"]).count "https://example.com/repo"
     then some "https://example.com/repo" else none) =
      detect_common_git_url detectWitnessDoc ["a", "b", "c"] :=
  c10_detect_deterministic detectWitnessDoc ["a", "b", "c"] "https://example.com/repo"
    (by decide) (by decide)

/-! ## The pattern matcher (C4) -/

theorem globToRegexChars_nil : globToRegexChars [] = [] := rfl

theorem globToRegexChars_cons (c : Char) (cs : List Char) :
    globToRegexChars (c :: cs) = expandAll c ++ globToRegexChars cs := by
  simp [globToRegexChars, expandAll, List.flatMap_cons, List.flatMap_append]

theorem parseRE_backslash (c2 : Char) (rest : List Char) (acc : List RTok) :
    parseRE ('\\' :: c2 :: rest) acc = parseRE rest (RTok.atom (Atom.chr c2) :: acc) := by
  rw [parseRE.eq_def]
  simp

theorem parseRE_dot (rest : List Char) (acc : List RTok) :
    parseRE ('.' :: rest) acc = parseRE rest (RTok.atom Atom.anyChar :: acc) := by
  rw [parseRE.eq_def]
  simp

theorem parseRE_star_atom (rest : List Char) (a : Atom) (acc2 : List RTok) :
    parseRE ('*' :: rest) (RTok.atom a :: acc2) = parseRE rest (RTok.star a :: acc2) := by
  rw [parseRE.eq_def]
  simp

theorem parseRE_lit (c : Char) (rest : List Char) (acc : List RTok)
    (h1 : ¬ c = '\\') (h2 : ¬ c = '.') (h3 : ¬ c = '*') (h4 : ¬ c = '+')
    (h5 : ¬ c ∈ regexSpecials) :
    parseRE (c :: rest) acc = parseRE rest (RTok.atom (Atom.chr c) :: acc) := by
  rw [parseRE.eq_def]
  simp [h1, h2, h3, h4, h5]

theorem parseRE_glob (p : List Char) (acc : List RTok)
    (hp : ∀ c ∈ p, c ∉ patternUnsafeChars) :
    parseRE (globToRegexChars p) acc = some (acc.reverse ++ p.map specTok) := by
  induction p generalizing acc with
  | nil => simp [globToRegexChars_nil, parseRE]
  | cons c cs ih =>
    have hc : c ∉ patternUnsafeChars := hp c (by simp)
    have hcs : ∀ x ∈ cs, x ∉ patternUnsafeChars := fun x hx => hp x (by simp [hx])
    have hcsplit : ¬ c = '\\' ∧ ¬ c = '+' ∧ ¬ c = '(' ∧ ¬ c = ')' ∧ ¬ c = '[' ∧
        ¬ c = ']' ∧ ¬ c = '|' ∧ ¬ c = '^' ∧ ¬ c = '$' ∧ ¬ c = Char.ofNat 123 ∧
        ¬ c = Char.ofNat 125 := by
      simpa [patternUnsafeChars] using hc
    rw [globToRegexChars_cons]
    by_cases hdot : c = '.'
    · subst hdot
      have he : expandAll '.' = ['\\', '.'] := rfl
      rw [he]
      simp only [List.cons_append, List.nil_append]
      rw [parseRE_backslash, ih _ hcs]
      simp [specTok]
    · by_cases hstar : c = '*'
      · subst hstar
        have he : expandAll '*' = ['.', '*'] := rfl
        rw [he]
        simp only [List.cons_append, List.nil_append]
        rw [parseRE_dot, parseRE_star_atom, ih _ hcs]
        simp [specTok]
      · by_cases hq : c = '?'
        · subst hq
          have he : expandAll '?' = ['.'] := rfl
          rw [he]
          simp only [List.cons_append, List.nil_append]
          rw [parseRE_dot, ih _ hcs]
          simp [specTok]
        · have he : expandAll c = [c] := by
            simp [expandAll, expandDot, expandStar, expandQm, hdot, hstar, hq]
          have hspec : ¬ c ∈ regexSpecials := by
            simp [regexSpecials, hq, hcsplit.2.2.1, hcsplit.2.2.2.1, hcsplit.2.2.2.2.1,
              hcsplit.2.2.2.2.2.1, hcsplit.2.2.2.2.2.2.1, hcsplit.2.2.2.2.2.2.2.1,
              hcsplit.2.2.2.2.2.2.2.2.1, hcsplit.2.2.2.2.2.2.2.2.2.1,
              hcsplit.2.2.2.2.2.2.2.2.2.2]
          rw [he]
          simp only [List.cons_append, List.nil_append]
          rw [parseRE_lit c _ _ hcsplit.1 hdot hstar hcsplit.2.1 hspec, ih _ hcs]
          simp [specTok, hstar, hq]

theorem stripAnchors_regexOfPattern (p : String) :
    stripAnchors (regexOfPattern p) = some (globToRegexChars p.toList) := by
  simp [stripAnchors, regexOfPattern, List.getLast?_concat, List.dropLast_concat]

/-- C4 counterexample: the pattern compiler escapes only `.`, not every
regex metacharacter.  On the pattern `"a+"` the compiled matcher accepts
the crate name `"aa"` (the `+` acts as regex repetition), while matching
every non-wildcard character literally — as the claim states — rejects
it.  So the claim's description of the compiled matcher is false at
pattern `"a+"`, name `"aa"`. -/
theorem c4_counterexample :
    rustGlobMatch "a+" "aa" = some true ∧ specGlobMatch "a+" "aa" = false := by
  constructor
  · rfl
  · rfl

/-- C4 (amended): for every pattern none of whose characters is an
unescaped regex metacharacter (backslash, `+`, groups, classes,
alternation, anchors, braces) the compiled matcher behaves exactly as the
claim states: `*` is zero-or-more of any character, `?` exactly one,
every other character matches literally, and a name matches iff it
entirely satisfies the pattern. -/
theorem c4_glob_matcher (p s : String)
    (hp : ∀ c ∈ p.toList, c ∉ patternUnsafeChars) :
    rustGlobMatch p s = some (specGlobMatch p s) := by
  unfold rustGlobMatch compileGlob specGlobMatch
  rw [stripAnchors_regexOfPattern]
  simp only [Option.some_bind]
  rw [parseRE_glob _ _ hp]
  simp

theorem c4_glob_matcher_witness :
    rustGlobMatch "ra?tl*" "rattler-one" = some (specGlobMatch "ra?tl*" "rattler-one") :=
  c4_glob_matcher "ra?tl*" "rattler-one" (by decide)

/-! ## Item accessor lemmas -/

theorem Item.asTable?_eq_some {x : Item} {es : Entries} :
    Item.asTable? x = some es ↔ x = .table es := by
  cases x <;> simp [Item.asTable?]

theorem Item.getKey?_setKey_self (w : Item) (k : String) (x y : Item)
    (h : Item.getKey? w k = some y) : Item.getKey? (w.setKey k x) k = some x := by
  cases w <;> simp_all [Item.getKey?, Item.setKey, lookupE_insertE_self]

theorem Item.getKey?_setKey_ne (w : Item) (k k' : String) (x : Item) (h : k' ≠ k) :
    Item.getKey? (w.setKey k x) k' = Item.getKey? w k' := by
  cases w <;> simp_all [Item.getKey?, Item.setKey, lookupE_insertE_ne _ _ _ _ h]

theorem Item.setKey_of_getKey? (w : Item) (k : String) (y : Item)
    (h : Item.getKey? w k = some y) : w.setKey k y = w := by
  cases w <;> simp_all [Item.getKey?, Item.setKey, insertE_of_lookupE]

/-! ## Dependency-table resolution (read/write agreement) -/

/-- The read and write resolutions of the dependency table agree: either
there is no resolved table and every write is a no-op, or there is one and
writing applies the mutation to exactly that table (and is a no-op when
the mutation is). -/
theorem depsTable_cases (doc : Doc) :
    (get_dependencies_table doc = none ∧ ∀ f, modifyDeps doc f = doc)
    ∨ (∃ es, get_dependencies_table doc = some es ∧
        ∀ f, get_dependencies_table (modifyDeps doc f) = some (f es)
          ∧ (f es = es → modifyDeps doc f = doc)) := by
  by_cases hw : hasWorkspaceDeps doc
  · right
    obtain ⟨w, hwl, dw, hdw, es, hes⟩ : ∃ w, lookupE doc "workspace" = some w ∧
        ∃ dw, Item.getKey? w "dependencies" = some dw ∧ ∃ es, dw = Item.table es := by
      unfold hasWorkspaceDeps at hw
      cases hwl : lookupE doc "workspace" with
      | none => simp [hwl] at hw
      | some w =>
        cases hdw : Item.getKey? w "dependencies" with
        | none => simp [hwl, hdw] at hw
        | some dw =>
          cases dw <;> simp_all [Item.asTable?]
    subst hes
    refine ⟨es, ?_, ?_⟩
    · simp [get_dependencies_table, hwl, hdw]
    · intro f
      have hmod : modifyDeps doc f =
          insertE doc "workspace" (w.setKey "dependencies" (.table (f es))) := by
        simp [modifyDeps, hw, hwl, hdw]
      constructor
      · rw [hmod]
        have h1 : lookupE (insertE doc "workspace" (w.setKey "dependencies" (.table (f es))))
            "workspace" = some (w.setKey "dependencies" (.table (f es))) :=
          lookupE_insertE_self _ _ _
        have h2 : Item.getKey? (w.setKey "dependencies" (.table (f es))) "dependencies" =
            some (.table (f es)) := Item.getKey?_setKey_self _ _ _ _ hdw
        simp [get_dependencies_table, h1, h2]
      · intro hfes
        rw [hmod, hfes, Item.setKey_of_getKey? _ _ _ hdw, insertE_of_lookupE _ _ _ hwl]
  · have hread : get_dependencies_table doc = topLevelDeps doc := by
      unfold get_dependencies_table
      cases hwl : lookupE doc "workspace" with
      | none => rfl
      | some w =>
        cases hdw : Item.getKey? w "dependencies" with
        | none => simp [hdw]
        | some dw =>
          cases dw <;> simp_all [hasWorkspaceDeps, hwl, hdw, Item.asTable?]
    cases htop : lookupE doc "dependencies" with
    | none =>
      left
      constructor
      · rw [hread]; simp [topLevelDeps, htop]
      · intro f
        simp [modifyDeps, hw, htop]
    | some d =>
      cases d with
      | table es =>
        right
        refine ⟨es, ?_, ?_⟩
        · rw [hread]; simp [topLevelDeps, htop]
        · intro f
          have hmod : modifyDeps doc f = insertE doc "dependencies" (.table (f es)) := by
            simp [modifyDeps, hw, htop]
          constructor
          · rw [hmod]
            have hws' : lookupE (insertE doc "dependencies" (.table (f es))) "workspace" =
                lookupE doc "workspace" :=
              lookupE_insertE_ne _ _ _ _ (by decide)
            have htop' : lookupE (insertE doc "dependencies" (.table (f es))) "dependencies" =
                some (.table (f es)) := lookupE_insertE_self _ _ _
            unfold get_dependencies_table topLevelDeps
            rw [hws', htop']
            cases hwl : lookupE doc "workspace" with
            | none => rfl
            | some w =>
              cases hdw : Item.getKey? w "dependencies" with
              | none => simp [hdw]
              | some dw =>
                cases dw <;> simp_all [hasWorkspaceDeps, hwl, hdw, Item.asTable?]
          · intro hfes
            rw [hmod, hfes, insertE_of_lookupE _ _ _ htop]
      | str s =>
        left
        refine ⟨by rw [hread]; simp [topLevelDeps, htop], fun f => by simp [modifyDeps, hw, htop]⟩
      | scalar =>
        left
        refine ⟨by rw [hread]; simp [topLevelDeps, htop], fun f => by simp [modifyDeps, hw, htop]⟩
      | arr xs =>
        left
        refine ⟨by rw [hread]; simp [topLevelDeps, htop], fun f => by simp [modifyDeps, hw, htop]⟩
      | inlineTbl fs =>
        left
        refine ⟨by rw [hread]; simp [topLevelDeps, htop], fun f => by simp [modifyDeps, hw, htop]⟩

/-- C5: `update_dependency_version` resolves the dependency table by the
same rule as reads; it is a silent no-op when the crate is absent from
the resolved table (or there is none); a plain string declaration is
replaced wholesale by the new plain string; an inline-table or table
declaration has its `version` field updated in place when one exists and
is left completely unchanged when it has no `version` field — a version
field is never added. -/
theorem c5_set_version (doc : Doc) (c v : String) :
    (depsEntry doc c = none → update_dependency_version doc c v = doc)
    ∧ (∀ es s, get_dependencies_table doc = some es → lookupE es c = some (.str s) →
        get_dependencies_table (update_dependency_version doc c v) =
          some (insertE es c (.str v)))
    ∧ (∀ es fs, get_dependencies_table doc = some es → lookupE es c = some (.inlineTbl fs) →
        (lookupE fs "version").isSome →
        get_dependencies_table (update_dependency_version doc c v) =
          some (insertE es c (.inlineTbl (insertE fs "version" (.str v)))))
    ∧ (∀ es fs, get_dependencies_table doc = some es → lookupE es c = some (.inlineTbl fs) →
        lookupE fs "version" = none → update_dependency_version doc c v = doc)
    ∧ (∀ es fs, get_dependencies_table doc = some es → lookupE es c = some (.table fs) →
        (lookupE fs "version").isSome →
        get_dependencies_table (update_dependency_version doc c v) =
          some (insertE es c (.table (insertE fs "version" (.str v)))))
    ∧ (∀ es fs, get_dependencies_table doc = some es → lookupE es c = some (.table fs) →
        lookupE fs "version" = none → update_dependency_version doc c v = doc) := by
  rcases depsTable_cases doc with ⟨hnone, hmod⟩ | ⟨es0, hes0, hf⟩
  · refine ⟨fun _ => hmod _, ?_, ?_, ?_, ?_, ?_⟩ <;>
      (intro es _ hes; rw [hnone] at hes; exact absurd hes (by simp))
  · constructor
    · intro habs
      rw [depsEntry, hes0] at habs
      simp at habs
      exact (hf _).2 (by simp [depsUpdate1, habs])
    · constructor
      · intro es s hes hlk
        rw [hes0] at hes
        injection hes with hes
        subst hes
        have := (hf (fun es => depsUpdate1 es c v)).1
        rw [update_dependency_version, this, depsUpdate1, hlk]
        simp [updateDepItem]
      · constructor
        · intro es fs hes hlk hver
          rw [hes0] at hes
          injection hes with hes
          subst hes
          have := (hf (fun es => depsUpdate1 es c v)).1
          rw [update_dependency_version, this, depsUpdate1, hlk]
          simp [updateDepItem, hver]
        · constructor
          · intro es fs hes hlk hver
            rw [hes0] at hes
            injection hes with hes
            subst hes
            refine (hf _).2 ?_
            rw [depsUpdate1, hlk]
            simp [updateDepItem, hver]
            exact insertE_of_lookupE _ _ _ hlk
          · constructor
            · intro es fs hes hlk hver
              rw [hes0] at hes
              injection hes with hes
              subst hes
              have := (hf (fun es => depsUpdate1 es c v)).1
              rw [update_dependency_version, this, depsUpdate1, hlk]
              simp [updateDepItem, hver]
            · intro es fs hes hlk hver
              rw [hes0] at hes
              injection hes with hes
              subst hes
              refine (hf _).2 ?_
              rw [depsUpdate1, hlk]
              simp [updateDepItem, hver]
              exact insertE_of_lookupE _ _ _ hlk

/-- A dependency table with a plain declaration and a git-only inline
declaration. -/
def c5WitnessDoc : Doc :=
  [("dependencies", .table
     [("plain", .str "1.0.0"),
      ("gitdep", .inlineTbl [("git", .str "https://example.com/repo")])])]

/-- C8: every failing Apply or Remove invocation leaves the on-disk
manifest untouched — the document is written back only as the very last
step of a fully successful run, so no mid-computation failure persists
any mutation. -/
theorem c8_no_write_on_error (src : PatchSourceM) (disk : Option Doc) (pattern : Option String)
    (e e' : PatchError) :
    ((apply_patches_file src disk pattern).1 = .error e →
      (apply_patches_file src disk pattern).2 = disk)
    ∧ ((remove_patches_file disk).1 = .error e' →
      (remove_patches_file disk).2 = disk) := by
  constructor
  · intro h
    cases disk with
    | none => rfl
    | some doc =>
      unfold apply_patches_file at h ⊢
      cases happ : apply_patches_doc src doc pattern with
      | ok d => simp [happ] at h
      | error e2 => simp [happ]
  · intro h
    cases disk with
    | none => rfl
    | some doc =>
      unfold remove_patches_file at h ⊢
      cases hrem : remove_patches_doc doc with
      | ok d => simp [hrem] at h
      | error e2 => simp [hrem]

theorem c8_no_write_on_error_witness :
    (apply_patches_file (.git "https://example.com/repo" none) none none).2 = none ∧
    (remove_patches_file (none : Option Doc)).2 = none :=
  ⟨(c8_no_write_on_error (.git "https://example.com/repo" none) none none
      .targetManifestNotFound .targetManifestNotFound).1 rfl,
   (c8_no_write_on_error (.git "https://example.com/repo" none) none none
      .targetManifestNotFound .targetManifestNotFound).2 rfl⟩

/-! ## Frame lemmas: version updates touch only the dependency table -/

theorem modifyDeps_shape (doc : Doc) (f : Entries → Entries) :
    modifyDeps doc f = doc
    ∨ (∃ w es, lookupE doc "workspace" = some w ∧
        Item.getKey? w "dependencies" = some (.table es) ∧
        modifyDeps doc f = insertE doc "workspace" (w.setKey "dependencies" (.table (f es))))
    ∨ (∃ es, lookupE doc "dependencies" = some (.table es) ∧
        modifyDeps doc f = insertE doc "dependencies" (.table (f es))) := by
  by_cases hw : hasWorkspaceDeps doc
  · right; left
    unfold hasWorkspaceDeps at hw
    cases hwl : lookupE doc "workspace" with
    | none => simp [hwl] at hw
    | some w =>
      cases hdw : Item.getKey? w "dependencies" with
      | none => simp [hwl, hdw] at hw
      | some dw =>
        cases dw with
        | str s => simp [hwl, hdw, Item.asTable?] at hw
        | scalar => simp [hwl, hdw, Item.asTable?] at hw
        | arr xs => simp [hwl, hdw, Item.asTable?] at hw
        | inlineTbl fs => simp [hwl, hdw, Item.asTable?] at hw
        | table es =>
          refine ⟨w, es, rfl, hdw, ?_⟩
          have hw2 : hasWorkspaceDeps doc := by
            simp [hasWorkspaceDeps, hwl, hdw, Item.asTable?]
          simp [modifyDeps, hw2, hwl, hdw]
  · cases htop : lookupE doc "dependencies" with
    | none => left; simp [modifyDeps, hw, htop]
    | some d =>
      cases d with
      | table es => right; right; exact ⟨es, rfl, by simp [modifyDeps, hw, htop]⟩
      | str s => left; simp [modifyDeps, hw, htop]
      | scalar => left; simp [modifyDeps, hw, htop]
      | arr xs => left; simp [modifyDeps, hw, htop]
      | inlineTbl fs => left; simp [modifyDeps, hw, htop]

theorem modifyDeps_lookupE_ne (doc : Doc) (f : Entries → Entries) (k : String)
    (h1 : ¬ k = "workspace") (h2 : ¬ k = "dependencies") :
    lookupE (modifyDeps doc f) k = lookupE doc k := by
  rcases modifyDeps_shape doc f with h | ⟨w, es, _, _, h⟩ | ⟨es, _, h⟩
  · rw [h]
  · rw [h, lookupE_insertE_ne _ _ _ _ h1]
  · rw [h, lookupE_insertE_ne _ _ _ _ h2]

theorem modifyDeps_ws_getKey_ne (doc : Doc) (f : Entries → Entries) (sub : String)
    (hsub : ¬ sub = "dependencies") :
    ((lookupE (modifyDeps doc f) "workspace").bind (fun w => Item.getKey? w sub)) =
      ((lookupE doc "workspace").bind (fun w => Item.getKey? w sub)) := by
  rcases modifyDeps_shape doc f with h | ⟨w, es, hwl, hdw, h⟩ | ⟨es, htop, h⟩
  · rw [h]
  · rw [h, lookupE_insertE_self, hwl]
    simp [Item.getKey?_setKey_ne _ _ _ _ hsub]
  · rw [h, lookupE_insertE_ne _ _ _ _ (by decide)]

theorem metaFrom_modifyDeps (doc : Doc) (f : Entries → Entries) (root : String)
    (hroot : root = "workspace" ∨ root = "package") :
    metaFrom (modifyDeps doc f) root = metaFrom doc root := by
  rcases hroot with h | h <;> subst h <;> unfold metaFrom
  · rw [modifyDeps_ws_getKey_ne doc f "metadata" (by decide)]
  · rw [modifyDeps_lookupE_ne doc f "package" (by decide) (by decide)]

theorem get_metadata_table_modifyDeps (doc : Doc) (f : Entries → Entries) :
    get_metadata_table (modifyDeps doc f) = get_metadata_table doc := by
  unfold get_metadata_table
  rw [metaFrom_modifyDeps doc f "workspace" (Or.inl rfl),
    metaFrom_modifyDeps doc f "package" (Or.inr rfl)]

theorem is_workspace_modifyDeps (doc : Doc) (f : Entries → Entries) :
    is_workspace (modifyDeps doc f) = is_workspace doc := by
  rcases modifyDeps_shape doc f with h | ⟨w, es, hwl, hdw, h⟩ | ⟨es, htop, h⟩
  · rw [h]
  · rw [h]
    simp [is_workspace, lookupE_insertE_self, hwl]
  · rw [h]
    simp [is_workspace, lookupE_insertE_ne _ _ _ _ (by decide : ¬ "workspace" = "dependencies")]

theorem get_managed_patches_update (doc : Doc) (n v : String) :
    get_managed_patches (update_dependency_version doc n v) = get_managed_patches doc := by
  unfold get_managed_patches update_dependency_version
  rw [get_metadata_table_modifyDeps]

theorem get_original_versions_update (doc : Doc) (n v : String) :
    get_original_versions (update_dependency_version doc n v) = get_original_versions doc := by
  unfold get_original_versions update_dependency_version
  rw [get_metadata_table_modifyDeps]

theorem patch_lookup_update (doc : Doc) (n v : String) :
    lookupE (update_dependency_version doc n v) "patch" = lookupE doc "patch" := by
  unfold update_dependency_version
  exact modifyDeps_lookupE_ne doc _ "patch" (by decide) (by decide)

theorem get_metadata_table_restoreFold (l : List (String × String)) (doc : Doc) :
    get_metadata_table (l.foldl (fun d p => update_dependency_version d p.1 p.2) doc) =
      get_metadata_table doc := by
  induction l generalizing doc with
  | nil => rfl
  | cons p rest ih =>
    rw [List.foldl_cons, ih]
    unfold update_dependency_version
    rw [get_metadata_table_modifyDeps]

theorem patch_lookup_restoreFold (l : List (String × String)) (doc : Doc) :
    lookupE (l.foldl (fun d p => update_dependency_version d p.1 p.2) doc) "patch" =
      lookupE doc "patch" := by
  induction l generalizing doc with
  | nil => rfl
  | cons p rest ih =>
    rw [List.foldl_cons, ih, patch_lookup_update]

theorem get_managed_patches_restore (doc : Doc) :
    get_managed_patches (restoreRecordedVersions doc) = get_managed_patches doc := by
  unfold restoreRecordedVersions get_managed_patches
  rw [get_metadata_table_restoreFold]

theorem get_original_versions_restore (doc : Doc) :
    get_original_versions (restoreRecordedVersions doc) = get_original_versions doc := by
  unfold restoreRecordedVersions get_original_versions
  rw [get_metadata_table_restoreFold]

theorem patch_lookup_restore (doc : Doc) :
    lookupE (restoreRecordedVersions doc) "patch" = lookupE doc "patch" := by
  unfold restoreRecordedVersions
  rw [patch_lookup_restoreFold]

/-! ## The metadata writer (`get_or_create_metadata_table`) -/

theorem withTableAt1_spec {es : Entries} {k : String} {f : Entries → Option Entries}
    {res : Entries} (h : withTableAt1 es k f = some res) :
    ∃ inner inner2,
      (lookupE es k = some (.table inner) ∨ (lookupE es k = none ∧ inner = []))
      ∧ f inner = some inner2 ∧ res = insertE es k (.table inner2) := by
  unfold withTableAt1 at h
  cases hl : lookupE es k with
  | none =>
    rw [hl] at h
    cases hf : f [] with
    | none => rw [hf] at h; exact absurd h (by simp)
    | some inner2 =>
      rw [hf] at h
      simp at h
      exact ⟨[], inner2, Or.inr ⟨rfl, rfl⟩, hf, h.symm⟩
  | some it =>
    rw [hl] at h
    cases it with
    | table inner =>
      simp only [] at h
      cases hf : f inner with
      | none => rw [hf] at h; exact absurd h (by simp)
      | some inner2 =>
        rw [hf] at h
        simp at h
        exact ⟨inner, inner2, Or.inl rfl, hf, h.symm⟩
    | str s => exact absurd h (by simp)
    | scalar => exact absurd h (by simp)
    | arr xs => exact absurd h (by simp)
    | inlineTbl fs => exact absurd h (by simp)

/-- Full characterization of a successful `withMetaTable doc f = some d'`:
everything away from the chosen metadata root is untouched; under the
root, only the `metadata` key changes; the root key exists afterwards;
and the private metadata table of `d'` is exactly `f` applied to the
previous table (or to the empty table when none existed on the path). -/
theorem withMetaTable_spec (doc : Doc) (f : Entries → Entries) (d' : Doc)
    (h : withMetaTable doc f = some d') :
    (∀ k, ¬ k = metaRootKey doc → lookupE d' k = lookupE doc k)
    ∧ (∀ sub, ¬ sub = "metadata" →
        ((lookupE d' (metaRootKey doc)).bind (fun w => Item.getKey? w sub)) =
          ((lookupE doc (metaRootKey doc)).bind (fun w => Item.getKey? w sub)))
    ∧ (lookupE d' (metaRootKey doc)).isSome
    ∧ (∃ m, (metaFrom doc (metaRootKey doc) = some m ∨
          (metaFrom doc (metaRootKey doc) = none ∧ m = []))
        ∧ metaFrom d' (metaRootKey doc) = some (f m)) := by
  obtain ⟨wes, L1, hroot, h2, hd'⟩ := withTableAt1_spec h
  obtain ⟨r2, L2, hmeta, h3, hL1⟩ := withTableAt1_spec h2
  obtain ⟨m, mm, hkey, hfm, hL2⟩ := withTableAt1_spec h3
  have hmm : mm = f m := by simpa using hfm.symm
  subst hmm
  subst hd'
  subst hL1
  subst hL2
  refine ⟨?_, ?_, ?_, ?_⟩
  · intro k hk
    exact lookupE_insertE_ne _ _ _ _ hk
  · intro sub hsub
    have hsub' : ¬ "metadata" = sub := fun hh => hsub hh.symm
    rw [lookupE_insertE_self]
    rcases hroot with hroot | ⟨hroot, hwes⟩
    · rw [hroot]
      simp [Item.getKey?, lookupE_insertE_ne _ _ _ _ hsub]
    · subst hwes
      rw [hroot]
      simp [Item.getKey?, lookupE_insertE_ne _ _ _ _ hsub, lookupE, hsub']
  · rw [lookupE_insertE_self]
    rfl
  · refine ⟨m, ?_, ?_⟩
    · rcases hroot with hroot | ⟨hroot, hwes⟩
      · rcases hmeta with hmeta | ⟨hmeta, hr2⟩
        · rcases hkey with hkey | ⟨hkey, hm⟩
          · left
            unfold metaFrom
            rw [hroot]
            simp only [Option.some_bind, Item.getKey?, hmeta, hkey]
          · right
            refine ⟨?_, hm⟩
            unfold metaFrom
            rw [hroot]
            simp only [Option.some_bind, Item.getKey?, hmeta, hkey]
        · subst hr2
          rcases hkey with hkey | ⟨hkey, hm⟩
          · simp [lookupE] at hkey
          · right
            refine ⟨?_, hm⟩
            unfold metaFrom
            rw [hroot]
            simp only [Option.some_bind, Item.getKey?, hmeta]
      · subst hwes
        rcases hmeta with hmeta | ⟨hmeta, hr2⟩
        · simp [lookupE] at hmeta
        · subst hr2
          rcases hkey with hkey | ⟨hkey, hm⟩
          · simp [lookupE] at hkey
          · right
            refine ⟨?_, hm⟩
            unfold metaFrom
            rw [hroot]
            simp
    · unfold metaFrom
      rw [lookupE_insertE_self]
      simp only [Option.some_bind, Item.getKey?, lookupE_insertE_self]

theorem get_dependencies_table_eq_bind (doc : Doc) :
    get_dependencies_table doc =
      (match (lookupE doc "workspace").bind (fun w => Item.getKey? w "dependencies") with
       | some (.table es) => some es
       | _ => topLevelDeps doc) := by
  unfold get_dependencies_table
  cases hwl : lookupE doc "workspace" with
  | none => rfl
  | some w => simp only [Option.some_bind]

theorem get_deps_insert_other (doc : Doc) (k : String) (x : Item)
    (h1 : ¬ k = "workspace") (h2 : ¬ k = "dependencies") :
    get_dependencies_table (insertE doc k x) = get_dependencies_table doc := by
  rw [get_dependencies_table_eq_bind, get_dependencies_table_eq_bind doc]
  rw [lookupE_insertE_ne _ _ _ _ (Ne.symm h1)]
  have : topLevelDeps (insertE doc k x) = topLevelDeps doc := by
    unfold topLevelDeps
    rw [lookupE_insertE_ne _ _ _ _ (Ne.symm h2)]
  rw [this]

theorem metaRootKey_cases (doc : Doc) :
    (is_workspace doc = true ∧ metaRootKey doc = "workspace")
    ∨ (is_workspace doc = false ∧ metaRootKey doc = "package") := by
  unfold metaRootKey
  by_cases hw : is_workspace doc
  · exact Or.inl ⟨hw, by simp [hw]⟩
  · exact Or.inr ⟨by simpa using hw, by simp [hw]⟩

theorem is_workspace_false_lookup (doc : Doc) (h : is_workspace doc = false) :
    lookupE doc "workspace" = none := by
  unfold is_workspace at h
  cases hl : lookupE doc "workspace" with
  | none => rfl
  | some w => rw [hl] at h; simp at h

theorem withMeta_deps (doc : Doc) (f : Entries → Entries) (d' : Doc)
    (h : withMetaTable doc f = some d') :
    get_dependencies_table d' = get_dependencies_table doc := by
  obtain ⟨hne, hsub, _, _⟩ := withMetaTable_spec doc f d' h
  rcases metaRootKey_cases doc with ⟨hw, hroot⟩ | ⟨hw, hroot⟩
  · rw [hroot] at hne hsub
    rw [get_dependencies_table_eq_bind, get_dependencies_table_eq_bind doc]
    rw [hsub "dependencies" (by decide)]
    have : topLevelDeps d' = topLevelDeps doc := by
      unfold topLevelDeps
      rw [hne "dependencies" (by decide)]
    rw [this]
  · rw [hroot] at hne
    rw [get_dependencies_table_eq_bind, get_dependencies_table_eq_bind doc]
    rw [hne "workspace" (by decide)]
    have : topLevelDeps d' = topLevelDeps doc := by
      unfold topLevelDeps
      rw [hne "dependencies" (by decide)]
    rw [this]

theorem withMeta_patch (doc : Doc) (f : Entries → Entries) (d' : Doc)
    (h : withMetaTable doc f = some d') :
    lookupE d' "patch" = lookupE doc "patch" := by
  obtain ⟨hne, _, _, _⟩ := withMetaTable_spec doc f d' h
  rcases metaRootKey_cases doc with ⟨_, hroot⟩ | ⟨_, hroot⟩ <;> rw [hroot] at hne
  · exact hne "patch" (by decide)
  · exact hne "patch" (by decide)

theorem withMeta_is_workspace (doc : Doc) (f : Entries → Entries) (d' : Doc)
    (h : withMetaTable doc f = some d') :
    is_workspace d' = is_workspace doc := by
  obtain ⟨hne, _, hsome, _⟩ := withMetaTable_spec doc f d' h
  rcases metaRootKey_cases doc with ⟨hw, hroot⟩ | ⟨hw, hroot⟩
  · rw [hroot] at hsome
    rw [hw]
    unfold is_workspace
    cases hl : lookupE d' "workspace" with
    | none => rw [hl] at hsome; simp at hsome
    | some w => simp
  · rw [hroot] at hne
    rw [hw]
    unfold is_workspace
    rw [hne "workspace" (by decide), is_workspace_false_lookup doc hw]
    rfl

/-- The private metadata table read back after a successful
`withMetaTable` write: exactly `f` applied to the table that the creation
path saw (the existing table, or empty). -/
theorem withMeta_meta (doc : Doc) (f : Entries → Entries) (d' : Doc)
    (h : withMetaTable doc f = some d') :
    ∃ m, (metaFrom doc (metaRootKey doc) = some m ∨
        (metaFrom doc (metaRootKey doc) = none ∧ m = []))
      ∧ get_metadata_table d' = some (f m) := by
  obtain ⟨hne, _, _, m, hm, hres⟩ := withMetaTable_spec doc f d' h
  refine ⟨m, hm, ?_⟩
  rcases metaRootKey_cases doc with ⟨hw, hroot⟩ | ⟨hw, hroot⟩
  · rw [hroot] at hres
    unfold get_metadata_table
    rw [hres]
  · rw [hroot] at hres hne
    unfold get_metadata_table
    have hwsd : metaFrom d' "workspace" = none := by
      unfold metaFrom
      rw [hne "workspace" (by decide), is_workspace_false_lookup doc hw]
      rfl
    rw [hwsd, hres]

/-! ## The patch-section writer -/

theorem insertPatchEntries_spec {doc : Doc} {key : String} {pt : Entries} {d4 : Doc}
    (h : insertPatchEntries doc key pt = some d4) :
    ∃ pes ses,
      (lookupE doc "patch" = some (.table pes) ∨ (lookupE doc "patch" = none ∧ pes = []))
      ∧ (lookupE pes key = some (.table ses) ∨ (lookupE pes key = none ∧ ses = []))
      ∧ d4 = insertE doc "patch"
          (.table (insertE pes key
            (.table (pt.foldl (fun s p => insertE s p.1 p.2) ses)))) := by
  unfold insertPatchEntries at h
  cases hp : lookupE doc "patch" with
  | none =>
    rw [hp] at h
    simp only [] at h
    cases hk : lookupE ([] : Entries) key with
    | none =>
      simp [lookupE] at h
      exact ⟨[], [], Or.inr ⟨rfl, rfl⟩, Or.inr ⟨rfl, rfl⟩, h.symm⟩
    | some it => simp [lookupE] at hk
  | some it =>
    rw [hp] at h
    cases it with
    | table pes =>
      simp only [] at h
      cases hk : lookupE pes key with
      | none =>
        rw [hk] at h
        simp at h
        exact ⟨pes, [], Or.inl rfl, Or.inr ⟨hk, rfl⟩, h.symm⟩
      | some kit =>
        rw [hk] at h
        cases kit with
        | table ses =>
          simp at h
          exact ⟨pes, ses, Or.inl rfl, Or.inl hk, h.symm⟩
        | str s => simp at h
        | scalar => simp at h
        | arr xs => simp at h
        | inlineTbl fs => simp at h
    | str s => simp at h
    | scalar => simp at h
    | arr xs => simp at h
    | inlineTbl fs => simp at h

/-! ## Keys of built maps -/

theorem mem_insertE {β : Type} {es : List (String × β)} {k : String} {v : β}
    {x : String × β} (h : x ∈ insertE es k v) : x = (k, v) ∨ x ∈ es := by
  induction es with
  | nil => simpa [insertE] using h
  | cons p rest ih =>
    obtain ⟨k1, v1⟩ := p
    by_cases h1 : k1 = k
    · simp [insertE, h1] at h
      rcases h with h | h
      · left; simp [h]
      · right; simp [h]
    · simp [insertE, h1] at h
      rcases h with h | h
      · right; simp [h]
      · rcases ih h with h2 | h2
        · left; exact h2
        · right; simp [h2]

theorem readVersionPairs_map (l : List (String × String)) :
    readVersionPairs (l.map (fun p => (p.1, Item.str p.2))) = l := by
  induction l with
  | nil => rfl
  | cons p rest ih =>
    simp [readVersionPairs, Item.asStr?] at ih ⊢
    exact ih

theorem mem_insertSortedByName {x p : String × String} {l : List (String × String)}
    (h : x ∈ insertSortedByName p l) : x = p ∨ x ∈ l := by
  induction l with
  | nil => simpa [insertSortedByName] using h
  | cons q qs ih =>
    unfold insertSortedByName at h
    by_cases hpq : p.1 < q.1 ∨ p.1 = q.1
    · rw [if_pos hpq] at h
      simpa using h
    · rw [if_neg hpq] at h
      simp at h
      rcases h with h | h
      · right; simp [h]
      · rcases ih h with h2 | h2
        · left; exact h2
        · right; simp [h2]

theorem mem_sortByName {x : String × String} {l : List (String × String)}
    (h : x ∈ sortByName l) : x ∈ l := by
  induction l with
  | nil => simpa [sortByName] using h
  | cons q qs ih =>
    unfold sortByName at h ih
    rw [List.foldr_cons] at h
    rcases mem_insertSortedByName h with h2 | h2
    · simp [h2]
    · simp [ih h2]

theorem lookupE_eq_none_of_not_mem {β : Type} {es : List (String × β)} {k : String}
    (h : ∀ p ∈ es, ¬ p.1 = k) : lookupE es k = none := by
  induction es with
  | nil => rfl
  | cons p rest ih =>
    obtain ⟨k1, v1⟩ := p
    have h1 : ¬ k1 = k := h (k1, v1) (by simp)
    simp [lookupE, h1]
    exact ih (fun q hq => h q (by simp [hq]))

theorem foldl_insertE_lookup_ne {β : Type} (pt : List (String × β)) (ses : List (String × β))
    (c : String) (hpt : ∀ p ∈ pt, ¬ p.1 = c) :
    lookupE (pt.foldl (fun s p => insertE s p.1 p.2) ses) c = lookupE ses c := by
  induction pt generalizing ses with
  | nil => rfl
  | cons p rest ih =>
    rw [List.foldl_cons]
    rw [ih _ (fun q hq => hpt q (by simp [hq]))]
    exact lookupE_insertE_ne _ _ _ _ (Ne.symm (hpt p (by simp)))

/-- Keys produced by the `original_versions` collection fold are among the
collected crate names. -/
theorem origsFold_keys (deps : Entries) (names : List String)
    (acc : List (String × String)) (p : String × String)
    (h : p ∈ names.foldl (fun acc n =>
      match lookupE deps n with
      | some dv => insertE acc n ((get_dependency_version dv).getD "")
      | none => acc) acc) :
    p ∈ acc ∨ p.1 ∈ names := by
  induction names generalizing acc with
  | nil => exact Or.inl h
  | cons n rest ih =>
    rw [List.foldl_cons] at h
    cases hd : lookupE deps n with
    | none =>
      rw [hd] at h
      rcases ih _ h with h2 | h2
      · exact Or.inl h2
      · right; simp [h2]
    | some dv =>
      rw [hd] at h
      rcases ih _ h with h2 | h2
      · rcases mem_insertE h2 with h3 | h3
        · right; simp [h3]
        · exact Or.inl h3
      · right; simp [h2]

/-- Keys of the patch entries built for the local-path flow are among the
managed crate names. -/
theorem buildPathEntries_keys (cs : List CrateInfo) (acc pt : Entries)
    (h : cs.foldlM (fun t c => (crateDirOf c).map
      (fun dir => insertE t c.name (.inlineTbl [("path", Item.str dir)]))) acc = some pt)
    (p : String × Item) (hp : p ∈ pt) : p ∈ acc ∨ p.1 ∈ cs.map CrateInfo.name := by
  induction cs generalizing acc with
  | nil =>
    rw [List.foldlM_nil] at h
    simp only [Option.pure_def, Option.some.injEq] at h
    subst h
    exact Or.inl hp
  | cons c rest ih =>
    rw [List.foldlM_cons] at h
    cases hdir : crateDirOf c with
    | none => rw [hdir] at h; simp at h
    | some dir =>
      rw [hdir] at h
      simp only [Option.map_some', Option.bind_eq_bind, Option.some_bind] at h
      rcases ih _ h with h2 | h2
      · rcases mem_insertE h2 with h3 | h3
        · right; simp [h3]
        · exact Or.inl h3
      · right; simp [h2]

/-! ## Frame lemmas for the build tail -/

theorem is_workspace_insertE_other (doc : Doc) (k : String) (x : Item)
    (h : ¬ k = "workspace") : is_workspace (insertE doc k x) = is_workspace doc := by
  unfold is_workspace
  rw [lookupE_insertE_ne _ _ _ _ (Ne.symm h)]

theorem metaFrom_insertE_other (doc : Doc) (k : String) (x : Item) (root : String)
    (h : ¬ root = k) : metaFrom (insertE doc k x) root = metaFrom doc root := by
  unfold metaFrom
  rw [lookupE_insertE_ne _ _ _ _ h]

theorem get_metadata_insertE_other (doc : Doc) (k : String) (x : Item)
    (h1 : ¬ k = "workspace") (h2 : ¬ k = "package") :
    get_metadata_table (insertE doc k x) = get_metadata_table doc := by
  unfold get_metadata_table
  rw [metaFrom_insertE_other _ _ _ _ (Ne.symm h1), metaFrom_insertE_other _ _ _ _ (Ne.symm h2)]

theorem addManagedFun_preserves_OVK (key : String) (meta : Entries) :
    lookupE (addManagedFun key meta) originalVersionsKey =
      lookupE meta originalVersionsKey := by
  unfold addManagedFun
  cases hm : lookupE meta managedPatchesKey with
  | none => rw [lookupE_insertE_ne _ _ _ _ (by decide)]
  | some it =>
    cases it with
    | arr xs =>
      by_cases hx : xs.any (fun v => Item.asStr? v == some key)
      · simp [hx]
      · simp only [hx, Bool.false_eq_true, if_false]
        rw [lookupE_insertE_ne _ _ _ _ (by decide)]
    | str s => rfl
    | scalar => rfl
    | inlineTbl fs => rfl
    | table ts => rfl

theorem get_metadata_table_update (doc : Doc) (n v : String) :
    get_metadata_table (update_dependency_version doc n v) = get_metadata_table doc := by
  unfold update_dependency_version
  rw [get_metadata_table_modifyDeps]

theorem is_workspace_update (doc : Doc) (n v : String) :
    is_workspace (update_dependency_version doc n v) = is_workspace doc := by
  unfold update_dependency_version
  rw [is_workspace_modifyDeps]

theorem depsEntry_update_ne (d : Doc) (n v c : String) (h : ¬ n = c) :
    depsEntry (update_dependency_version d n v) c = depsEntry d c := by
  rcases depsTable_cases d with ⟨hnone, hmod⟩ | ⟨es, hes, hf⟩
  · unfold update_dependency_version
    rw [hmod]
  · unfold depsEntry update_dependency_version
    rw [(hf _).1, hes]
    simp only [Option.some_bind]
    unfold depsUpdate1
    cases hl : lookupE es n with
    | none => rfl
    | some it => rw [lookupE_insertE_ne _ _ _ _ (Ne.symm h)]

/-- The version-update loop of `apply_local_path_patches` only touches
the dependency entries of the listed crates: the `[patch]` item, the
metadata, workspace-ness and every other crate's dependency entry are
unchanged. -/
theorem updLoop_frames (mc : List CrateInfo) (origs : List (String × String)) (doc : Doc) :
    lookupE (mc.foldl (fun d c =>
        match lookupE origs c.name with
        | some ov => if ov ≠ "" then update_dependency_version d c.name c.version else d
        | none => d) doc) "patch" = lookupE doc "patch"
    ∧ get_metadata_table (mc.foldl (fun d c =>
        match lookupE origs c.name with
        | some ov => if ov ≠ "" then update_dependency_version d c.name c.version else d
        | none => d) doc) = get_metadata_table doc
    ∧ is_workspace (mc.foldl (fun d c =>
        match lookupE origs c.name with
        | some ov => if ov ≠ "" then update_dependency_version d c.name c.version else d
        | none => d) doc) = is_workspace doc
    ∧ (∀ c', (∀ x ∈ mc, ¬ x.name = c') →
        depsEntry (mc.foldl (fun d c =>
          match lookupE origs c.name with
          | some ov => if ov ≠ "" then update_dependency_version d c.name c.version else d
          | none => d) doc) c' = depsEntry doc c') := by
  induction mc generalizing doc with
  | nil => exact ⟨rfl, rfl, rfl, fun _ _ => rfl⟩
  | cons x rest ih =>
    have hstep : ∀ d : Doc,
        (match lookupE origs x.name with
          | some ov => if ov ≠ "" then update_dependency_version d x.name x.version else d
          | none => d) = d
        ∨ (match lookupE origs x.name with
            | some ov => if ov ≠ "" then update_dependency_version d x.name x.version else d
            | none => d) = update_dependency_version d x.name x.version := by
      intro d
      cases hl : lookupE origs x.name with
      | none => exact Or.inl rfl
      | some ov =>
        by_cases hov : ov ≠ ""
        · right; simp [hov]
        · left; simp [hov]
    rw [List.foldl_cons]
    rcases hstep doc with hs | hs <;> rw [hs]
    · obtain ⟨i1, i2, i3, i4⟩ := ih doc
      exact ⟨i1, i2, i3, fun c' hc' => i4 c' (fun y hy => hc' y (by simp [hy]))⟩
    · obtain ⟨i1, i2, i3, i4⟩ := ih (update_dependency_version doc x.name x.version)
      refine ⟨?_, ?_, ?_, ?_⟩
      · rw [i1, patch_lookup_update]
      · rw [i2, get_metadata_table_update]
      · rw [i3, is_workspace_update]
      · intro c' hc'
        rw [i4 c' (fun y hy => hc' y (by simp [hy]))]
        exact depsEntry_update_ne doc x.name x.version c' (hc' x (by simp))

theorem deps_lookup_updLoop (mc : List CrateInfo) (origs : List (String × String))
    (doc : Doc) (k : String) (h1 : ¬ k = "workspace") (h2 : ¬ k = "dependencies") :
    lookupE (mc.foldl (fun d c =>
        match lookupE origs c.name with
        | some ov => if ov ≠ "" then update_dependency_version d c.name c.version else d
        | none => d) doc) k = lookupE doc k := by
  induction mc generalizing doc with
  | nil => rfl
  | cons x rest ih =>
    have hstep : (match lookupE origs x.name with
        | some ov => if ov ≠ "" then update_dependency_version doc x.name x.version else doc
        | none => doc) = doc
        ∨ (match lookupE origs x.name with
            | some ov => if ov ≠ "" then update_dependency_version doc x.name x.version else doc
            | none => doc) = update_dependency_version doc x.name x.version := by
      cases hl : lookupE origs x.name with
      | none => exact Or.inl rfl
      | some ov =>
        by_cases hov : ov ≠ ""
        · right; simp [hov]
        · left; simp [hov]
    rw [List.foldl_cons]
    rcases hstep with hs | hs <;> rw [hs]
    · exact ih doc
    · rw [ih _]
      unfold update_dependency_version
      exact modifyDeps_lookupE_ne doc _ k h1 h2

/-- The private metadata table after `store_original_versions` followed by
`add_managed_patch` (the write order of both apply flows). -/
theorem storeAdd_meta (doc1 : Doc) (origs : List (String × String)) (key : String)
    (doc2 doc3 : Doc)
    (hstore : store_original_versions doc1 origs = some doc2)
    (hadd : add_managed_patch doc2 key = some doc3) :
    ∃ m1, (metaFrom doc1 (metaRootKey doc1) = some m1 ∨
        (metaFrom doc1 (metaRootKey doc1) = none ∧ m1 = []))
      ∧ get_metadata_table doc3 = some (addManagedFun key (storeVersionsFun origs m1))
      ∧ metaFrom doc3 (metaRootKey doc1) =
          some (addManagedFun key (storeVersionsFun origs m1)) := by
  obtain ⟨_, _, _, m1, hm1, hmf2⟩ :=
    withMetaTable_spec doc1 (storeVersionsFun origs) doc2 hstore
  have hroot : metaRootKey doc2 = metaRootKey doc1 := by
    unfold metaRootKey
    rw [withMeta_is_workspace _ _ _ hstore]
  obtain ⟨_, _, _, m2, hm2, hmf3⟩ :=
    withMetaTable_spec doc2 (addManagedFun key) doc3 hadd
  rw [hroot] at hm2 hmf3
  have hm2eq : m2 = storeVersionsFun origs m1 := by
    rcases hm2 with hm2 | ⟨hm2, _⟩
    · rw [hmf2] at hm2
      injection hm2 with hh
      exact hh.symm
    · rw [hmf2] at hm2
      exact absurd hm2 (by simp)
  subst hm2eq
  obtain ⟨m2', hm2', hgm3⟩ := withMeta_meta doc2 (addManagedFun key) doc3 hadd
  rw [hroot] at hm2'
  have hm2eq' : m2' = storeVersionsFun origs m1 := by
    rcases hm2' with hm2' | ⟨hm2', _⟩
    · rw [hmf2] at hm2'
      injection hm2' with hh
      exact hh.symm
    · rw [hmf2] at hm2'
      exact absurd hm2' (by simp)
  subst hm2eq'
  exact ⟨m1, hm1, hgm3, hmf3⟩

/-- The `original-versions` record read back from the document produced by
the store → add-managed → insert-patch-entries tail: exactly the
name-sorted map that was stored. -/
theorem buildTail_origs (doc1 : Doc) (origs : List (String × String)) (key : String)
    (pt : Entries) (doc2 doc3 d4 : Doc)
    (hstore : store_original_versions doc1 origs = some doc2)
    (hadd : add_managed_patch doc2 key = some doc3)
    (hins : insertPatchEntries doc3 key pt = some d4) :
    get_original_versions d4 = sortByName origs := by
  obtain ⟨m1, _, hgm3, _⟩ := storeAdd_meta doc1 origs key doc2 doc3 hstore hadd
  obtain ⟨pes, ses, _, _, hd4⟩ := insertPatchEntries_spec hins
  subst hd4
  unfold get_original_versions
  rw [get_metadata_insertE_other _ _ _ (by decide) (by decide), hgm3]
  simp only []
  rw [addManagedFun_preserves_OVK]
  unfold storeVersionsFun
  rw [lookupE_insertE_self]
  simp only []
  exact readVersionPairs_map _

/-! ## C3: the foreign-entry guard -/

theorem localBuildTail_inv (doc : Doc) (mgc : List CrateInfo) (d4 : Doc)
    (h : localBuildTail doc mgc = .ok d4) :
    ∃ pt doc2 doc3,
      buildPathEntries mgc = some pt
      ∧ store_original_versions
          (applyVersionUpdates doc mgc
            (collectOriginalVersions doc (mgc.map (fun c => c.name))))
          (collectOriginalVersions doc (mgc.map (fun c => c.name))) = some doc2
      ∧ add_managed_patch doc2
          ((detect_common_git_url doc (mgc.map (fun c => c.name))).getD "crates-io") = some doc3
      ∧ insertPatchEntries doc3
          ((detect_common_git_url doc (mgc.map (fun c => c.name))).getD "crates-io") pt
          = some d4 := by
  unfold localBuildTail at h
  simp only [] at h
  cases hb : buildPathEntries mgc with
  | none => rw [hb] at h; exact absurd h (by simp)
  | some pt =>
    rw [hb] at h
    simp only [] at h
    cases hs : store_original_versions
        (applyVersionUpdates doc mgc
          (collectOriginalVersions doc (mgc.map (fun c => c.name))))
        (collectOriginalVersions doc (mgc.map (fun c => c.name))) with
    | none => rw [hs] at h; exact absurd h (by simp)
    | some doc2 =>
      rw [hs] at h
      simp only [] at h
      cases ha : add_managed_patch doc2
          ((detect_common_git_url doc (mgc.map (fun c => c.name))).getD "crates-io") with
      | none => rw [ha] at h; exact absurd h (by simp)
      | some doc3 =>
        rw [ha] at h
        simp only [] at h
        cases hi : insertPatchEntries doc3
            ((detect_common_git_url doc (mgc.map (fun c => c.name))).getD "crates-io") pt with
        | none => rw [hi] at h; exact absurd h (by simp)
        | some doc4 =>
          rw [hi] at h
          simp only [Except.ok.injEq] at h
          subst h
          exact ⟨pt, doc2, doc3, rfl, rfl, ha, hi⟩

/-- What the local build tail does to a crate that is not in the managed
set: its dependency entry and its patch entries under every origin are
untouched, and it is absent from the freshly stored `original-versions`
record. -/
theorem localBuildTail_foreign (doc : Doc) (mgc : List CrateInfo) (d4 : Doc) (c : String)
    (hnames : ∀ x ∈ mgc, ¬ x.name = c)
    (h : localBuildTail doc mgc = .ok d4) :
    depsEntry d4 c = depsEntry doc c
    ∧ (∀ k, patchCrateEntry d4 k c = patchCrateEntry doc k c)
    ∧ lookupE (get_original_versions d4) c = none := by
  obtain ⟨pt, doc2, doc3, hb, hs, ha, hi⟩ := localBuildTail_inv doc mgc d4 h
  set names := mgc.map (fun c => c.name) with hnamesdef
  set key := (detect_common_git_url doc names).getD "crates-io" with hkey
  set origsv := collectOriginalVersions doc names with horigsv
  set doc1 := applyVersionUpdates doc mgc origsv with hdoc1
  have hupd := updLoop_frames mgc origsv doc
  rw [← applyVersionUpdates] at hupd
  obtain ⟨u1, u2, u3, u4⟩ := hupd
  obtain ⟨pes, ses, hpes, hses, hd4⟩ := insertPatchEntries_spec hi
  have hpatch3 : lookupE doc3 "patch" = lookupE doc "patch" := by
    rw [withMeta_patch doc2 (addManagedFun key) doc3 ha,
      withMeta_patch doc1 (storeVersionsFun origsv) doc2 hs]
    exact u1
  have hdeps14 : get_dependencies_table d4 = get_dependencies_table doc1 := by
    rw [hd4, get_deps_insert_other _ _ _ (by decide) (by decide),
      withMeta_deps doc2 (addManagedFun key) doc3 ha,
      withMeta_deps doc1 (storeVersionsFun origsv) doc2 hs]
  have hptkeys : ∀ p ∈ pt, ¬ p.1 = c := by
    intro p hp
    rcases buildPathEntries_keys mgc [] pt hb p hp with h0 | h0
    · exact absurd h0 (by simp)
    · rw [← hnamesdef] at h0
      simp only [hnamesdef, List.mem_map] at h0
      obtain ⟨x, hx, hxn⟩ := h0
      rw [← hxn]
      exact hnames x hx
  rw [hpatch3] at hpes
  refine ⟨?_, ?_, ?_⟩
  · unfold depsEntry
    rw [hdeps14]
    exact u4 c hnames
  · intro k
    unfold patchCrateEntry patchOriginTable
    rw [hd4, lookupE_insertE_self]
    by_cases hk : k = key
    · subst hk
      simp only [Item.getKey?, Option.some_bind]
      rw [lookupE_insertE_self]
      simp only [Item.getKey?, Option.some_bind]
      rw [foldl_insertE_lookup_ne pt ses c hptkeys]
      rcases hpes with hpes | ⟨hpes, hpes2⟩
      · rw [hpes]
        simp only [Item.getKey?, Option.some_bind]
        rcases hses with hses | ⟨hses, hses2⟩
        · rw [hses]
          simp [Item.getKey?]
        · rw [hses]
          subst hses2
          simp [lookupE]
      · subst hpes2
        rw [hpes]
        simp only [Option.none_bind]
        rcases hses with hses | ⟨_, hses2⟩
        · exact absurd hses (by simp [lookupE])
        · subst hses2
          simp [lookupE]
    · simp only [Item.getKey?, Option.some_bind]
      rw [lookupE_insertE_ne _ _ _ _ hk]
      rcases hpes with hpes | ⟨hpes, hpes2⟩
      · rw [hpes]
        simp only [Item.getKey?, Option.some_bind]
      · subst hpes2
        rw [hpes]
        simp [lookupE]
  · have horigs : get_original_versions d4 = sortByName origsv :=
      buildTail_origs doc1 origsv key pt doc2 doc3 d4 hs ha hi
    rw [horigs]
    apply lookupE_eq_none_of_not_mem
    intro p hp
    have hporig : p ∈ origsv := mem_sortByName hp
    rw [horigsv] at hporig
    unfold collectOriginalVersions at hporig
    cases hd : get_dependencies_table doc with
    | none => rw [hd] at hporig; simp at hporig
    | some deps =>
      rw [hd] at hporig
      rcases origsFold_keys deps names [] p hporig with h0 | h0
      · simp at h0
      · simp only [hnamesdef, List.mem_map] at h0
        obtain ⟨x, hx, hxn⟩ := h0
        rw [← hxn]
        exact hnames x hx

/-- C3 (amended): for every candidate crate that already has a patch
entry in an origin stored as a standard table under `[patch]` (the form
`collect_existing_patched_crates` inspects), Apply's local-path flow
leaves its dependency entry and its patch entries under every origin
untouched, and does not include it in the freshly stored
`original-versions` record (entries under origins written as inline
tables are invisible to the guard — see the counterexample). -/
theorem c3_foreign_entry_guard (doc : Doc) (members : List CrateInfo)
    (pattern : Option String) (c : String) (d1 : Doc)
    (hc : c ∈ collect_existing_patched_crates doc)
    (happ : apply_local_path_patches doc members (currentDeps doc) pattern = .ok d1) :
    depsEntry d1 c = depsEntry doc c
    ∧ (∀ k, patchCrateEntry d1 k c = patchCrateEntry doc k c)
    ∧ (d1 = doc ∨ lookupE (get_original_versions d1) c = none) := by
  unfold apply_local_path_patches at happ
  by_cases hmem : members.isEmpty
  · rw [if_pos hmem] at happ
    exact absurd happ (by simp)
  · rw [if_neg hmem] at happ
    cases hfil : filter_crates_by_pattern members pattern with
    | error e => rw [hfil] at happ; exact absurd happ (by simp)
    | ok sourceCrates =>
      rw [hfil] at happ
      simp only [] at happ
      by_cases hct : (sourceCrates.filter
          (fun c => (lookupE (currentDeps doc) c.name).isSome)).isEmpty
      · rw [if_pos hct] at happ
        simp only [Except.ok.injEq] at happ
        subst happ
        exact ⟨rfl, fun k => rfl, Or.inl rfl⟩
      · rw [if_neg hct] at happ
        by_cases hmg : ((sourceCrates.filter
            (fun c => (lookupE (currentDeps doc) c.name).isSome)).filter
            (fun c => !((collect_existing_patched_crates doc).contains c.name))).isEmpty
        · rw [if_pos hmg] at happ
          simp only [Except.ok.injEq] at happ
          subst happ
          exact ⟨rfl, fun k => rfl, Or.inl rfl⟩
        · rw [if_neg hmg] at happ
          have hnames : ∀ x ∈ (sourceCrates.filter
              (fun c => (lookupE (currentDeps doc) c.name).isSome)).filter
              (fun c => !((collect_existing_patched_crates doc).contains c.name)),
              ¬ x.name = c := by
            intro x hx hxc
            rw [List.mem_filter] at hx
            obtain ⟨_, hx2⟩ := hx
            rw [hxc] at hx2
            simp only [List.contains] at hx2
            rw [List.elem_eq_true_of_mem hc] at hx2
            simp at hx2
          obtain ⟨h1, h2, h3⟩ := localBuildTail_foreign doc _ d1 c hnames happ
          exact ⟨h1, h2, Or.inr h3⟩

/-- A dependency `foo` that already has a hand-authored patch entry — but
under an origin written as an inline table (`patch.some-url = { foo =
… }`), which the guard's `as_table` probe does not see. -/
def c3CounterDoc : Doc :=
  [("package", .table [("name", .str "p")]),
   ("dependencies", .table [("foo", .str "1.0.0")]),
   ("patch", .table [("some-url", .inlineTbl [("foo", .inlineTbl [("path", .str "/pre")])])])]

def c3CounterMembers : List CrateInfo :=
  [{ name := "foo", version := "2.0.0", manifestPath := ["ws", "foo", "Cargo.toml"] }]

/-- C3 counterexample: `foo` already has a patch entry under origin
`some-url`, yet Apply's local flow updates its version, writes a new
patch entry for it under `crates-io` and records it in the fresh
`original-versions` — because the pre-existing origin is an inline table,
which `collect_existing_patched_crates` skips. -/
theorem c3_counterexample :
    patchCrateEntry c3CounterDoc "some-url" "foo" =
      some (.inlineTbl [("path", Item.str "/pre")])
    ∧ apply_local_path_patches c3CounterDoc c3CounterMembers (currentDeps c3CounterDoc) none =
        .ok [("package", .table
               [("name", Item.str "p"),
                ("metadata", .table
                  [("cargo-patch-source", .table
                    [("original-versions", .inlineTbl [("foo", Item.str "1.0.0")]),
                     ("managed-patches", .arr [Item.str "crates-io"])])])]),
             ("dependencies", .table [("foo", Item.str "2.0.0")]),
             ("patch", .table
               [("some-url", .inlineTbl [("foo", .inlineTbl [("path", Item.str "/pre")])]),
                ("crates-io", .table
                  [("foo", .inlineTbl [("path", Item.str "ws/foo")])])])]
    ∧ depsEntry c3CounterDoc "foo" = some (.str "1.0.0") := ⟨rfl, rfl, rfl⟩

/-- A candidate `foo` with a pre-existing entry under the standard-table
origin `crates-io` (the integration-test scenario). -/
def c3WitnessDoc : Doc :=
  [("package", .table [("name", .str "p")]),
   ("dependencies", .table [("foo", .str "1.0.0"), ("bar", .str "2.0.0")]),
   ("patch", .table [("crates-io", .table [("foo", .inlineTbl [("path", .str "/custom")])])])]

def c3WitnessMembers : List CrateInfo :=
  [{ name := "foo", version := "9.0.0", manifestPath := ["ws", "foo", "Cargo.toml"] },
   { name := "bar", version := "9.0.0", manifestPath := ["ws", "bar", "Cargo.toml"] }]

def c3WitnessResult : Doc :=
  [("package", .table
     [("name", .str "p"),
      ("metadata", .table
        [("cargo-patch-source", .table
          [("original-versions", .inlineTbl [("bar", .str "2.0.0")]),
           ("managed-patches", .arr [.str "crates-io"])])])]),
   ("dependencies", .table [("foo", .str "1.0.0"), ("bar", .str "9.0.0")]),
   ("patch", .table
     [("crates-io", .table
        [("foo", .inlineTbl [("path", .str "/custom")]),
         ("bar", .inlineTbl [("path", .str "ws/bar")])])])]

theorem c3_foreign_entry_guard_witness :
    depsEntry c3WitnessResult "foo" = depsEntry c3WitnessDoc "foo"
    ∧ (∀ k, patchCrateEntry c3WitnessResult k "foo" = patchCrateEntry c3WitnessDoc k "foo")
    ∧ (c3WitnessResult = c3WitnessDoc ∨
        lookupE (get_original_versions c3WitnessResult) "foo" = none) :=
  c3_foreign_entry_guard c3WitnessDoc c3WitnessMembers none "foo" c3WitnessResult
    (by decide) rfl

/-- C7 (amended): Remove fails with `NoPatchesFound` whenever the
manifest holds no managed state, and also when managed state exists but
the manifest has no standard `[patch]` table to strip.  (When a `[patch]`
table exists, `remove_managed_patches` reports removal unconditionally,
so Remove succeeds even when the managed state maps to no entries — see
the counterexample.) -/
theorem c7_remove_error_cases (doc : Doc) :
    (get_managed_patches doc = [] → remove_patches_doc doc = .error .noPatchesFound)
    ∧ (((lookupE doc "patch").bind Item.asTable?) = none →
        remove_patches_doc doc = .error .noPatchesFound) := by
  constructor
  · intro h
    unfold remove_patches_doc remove_managed_patches
    rw [get_managed_patches_restore, h]
    rfl
  · intro hp
    unfold remove_patches_doc remove_managed_patches
    rw [get_managed_patches_restore]
    by_cases hm : (get_managed_patches doc).isEmpty
    · simp [hm]
    · simp only [hm, if_false, Bool.false_eq_true]
      rw [patch_lookup_restore]
      cases hlp : lookupE doc "patch" with
      | none => rfl
      | some it =>
        cases it <;> simp_all [Item.asTable?]

/-- A manifest whose managed state names an origin key with no table:
`managed-patches = ["url-x"]` but the `[patch]` table only holds a
foreign entry under `crates-io`. -/
def c7BadDoc : Doc :=
  [("package", .table [("metadata", .table [("cargo-patch-source", .table
      [("original-versions", .inlineTbl [("bar", .str "1.0.0")]),
       ("managed-patches", .arr [.str "url-x"])])])]),
   ("dependencies", .table [("bar", .str "1.0.0")]),
   ("patch", .table [("crates-io", .table [("foo", .inlineTbl [("path", .str "/x")])])])]

/-- C7 counterexample: managed state exists (`managed-patches =
["url-x"]`) yet maps to nothing — no patch entry is removed (the `[patch]`
table is returned verbatim) — and Remove nevertheless SUCCEEDS, where the
claim demands an error. -/
theorem c7_counterexample :
    remove_patches_doc c7BadDoc =
      .ok [("package", .table []),
           ("dependencies", .table [("bar", Item.str "1.0.0")]),
           ("patch", .table [("crates-io", .table
              [("foo", .inlineTbl [("path", Item.str "/x")])])])]
    ∧ get_managed_patches c7BadDoc = ["url-x"]
    ∧ lookupE c7BadDoc "patch" =
        some (.table [("crates-io", .table [("foo", .inlineTbl [("path", Item.str "/x")])])]) := by
  refine ⟨rfl, rfl, rfl⟩

theorem c7_remove_error_cases_witness :
    remove_patches_doc [("dependencies", Item.table [("bar", Item.str "1.0.0")])] =
      .error .noPatchesFound :=
  (c7_remove_error_cases [("dependencies", Item.table [("bar", Item.str "1.0.0")])]).1 rfl

/-- C9: when the manifest carries non-empty managed metadata but no
standard `[patch]` table, the `NoPatchesFound` raised by the strip inside
Apply's self-clean is swallowed: Apply restores the recorded versions and
proceeds to the candidate-selection phase (the source dispatch) on the
restored document instead of failing. -/
theorem c9_selfclean_swallows (src : PatchSourceM) (doc : Doc) (pattern : Option String)
    (hm : get_managed_patches doc ≠ [])
    (hp : ((lookupE doc "patch").bind Item.asTable?) = none) :
    apply_patches_doc src doc pattern =
      applySourceDispatch src (restoreRecordedVersions doc) pattern := by
  unfold apply_patches_doc selfCleanStep
  have hne : (get_managed_patches doc).isEmpty = false := by
    cases hh : get_managed_patches doc with
    | nil => exact absurd hh hm
    | cons a l => rfl
  simp only [hne, Bool.false_eq_true, if_false]
  have hrm : remove_managed_patches (restoreRecordedVersions doc) = .error .noPatchesFound := by
    unfold remove_managed_patches
    rw [get_managed_patches_restore]
    by_cases hm2 : (get_managed_patches doc).isEmpty
    · simp [hm2]
    · simp only [hm2, if_false, Bool.false_eq_true]
      rw [patch_lookup_restore]
      cases hlp : lookupE doc "patch" with
      | none => rfl
      | some it => cases it <;> simp_all [Item.asTable?]
  rw [hrm]

/-- A manifest with non-empty managed metadata and no `[patch]` table. -/
def c9Doc : Doc :=
  [("package", .table [("metadata", .table [("cargo-patch-source", .table
      [("managed-patches", .arr [.str "crates-io"])])])]),
   ("dependencies", .table [("foo", .str "1.0.0")])]

theorem c9_selfclean_swallows_witness :
    apply_patches_doc (.git "https://example.com/r" none) c9Doc (some "f*") =
      applySourceDispatch (.git "https://example.com/r" none)
        (restoreRecordedVersions c9Doc) (some "f*") :=
  c9_selfclean_swallows (.git "https://example.com/r" none) c9Doc (some "f*")
    (by decide) rfl

theorem c5_set_version_witness :
    update_dependency_version c5WitnessDoc "absent" "9.9.9" = c5WitnessDoc ∧
    get_dependencies_table (update_dependency_version c5WitnessDoc "plain" "9.9.9") =
      some (insertE [("plain", Item.str "1.0.0"),
        ("gitdep", Item.inlineTbl [("git", Item.str "https://example.com/repo")])]
        "plain" (.str "9.9.9")) ∧
    update_dependency_version c5WitnessDoc "gitdep" "9.9.9" = c5WitnessDoc :=
  ⟨(c5_set_version c5WitnessDoc "absent" "9.9.9").1 rfl,
   (c5_set_version c5WitnessDoc "plain" "9.9.9").2.1 _ "1.0.0" rfl rfl,
   (c5_set_version c5WitnessDoc "gitdep" "9.9.9").2.2.2.1 _
     [("git", Item.str "https://example.com/repo")] rfl rfl rfl⟩

/-! ## C1/C2: the apply–remove round trip

Supporting development: list-level lemmas about the ordered-map
operations, an entrywise decomposition of the version-update and
version-restore folds, the exact shape of the stripped patch table, and
the effect of `clear_metadata` on the metadata written by the build
tail. -/

/-- Proof-level abbreviation: a sequence of `depsUpdate1` steps
(name, version) applied left to right to a dependencies table. -/
def opsFold (ops : List (String × String)) (es : Entries) : Entries :=
  ops.foldl (fun es p => depsUpdate1 es p.1 p.2) es

/-- Proof-level abbreviation: a chain of `updateDepItem` applications. -/
def chainUpd (it : Item) (vs : List String) : Item :=
  vs.foldl (fun i v => updateDepItem i v) it

/-- The (name, version) update operations the version-update loop of the
local flow performs, in order. -/
def updOps (mgc : List CrateInfo) (origsv : List (String × String)) :
    List (String × String) :=
  mgc.filterMap (fun c =>
    match lookupE origsv c.name with
    | some ov => if ov ≠ "" then some (c.name, c.version) else none
    | none => none)

theorem mem_of_lookupE_eq_some {β : Type} {es : List (String × β)} {k : String} {v : β}
    (h : lookupE es k = some v) : (k, v) ∈ es := by
  induction es with
  | nil => simp [lookupE] at h
  | cons p rest ih =>
    obtain ⟨k1, v1⟩ := p
    by_cases h1 : k1 = k
    · subst h1
      simp [lookupE] at h
      simp [h]
    · simp [lookupE, h1] at h
      simp [ih h]

theorem lookupE_isSome_of_key_mem {β : Type} {es : List (String × β)} {k : String}
    (h : k ∈ es.map Prod.fst) : (lookupE es k).isSome := by
  induction es with
  | nil => simp at h
  | cons p rest ih =>
    obtain ⟨k1, v1⟩ := p
    by_cases h1 : k1 = k
    · simp [lookupE, h1]
    · simp only [lookupE, h1, if_false]
      apply ih
      simp only [List.map_cons, List.mem_cons] at h
      rcases h with h | h
      · exact absurd h.symm h1
      · exact h

theorem key_mem_insertE {β : Type} {es : List (String × β)} {k a : String} {v : β}
    (h : a ∈ (insertE es k v).map Prod.fst) : a = k ∨ a ∈ es.map Prod.fst := by
  simp only [List.mem_map] at h
  obtain ⟨p, hp, hpa⟩ := h
  rcases mem_insertE hp with h2 | h2
  · left; rw [← hpa, h2]
  · right; exact List.mem_map.mpr ⟨p, h2, hpa⟩

theorem insertE_keys_nodup {β : Type} {es : List (String × β)} (k : String) (v : β)
    (h : (es.map Prod.fst).Nodup) : ((insertE es k v).map Prod.fst).Nodup := by
  induction es with
  | nil => simp [insertE]
  | cons p rest ih =>
    obtain ⟨k1, v1⟩ := p
    simp only [List.map_cons, List.nodup_cons] at h
    by_cases h1 : k1 = k
    · subst h1
      have he : insertE ((k1, v1) :: rest) k1 v = (k1, v) :: rest := by
        simp [insertE]
      rw [he]
      simp only [List.map_cons, List.nodup_cons]
      exact h
    · simp only [insertE, h1, if_false, List.map_cons, List.nodup_cons]
      refine ⟨?_, ih h.2⟩
      intro hmem
      rcases key_mem_insertE hmem with h2 | h2
      · exact h1 h2
      · exact h.1 h2

theorem removeE_eq_filter {β : Type} (es : List (String × β)) (k : String) :
    removeE es k = es.filter (fun p => !(p.1 == k)) := by
  induction es with
  | nil => rfl
  | cons p rest ih =>
    obtain ⟨k1, v1⟩ := p
    by_cases h1 : k1 = k
    · simp [removeE, h1, ih]
    · simp [removeE, h1, ih]

theorem removeFold_eq_filter {β : Type} (S : List String) (X : List (String × β)) :
    S.foldl (fun s c => removeE s c) X = X.filter (fun p => !(S.contains p.1)) := by
  induction S generalizing X with
  | nil => simp
  | cons k S2 ih =>
    rw [List.foldl_cons, ih, removeE_eq_filter, List.filter_filter]
    apply List.filter_congr
    intro p _
    by_cases h1 : p.1 = k <;> simp [h1]

theorem insertE_append_fresh {β : Type} (A B : List (String × β)) (k : String) (v : β)
    (h : ¬ k ∈ A.map Prod.fst) :
    insertE (A ++ B) k v = A ++ insertE B k v := by
  induction A with
  | nil => rfl
  | cons p rest ih =>
    obtain ⟨k1, v1⟩ := p
    have h1 : ¬ k1 = k := by
      intro hh; exact h (by simp [hh])
    simp only [List.cons_append, insertE, h1, if_false, List.append_eq]
    rw [ih (fun hm => h (by simp [hm]))]

theorem insertFold_fresh {β : Type} (pt : List (String × β)) (X : List (String × β))
    (h : ∀ p ∈ pt, ¬ p.1 ∈ X.map Prod.fst) (B : List (String × β)) :
    pt.foldl (fun s p => insertE s p.1 p.2) (X ++ B) =
      X ++ pt.foldl (fun s p => insertE s p.1 p.2) B := by
  induction pt generalizing B with
  | nil => rfl
  | cons p rest ih =>
    rw [List.foldl_cons, insertE_append_fresh _ _ _ _ (h p (by simp)), List.foldl_cons]
    exact ih (fun q hq => h q (by simp [hq])) _

theorem insertFold_split {β : Type} (pt X : List (String × β))
    (h : ∀ p ∈ pt, ¬ p.1 ∈ X.map Prod.fst) :
    pt.foldl (fun s p => insertE s p.1 p.2) X =
      X ++ pt.foldl (fun s p => insertE s p.1 p.2) [] := by
  have h2 := insertFold_fresh pt X h []
  simpa using h2

theorem insertFold_keys {β : Type} (pt : List (String × β)) (acc : List (String × β))
    (q : String × β) (hq : q ∈ pt.foldl (fun s p => insertE s p.1 p.2) acc) :
    q ∈ acc ∨ q.1 ∈ pt.map Prod.fst := by
  induction pt generalizing acc with
  | nil => exact Or.inl hq
  | cons p rest ih =>
    rw [List.foldl_cons] at hq
    rcases ih _ hq with h2 | h2
    · rcases mem_insertE h2 with h3 | h3
      · right; simp [h3]
      · exact Or.inl h3
    · right; simp [h2]

theorem insertSortedByName_perm (p : String × String) (l : List (String × String)) :
    (insertSortedByName p l).Perm (p :: l) := by
  induction l with
  | nil => simp [insertSortedByName]
  | cons q qs ih =>
    unfold insertSortedByName
    by_cases hpq : p.1 < q.1 ∨ p.1 = q.1
    · rw [if_pos hpq]
    · rw [if_neg hpq]
      exact (ih.cons q).trans (List.Perm.swap p q qs)

theorem sortByName_perm (l : List (String × String)) : (sortByName l).Perm l := by
  induction l with
  | nil => simp [sortByName]
  | cons q qs ih =>
    unfold sortByName at ih ⊢
    rw [List.foldr_cons]
    exact (insertSortedByName_perm q _).trans (ih.cons q)

theorem lookupE_of_mem_nodup {β : Type} {l : List (String × β)} {k : String} {w : β}
    (hnd : (l.map Prod.fst).Nodup) (hmem : (k, w) ∈ l) : lookupE l k = some w := by
  induction l with
  | nil => simp at hmem
  | cons p rest ih =>
    obtain ⟨k1, v1⟩ := p
    simp only [List.map_cons, List.nodup_cons] at hnd
    rcases List.mem_cons.mp hmem with h | h
    · have h1 : k1 = k := (congrArg Prod.fst h).symm
      have h2 : v1 = w := (congrArg Prod.snd h).symm
      subst h1
      subst h2
      simp [lookupE]
    · by_cases h1 : k1 = k
      · exfalso
        apply hnd.1
        rw [h1]
        exact List.mem_map.mpr ⟨(k, w), h, rfl⟩
      · simp only [lookupE, h1, if_false]
        exact ih hnd.2 h

theorem filter_key_eq_of_nodup {β : Type} {l : List (String × β)} {k : String} {w : β}
    (hnd : (l.map Prod.fst).Nodup) (hmem : (k, w) ∈ l) :
    l.filter (fun p => p.1 == k) = [(k, w)] := by
  induction l with
  | nil => simp at hmem
  | cons p rest ih =>
    obtain ⟨k1, v1⟩ := p
    simp only [List.map_cons, List.nodup_cons] at hnd
    rcases List.mem_cons.mp hmem with h | h
    · have h1 : k1 = k := (congrArg Prod.fst h).symm
      have h2 : v1 = w := (congrArg Prod.snd h).symm
      subst h1
      subst h2
      rw [List.filter_cons]
      simp only [beq_self_eq_true, if_true]
      have hnil : rest.filter (fun p => p.1 == k1) = [] := by
        rw [List.filter_eq_nil_iff]
        intro q hq hqk
        simp only [beq_iff_eq] at hqk
        exact hnd.1 (hqk ▸ List.mem_map.mpr ⟨q, hq, rfl⟩)
      rw [hnil]
    · have h1 : ¬ k1 = k := by
        intro hh
        subst hh
        exact hnd.1 (List.mem_map.mpr ⟨(k1, w), h, rfl⟩)
      rw [List.filter_cons]
      have h1b : (k1 == k) = false := by
        simp [h1]
      rw [h1b]
      simp only [Bool.false_eq_true, if_false]
      exact ih hnd.2 h

theorem filter_key_nil {β : Type} {l : List (String × β)} {k : String}
    (h : ∀ p ∈ l, ¬ p.1 = k) : l.filter (fun p => p.1 == k) = [] := by
  rw [List.filter_eq_nil_iff]
  intro p hp
  simp only [beq_iff_eq]
  exact h p hp

/-! ### Entrywise decomposition of the update and restore folds -/

theorem depsUpdate1_cons (k : String) (it : Item) (rest : Entries) (n v : String) :
    depsUpdate1 ((k, it) :: rest) n v =
      if k = n then (k, updateDepItem it v) :: rest
      else (k, it) :: depsUpdate1 rest n v := by
  by_cases h : k = n
  · subst h
    simp [depsUpdate1, lookupE, insertE]
  · rw [if_neg h]
    unfold depsUpdate1
    have hlk : lookupE ((k, it) :: rest) n = lookupE rest n := by
      simp [lookupE, h]
    rw [hlk]
    cases hl : lookupE rest n with
    | none => rfl
    | some it2 =>
      simp only []
      show insertE ((k, it) :: rest) n (updateDepItem it2 v) =
        (k, it) :: insertE rest n (updateDepItem it2 v)
      simp [insertE, h]

theorem opsFold_nil_entries (ops : List (String × String)) : opsFold ops [] = [] := by
  induction ops with
  | nil => rfl
  | cons p rest ih =>
    unfold opsFold at ih ⊢
    rw [List.foldl_cons]
    have hstep : depsUpdate1 [] p.1 p.2 = [] := rfl
    rw [hstep]
    exact ih

theorem chainUpd_cons (it : Item) (v : String) (vs : List String) :
    chainUpd it (v :: vs) = chainUpd (updateDepItem it v) vs := rfl

theorem chainUpd_append (it : Item) (vs ws : List String) :
    chainUpd it (vs ++ ws) = chainUpd (chainUpd it vs) ws := by
  unfold chainUpd
  rw [List.foldl_append]

theorem opsFold_cons (ops : List (String × String)) (k : String) (it : Item)
    (rest : Entries) :
    opsFold ops ((k, it) :: rest) =
      (k, chainUpd it ((ops.filter (fun p => p.1 == k)).map Prod.snd)) ::
        opsFold (ops.filter (fun p => !(p.1 == k))) rest := by
  induction ops generalizing it rest with
  | nil => rfl
  | cons p ops2 ih =>
    obtain ⟨n, v⟩ := p
    rw [List.filter_cons, List.filter_cons]
    unfold opsFold
    rw [List.foldl_cons, depsUpdate1_cons]
    by_cases h : k = n
    · subst h
      rw [if_pos rfl]
      have hc1 : ((k, v).1 == k) = true := by simp
      rw [hc1]
      simp only [if_true, Bool.not_true, Bool.false_eq_true, if_false]
      have hl : ops2.foldl (fun es p => depsUpdate1 es p.1 p.2)
          ((k, updateDepItem it v) :: rest) = opsFold ops2 ((k, updateDepItem it v) :: rest) :=
        rfl
      rw [hl, ih (updateDepItem it v) rest]
      rw [List.map_cons, chainUpd_cons]
      rfl
    · rw [if_neg h]
      have hc1 : ((n, v).1 == k) = false := by
        simp
        intro hh
        exact h hh.symm
      rw [hc1]
      simp only [Bool.false_eq_true, if_false, Bool.not_false, if_true]
      have hl : ops2.foldl (fun es p => depsUpdate1 es p.1 p.2)
          ((k, it) :: depsUpdate1 rest n v) = opsFold ops2 ((k, it) :: depsUpdate1 rest n v) :=
        rfl
      rw [hl, ih it (depsUpdate1 rest n v)]
      rfl

theorem chainUpd_str (x : String) (vs : List String) :
    ∃ y, chainUpd (.str x) vs = Item.str y := by
  induction vs generalizing x with
  | nil => exact ⟨x, rfl⟩
  | cons v vs ih =>
    rw [chainUpd_cons]
    have hu : updateDepItem (.str x) v = .str v := rfl
    rw [hu]
    exact ih v

theorem chainUpd_inline (fs : Entries) (ov : String)
    (hver : lookupE fs "version" = some (.str ov)) (vs : List String) (st : Item)
    (hst : st = .inlineTbl fs ∨ ∃ y, st = .inlineTbl (insertE fs "version" (.str y))) :
    chainUpd st vs = .inlineTbl fs ∨
      ∃ y, chainUpd st vs = .inlineTbl (insertE fs "version" (.str y)) := by
  induction vs generalizing st with
  | nil => exact hst
  | cons v vs ih =>
    rw [chainUpd_cons]
    apply ih
    rcases hst with h | ⟨y, h⟩
    · subst h
      right
      refine ⟨v, ?_⟩
      simp [updateDepItem, hver]
    · subst h
      right
      refine ⟨v, ?_⟩
      simp [updateDepItem, lookupE_insertE_self, insertE_insertE]

theorem chainUpd_table (fs : Entries) (ov : String)
    (hver : lookupE fs "version" = some (.str ov)) (vs : List String) (st : Item)
    (hst : st = .table fs ∨ ∃ y, st = .table (insertE fs "version" (.str y))) :
    chainUpd st vs = .table fs ∨
      ∃ y, chainUpd st vs = .table (insertE fs "version" (.str y)) := by
  induction vs generalizing st with
  | nil => exact hst
  | cons v vs ih =>
    rw [chainUpd_cons]
    apply ih
    rcases hst with h | ⟨y, h⟩
    · subst h
      right
      refine ⟨v, ?_⟩
      simp [updateDepItem, hver]
    · subst h
      right
      refine ⟨v, ?_⟩
      simp [updateDepItem, lookupE_insertE_self, insertE_insertE]

/-- The version field extracted by `get_dependency_version` is stored as
a plain string. -/
theorem get_dependency_version_fields {fs : Entries} {ov : String}
    (h : (lookupE fs "version").bind Item.asStr? = some ov) :
    lookupE fs "version" = some (.str ov) := by
  cases hl : lookupE fs "version" with
  | none => rw [hl] at h; simp at h
  | some vit =>
    rw [hl] at h
    simp only [Option.some_bind] at h
    cases vit with
    | str s =>
      simp only [Item.asStr?, Option.some.injEq] at h
      rw [h]
    | scalar => simp [Item.asStr?] at h
    | arr xs => simp [Item.asStr?] at h
    | inlineTbl gs => simp [Item.asStr?] at h
    | table ts => simp [Item.asStr?] at h

/-- Restoring the recorded version after any chain of `updateDepItem`
writes recovers the original declaration exactly. -/
theorem chainUpd_restore (it : Item) (ov : String) (vs : List String)
    (h : get_dependency_version it = some ov) :
    updateDepItem (chainUpd it vs) ov = it := by
  cases it with
  | str s =>
    have hs : ov = s := by
      simp only [get_dependency_version, Option.some.injEq] at h
      exact h.symm
    obtain ⟨y, hy⟩ := chainUpd_str s vs
    rw [hy, hs]
    rfl
  | inlineTbl fs =>
    unfold get_dependency_version at h
    have hver := get_dependency_version_fields h
    rcases chainUpd_inline fs ov hver vs (.inlineTbl fs) (Or.inl rfl) with hc | ⟨y, hc⟩
    · rw [hc]
      simp only [updateDepItem, hver, Option.isSome_some, if_true]
      rw [insertE_of_lookupE fs "version" (.str ov) hver]
    · rw [hc]
      simp only [updateDepItem, lookupE_insertE_self, Option.isSome_some, if_true]
      rw [insertE_insertE, insertE_of_lookupE fs "version" (.str ov) hver]
  | table fs =>
    unfold get_dependency_version at h
    have hver := get_dependency_version_fields h
    rcases chainUpd_table fs ov hver vs (.table fs) (Or.inl rfl) with hc | ⟨y, hc⟩
    · rw [hc]
      simp only [updateDepItem, hver, Option.isSome_some, if_true]
      rw [insertE_of_lookupE fs "version" (.str ov) hver]
    · rw [hc]
      simp only [updateDepItem, lookupE_insertE_self, Option.isSome_some, if_true]
      rw [insertE_insertE, insertE_of_lookupE fs "version" (.str ov) hver]
  | scalar => simp [get_dependency_version] at h
  | arr xs => simp [get_dependency_version] at h

theorem updateDepItem_snapshot_none (it : Item) (h : depVersionSnapshot it = none)
    (v : String) : updateDepItem it v = it := by
  cases it with
  | str s => simp [depVersionSnapshot] at h
  | inlineTbl fs => simp [depVersionSnapshot] at h
  | table fs => simp [depVersionSnapshot] at h
  | scalar => rfl
  | arr xs => rfl

/-- The entrywise identity criterion for a sequence of update steps: a
table is unchanged by `opsFold` if, for every entry, the operations
aimed at its key are either absent or end by restoring the recorded
version of a declaration that carries one (or never touch a shapeless
declaration). -/
theorem opsFold_id (ops : List (String × String)) (es : Entries)
    (H : ∀ k it, lookupE es k = some it →
      (ops.filter (fun p => p.1 == k)).map Prod.snd = []
      ∨ (∃ vs ov, (ops.filter (fun p => p.1 == k)).map Prod.snd = vs ++ [ov]
          ∧ (get_dependency_version it = some ov
             ∨ (vs = [] ∧ ∀ v, updateDepItem it v = it)))) :
    opsFold ops es = es := by
  induction es generalizing ops with
  | nil => exact opsFold_nil_entries ops
  | cons p rest ih =>
    obtain ⟨k, it⟩ := p
    rw [opsFold_cons]
    have hk : lookupE ((k, it) :: rest) k = some it := by simp [lookupE]
    have hchain : chainUpd it ((ops.filter (fun p => p.1 == k)).map Prod.snd) = it := by
      rcases H k it hk with h0 | ⟨vs, ov, hval, hd⟩
      · rw [h0]; rfl
      · rw [hval, chainUpd_append]
        have hone : chainUpd (chainUpd it vs) [ov] = updateDepItem (chainUpd it vs) ov := rfl
        rw [hone]
        rcases hd with hd | ⟨hvs, hid⟩
        · exact chainUpd_restore it ov vs hd
        · subst hvs
          exact hid ov
    rw [hchain]
    congr 1
    apply ih
    intro k2 it2 hl2
    by_cases hkk : k2 = k
    · subst hkk
      left
      rw [List.filter_filter]
      have hcongr : (ops.filter (fun a => (a.1 == k2) && !(a.1 == k2))) = [] := by
        rw [List.filter_eq_nil_iff]
        intro a _
        simp
      rw [hcongr]
      rfl
    · have hfe : (ops.filter (fun p => !(p.1 == k))).filter (fun p => p.1 == k2) =
          ops.filter (fun p => p.1 == k2) := by
        rw [List.filter_filter]
        apply List.filter_congr
        intro a _
        by_cases ha : a.1 = k2
        · have hak : ¬ a.1 = k := by rw [ha]; exact hkk
          simp [ha, hak, hkk]
        · simp [ha]
      rw [hfe]
      have hlk2 : lookupE ((k, it) :: rest) k2 = some it2 := by
        have hne : ¬ k = k2 := fun hh => hkk hh.symm
        simp only [lookupE, hne, if_false]
        exact hl2
      exact H k2 it2 hlk2

/-! ### The update and restore folds at the dependency-table level -/

theorem get_deps_update_map (d : Doc) (n v : String) :
    get_dependencies_table (update_dependency_version d n v) =
      (get_dependencies_table d).map (fun es => depsUpdate1 es n v) := by
  rcases depsTable_cases d with ⟨hnone, hmod⟩ | ⟨es, hes, hf⟩
  · unfold update_dependency_version
    rw [hmod, hnone]
    rfl
  · unfold update_dependency_version
    rw [(hf _).1, hes]
    rfl

theorem get_deps_restoreFold (l : List (String × String)) (doc : Doc) :
    get_dependencies_table (l.foldl (fun d p => update_dependency_version d p.1 p.2) doc) =
      (get_dependencies_table doc).map (fun es => opsFold l es) := by
  induction l generalizing doc with
  | nil =>
    cases h : get_dependencies_table doc <;> simp [h, opsFold]
  | cons p rest ih =>
    rw [List.foldl_cons, ih, get_deps_update_map]
    cases h : get_dependencies_table doc with
    | none => rfl
    | some es =>
      simp only [Option.map_some', Option.map_map]
      rfl

theorem get_deps_restore (d : Doc) :
    get_dependencies_table (restoreRecordedVersions d) =
      (get_dependencies_table d).map
        (fun es => opsFold ((get_original_versions d).filter (fun p => p.2 != "")) es) := by
  unfold restoreRecordedVersions
  exact get_deps_restoreFold _ d

theorem get_deps_updLoop (mgc : List CrateInfo) (origsv : List (String × String))
    (doc : Doc) :
    get_dependencies_table (applyVersionUpdates doc mgc origsv) =
      (get_dependencies_table doc).map (fun es => opsFold (updOps mgc origsv) es) := by
  induction mgc generalizing doc with
  | nil =>
    cases h : get_dependencies_table doc <;> simp [applyVersionUpdates, h, opsFold, updOps]
  | cons c mgc2 ih =>
    unfold applyVersionUpdates at ih ⊢
    rw [List.foldl_cons]
    unfold updOps at ih ⊢
    rw [List.filterMap_cons]
    cases hl : lookupE origsv c.name with
    | none =>
      simp only []
      exact ih doc
    | some ov =>
      simp only []
      by_cases hov : ov ≠ ""
      · rw [if_pos hov, if_pos hov]
        rw [ih (update_dependency_version doc c.name c.version), get_deps_update_map]
        cases h : get_dependencies_table doc with
        | none => rfl
        | some es =>
          simp only [Option.map_some', Option.map_map]
          rfl
      · rw [if_neg hov, if_neg hov]
        exact ih doc

/-! ### The original-version collectors -/

theorem fiwFold_eq (g : String → Option String)
    (F : List (String × String) → String → List (String × String))
    (hF : ∀ acc n, F acc n = match g n with | some v => insertE acc n v | none => acc)
    (names : List String) (acc : List (String × String)) :
    names.foldl F acc =
      names.foldl (fun acc n =>
        match g n with | some v => insertE acc n v | none => acc) acc := by
  induction names generalizing acc with
  | nil => rfl
  | cons n rest ih =>
    rw [List.foldl_cons, List.foldl_cons, hF]
    exact ih _

theorem fiwFold_nodup (g : String → Option String) (names : List String)
    (acc : List (String × String)) (hacc : (acc.map Prod.fst).Nodup) :
    (((names.foldl (fun acc n =>
        match g n with | some v => insertE acc n v | none => acc) acc)).map
      Prod.fst).Nodup := by
  induction names generalizing acc with
  | nil => exact hacc
  | cons n rest ih =>
    rw [List.foldl_cons]
    cases hg : g n with
    | none => exact ih _ hacc
    | some v =>
      simp only []
      exact ih _ (insertE_keys_nodup n v hacc)

theorem fiwFold_invariant (g : String → Option String) (P : String → String → Prop)
    (names : List String) (acc : List (String × String))
    (hacc : ∀ p ∈ acc, P p.1 p.2) (hg : ∀ n v, g n = some v → P n v) :
    ∀ p ∈ names.foldl (fun acc n =>
        match g n with | some v => insertE acc n v | none => acc) acc, P p.1 p.2 := by
  induction names generalizing acc with
  | nil => exact hacc
  | cons n rest ih =>
    rw [List.foldl_cons]
    cases hg2 : g n with
    | none => exact ih _ hacc
    | some v =>
      simp only []
      apply ih
      intro p hp
      rcases mem_insertE hp with h2 | h2
      · rw [h2]
        exact hg n v hg2
      · exact hacc p h2

theorem lookupE_insertE_isSome {β : Type} (es : List (String × β)) (k : String) (v : β)
    (n : String) (h : (lookupE es n).isSome) : (lookupE (insertE es k v) n).isSome := by
  by_cases hk : k = n
  · subst hk
    rw [lookupE_insertE_self]
    rfl
  · rw [lookupE_insertE_ne es k n v (Ne.symm hk)]
    exact h

theorem fiwFold_isSome_mono (g : String → Option String) (names : List String)
    (acc : List (String × String)) (n : String) (h : (lookupE acc n).isSome) :
    (lookupE (names.foldl (fun acc n =>
      match g n with | some v => insertE acc n v | none => acc) acc) n).isSome := by
  induction names generalizing acc with
  | nil => exact h
  | cons m rest ih =>
    rw [List.foldl_cons]
    cases hg : g m with
    | none => exact ih _ h
    | some v =>
      simp only []
      exact ih _ (lookupE_insertE_isSome _ _ _ _ h)

theorem fiwFold_isSome (g : String → Option String) (names : List String)
    (acc : List (String × String)) (n : String) (hn : n ∈ names)
    (hgn : (g n).isSome) :
    (lookupE (names.foldl (fun acc n =>
      match g n with | some v => insertE acc n v | none => acc) acc) n).isSome := by
  induction names generalizing acc with
  | nil => simp at hn
  | cons m rest ih =>
    rw [List.foldl_cons]
    by_cases hm : n = m
    · subst hm
      cases hg : g n with
      | none => rw [hg] at hgn; simp at hgn
      | some v =>
        simp only []
        apply fiwFold_isSome_mono
        rw [lookupE_insertE_self]
        rfl
    · rcases List.mem_cons.mp hn with h2 | h2
      · exact absurd h2 hm
      · cases hg : g m with
        | none => exact ih _ h2
        | some v =>
          simp only []
          exact ih _ h2

/-- The body of `collectOriginalVersions`' fold is the generic
insert-if-found step for the lookup-then-version snapshot. -/
theorem collectOrig_eq_fiw (deps : Entries) (names : List String) :
    names.foldl (fun acc n =>
      match lookupE deps n with
      | some dv => insertE acc n ((get_dependency_version dv).getD "")
      | none => acc) [] =
    names.foldl (fun acc n =>
      match (lookupE deps n).map (fun dv => (get_dependency_version dv).getD "") with
      | some v => insertE acc n v
      | none => acc) [] := by
  apply fiwFold_eq
  intro acc n
  cases h : lookupE deps n <;> simp [h]

theorem snapshot_version {it : Item} {v : String} (h : depVersionSnapshot it = some v)
    (hv : ¬ v = "") : get_dependency_version it = some v := by
  cases it with
  | str s =>
    simp only [depVersionSnapshot, Option.some.injEq] at h
    rw [get_dependency_version, h]
  | inlineTbl fs =>
    simp only [depVersionSnapshot, Option.some.injEq] at h
    unfold get_dependency_version
    simp only []
    cases hb : (lookupE fs "version").bind Item.asStr? with
    | none => rw [hb] at h; simp at h; exact absurd h.symm hv
    | some s => rw [hb] at h; simp at h; rw [h]
  | table fs =>
    simp only [depVersionSnapshot, Option.some.injEq] at h
    unfold get_dependency_version
    simp only []
    cases hb : (lookupE fs "version").bind Item.asStr? with
    | none => rw [hb] at h; simp at h; exact absurd h.symm hv
    | some s => rw [hb] at h; simp at h; rw [h]
  | scalar => simp [depVersionSnapshot] at h
  | arr xs => simp [depVersionSnapshot] at h

/-- Resolving a key of the dependency snapshot back to the dependency
table: the entry exists, and it either produced exactly that snapshot
value or is a declaration shape the snapshot skips. -/
theorem currentDeps_lookup {t : Entries} {k v : String}
    (h : lookupE (t.filterMap (fun p =>
      (depVersionSnapshot p.2).map (fun v => (p.1, v)))) k = some v) :
    ∃ it, lookupE t k = some it ∧
      (depVersionSnapshot it = some v ∨ depVersionSnapshot it = none) := by
  induction t with
  | nil => simp [lookupE] at h
  | cons p rest ih =>
    obtain ⟨k1, it1⟩ := p
    rw [List.filterMap_cons] at h
    cases hsnap : depVersionSnapshot it1 with
    | none =>
      rw [hsnap] at h
      simp only [Option.map_none'] at h
      by_cases hk : k1 = k
      · subst hk
        exact ⟨it1, by simp [lookupE], Or.inr hsnap⟩
      · obtain ⟨it, hit, hd⟩ := ih h
        exact ⟨it, by simp [lookupE, hk]; exact hit, hd⟩
    | some x =>
      rw [hsnap] at h
      simp only [Option.map_some'] at h
      by_cases hk : k1 = k
      · subst hk
        simp only [lookupE, if_pos rfl, Option.some.injEq] at h
        exact ⟨it1, by simp [lookupE], Or.inl (h ▸ hsnap)⟩
      · simp only [lookupE, hk, if_false] at h
        obtain ⟨it, hit, hd⟩ := ih h
        exact ⟨it, by simp [lookupE, hk]; exact hit, hd⟩

theorem currentDeps_resolve {doc : Doc} {k v : String}
    (h : lookupE (currentDeps doc) k = some v) :
    ∃ es it, get_dependencies_table doc = some es ∧ lookupE es k = some it
      ∧ (depVersionSnapshot it = some v ∨ depVersionSnapshot it = none) := by
  unfold currentDeps at h
  cases hd : get_dependencies_table doc with
  | none => rw [hd] at h; simp [lookupE] at h
  | some t =>
    rw [hd] at h
    simp only [] at h
    obtain ⟨it, hit, hdisj⟩ := currentDeps_lookup h
    exact ⟨t, it, rfl, hit, hdisj⟩

/-! ### The restore operations aimed at one key -/

theorem restOps_nodup (origsv : List (String × String))
    (hnd : (origsv.map Prod.fst).Nodup) :
    (((sortByName origsv).filter (fun p => p.2 != "")).map Prod.fst).Nodup := by
  have hsort : ((sortByName origsv).map Prod.fst).Nodup :=
    (((sortByName_perm origsv).map Prod.fst).nodup_iff).mpr hnd
  exact (((sortByName origsv).filter_sublist).map Prod.fst).nodup hsort

theorem restOps_filter_none (origsv : List (String × String)) (k : String)
    (h : lookupE origsv k = none) :
    ((sortByName origsv).filter (fun p => p.2 != "")).filter (fun p => p.1 == k) = [] := by
  apply filter_key_nil
  intro p hp hpk
  have hmem : p ∈ origsv := (sortByName_perm origsv).mem_iff.mp (List.mem_filter.mp hp).1
  have hsome := @lookupE_isSome_of_key_mem String origsv k
    (hpk ▸ List.mem_map.mpr ⟨p, hmem, rfl⟩)
  rw [h] at hsome
  simp at hsome

theorem restOps_filter_empty (origsv : List (String × String)) (k : String)
    (hnd : (origsv.map Prod.fst).Nodup) (h : lookupE origsv k = some "") :
    ((sortByName origsv).filter (fun p => p.2 != "")).filter (fun p => p.1 == k) = [] := by
  apply filter_key_nil
  intro p hp hpk
  obtain ⟨hps, hpv⟩ := List.mem_filter.mp hp
  have hmem : p ∈ origsv := (sortByName_perm origsv).mem_iff.mp hps
  have hlk : lookupE origsv k = some p.2 := by
    have hin : (k, p.2) ∈ origsv := by
      have hp2 : p = (k, p.2) := by
        rw [← hpk]
      rw [← hp2]
      exact hmem
    exact lookupE_of_mem_nodup hnd hin
  rw [h] at hlk
  have hp2 : p.2 = "" := by
    simpa using hlk.symm
  rw [hp2] at hpv
  simp at hpv

theorem restOps_filter_some (origsv : List (String × String)) (k ov : String)
    (hnd : (origsv.map Prod.fst).Nodup) (h : lookupE origsv k = some ov)
    (hov : ¬ ov = "") :
    ((sortByName origsv).filter (fun p => p.2 != "")).filter (fun p => p.1 == k) =
      [(k, ov)] := by
  apply filter_key_eq_of_nodup (restOps_nodup origsv hnd)
  apply List.mem_filter.mpr
  refine ⟨(sortByName_perm origsv).mem_iff.mpr (mem_of_lookupE_eq_some h), ?_⟩
  simp [hov]

theorem updOps_mem {mgc : List CrateInfo} {origsv : List (String × String)}
    {a : String × String} (h : a ∈ updOps mgc origsv) :
    ∃ c ∈ mgc, a = (c.name, c.version) ∧
      ∃ ov, lookupE origsv c.name = some ov ∧ ¬ ov = "" := by
  unfold updOps at h
  obtain ⟨c, hc, hfc⟩ := List.mem_filterMap.mp h
  refine ⟨c, hc, ?_⟩
  cases hl : lookupE origsv c.name with
  | none => rw [hl] at hfc; simp at hfc
  | some ov =>
    rw [hl] at hfc
    simp only [] at hfc
    by_cases hov : ov ≠ ""
    · rw [if_pos hov] at hfc
      injection hfc with hh
      exact ⟨hh.symm, ov, rfl, hov⟩
    · rw [if_neg hov] at hfc
      simp at hfc

theorem updOps_filter_dead (mgc : List CrateInfo) (origsv : List (String × String))
    (k : String) (h : lookupE origsv k = none ∨ lookupE origsv k = some "") :
    (updOps mgc origsv).filter (fun p => p.1 == k) = [] := by
  apply filter_key_nil
  intro a ha hak
  obtain ⟨c, _, hac, ov, hov, hovne⟩ := updOps_mem ha
  have hck : c.name = k := by
    rw [hac] at hak
    exact hak
  rw [hck] at hov
  rcases h with h | h
  · rw [h] at hov; simp at hov
  · rw [h] at hov
    injection hov with hh
    exact hovne hh.symm

/-! ### The round trip on the dependency table, per flow -/

theorem opsFold_append (A B : List (String × String)) (es : Entries) :
    opsFold (A ++ B) es = opsFold B (opsFold A es) := by
  unfold opsFold
  rw [List.foldl_append]

theorem buildTail_deps (doc1 : Doc) (origs : List (String × String)) (key : String)
    (pt : Entries) (doc2 doc3 d4 : Doc)
    (hstore : store_original_versions doc1 origs = some doc2)
    (hadd : add_managed_patch doc2 key = some doc3)
    (hins : insertPatchEntries doc3 key pt = some d4) :
    get_dependencies_table d4 = get_dependencies_table doc1 := by
  obtain ⟨pes, ses, _, _, hd4⟩ := insertPatchEntries_spec hins
  subst hd4
  rw [get_deps_insert_other _ _ _ (by decide) (by decide), withMeta_deps _ _ _ hadd,
    withMeta_deps _ _ _ hstore]

theorem collectOrig_unfold (doc : Doc) (names : List String) (deps : Entries)
    (hdeps : get_dependencies_table doc = some deps) :
    collectOriginalVersions doc names =
      names.foldl (fun acc n =>
        match (lookupE deps n).map (fun dv => (get_dependency_version dv).getD "") with
        | some v => insertE acc n v
        | none => acc) [] := by
  unfold collectOriginalVersions
  rw [hdeps]
  exact collectOrig_eq_fiw deps names

theorem collectOrig_nodup (doc : Doc) (names : List String) (deps : Entries)
    (hdeps : get_dependencies_table doc = some deps) :
    ((collectOriginalVersions doc names).map Prod.fst).Nodup := by
  rw [collectOrig_unfold doc names deps hdeps]
  exact fiwFold_nodup _ names [] (by simp)

theorem collectOrig_values (doc : Doc) (names : List String) (deps : Entries)
    (hdeps : get_dependencies_table doc = some deps) (k ov : String)
    (h : lookupE (collectOriginalVersions doc names) k = some ov) :
    ∃ dv, lookupE deps k = some dv ∧ ov = (get_dependency_version dv).getD "" := by
  rw [collectOrig_unfold doc names deps hdeps] at h
  have hmem := mem_of_lookupE_eq_some h
  exact fiwFold_invariant
    (fun n => (lookupE deps n).map (fun dv => (get_dependency_version dv).getD ""))
    (fun n v => ∃ dv, lookupE deps n = some dv ∧ v = (get_dependency_version dv).getD "")
    names [] (by simp)
    (by
      intro n v hg
      rcases Option.map_eq_some'.mp hg with ⟨dv, hdv, hv⟩
      exact ⟨dv, hdv, hv.symm⟩)
    (k, ov) hmem

theorem collectOrig_isSome (doc : Doc) (names : List String) (deps : Entries)
    (hdeps : get_dependencies_table doc = some deps) (n : String) (hn : n ∈ names)
    (hl : (lookupE deps n).isSome) :
    (lookupE (collectOriginalVersions doc names) n).isSome := by
  rw [collectOrig_unfold doc names deps hdeps]
  apply fiwFold_isSome _ _ _ _ hn
  cases h : lookupE deps n with
  | none => rw [h] at hl; simp at hl
  | some dv => simp [h]

/-- The operation sequence run by removal after the local build — the
version updates followed by the sorted restore list — leaves every
dependency entry of the pre-apply table unchanged. -/
theorem local_ops_H (doc : Doc) (mgc : List CrateInfo) (es : Entries)
    (hdeps : get_dependencies_table doc = some es) :
    opsFold (updOps mgc (collectOriginalVersions doc (mgc.map (fun c => c.name)))
        ++ (sortByName (collectOriginalVersions doc (mgc.map (fun c => c.name)))).filter
            (fun p => p.2 != "")) es = es := by
  have hnd := collectOrig_nodup doc (mgc.map (fun c => c.name)) es hdeps
  apply opsFold_id
  intro k it hit
  rw [List.filter_append, List.map_append]
  cases hv : lookupE (collectOriginalVersions doc (mgc.map (fun c => c.name))) k with
  | none =>
    left
    rw [restOps_filter_none _ k hv, updOps_filter_dead mgc _ k (Or.inl hv)]
    rfl
  | some ov =>
    by_cases hove : ov = ""
    · left
      subst hove
      rw [restOps_filter_empty _ k hnd hv, updOps_filter_dead mgc _ k (Or.inr hv)]
      rfl
    · right
      rw [restOps_filter_some _ k ov hnd hv hove]
      refine ⟨(List.filter (fun p => p.1 == k)
        (updOps mgc (collectOriginalVersions doc (mgc.map (fun c => c.name))))).map
          Prod.snd, ov, by simp, ?_⟩
      left
      obtain ⟨dv, hdv, hoveq⟩ := collectOrig_values doc _ es hdeps k ov hv
      have hdvit : dv = it := by
        rw [hit] at hdv
        injection hdv with hh
        exact hh.symm
      subst hdvit
      cases hgv : get_dependency_version dv with
      | none =>
        rw [hgv] at hoveq
        simp at hoveq
        exact absurd hoveq hove
      | some x =>
        rw [hgv] at hoveq
        simp at hoveq
        rw [hoveq]

/-- The same for the restore list recorded by the git build (which runs
no version updates). -/
theorem git_ops_H (cds : List (String × String)) (managed : List String) (es : Entries)
    (hsnap : ∀ n v, lookupE cds n = some v → ∃ it, lookupE es n = some it ∧
      (depVersionSnapshot it = some v ∨ depVersionSnapshot it = none)) :
    opsFold ((sortByName (managed.foldl (fun acc n =>
        match lookupE cds n with
        | some v => insertE acc n v
        | none => acc) [])).filter (fun p => p.2 != "")) es = es := by
  have hnd : (((managed.foldl (fun acc n =>
      match lookupE cds n with
      | some v => insertE acc n v
      | none => acc) [])).map Prod.fst).Nodup :=
    fiwFold_nodup (fun n => lookupE cds n) managed [] (by simp)
  apply opsFold_id
  intro k it hit
  cases hv : lookupE (managed.foldl (fun acc n =>
      match lookupE cds n with
      | some v => insertE acc n v
      | none => acc) []) k with
  | none =>
    left
    rw [restOps_filter_none _ k hv]
    rfl
  | some ov =>
    by_cases hove : ov = ""
    · left
      subst hove
      rw [restOps_filter_empty _ k hnd hv]
      rfl
    · right
      rw [restOps_filter_some _ k ov hnd hv hove]
      refine ⟨[], ov, by simp, ?_⟩
      have hcds : lookupE cds k = some ov := by
        have hmem := mem_of_lookupE_eq_some hv
        exact fiwFold_invariant (fun n => lookupE cds n)
          (fun n v => lookupE cds n = some v) managed [] (by simp)
          (fun n v hg => hg) (k, ov) hmem
      obtain ⟨it2, hit2, hdisj⟩ := hsnap k ov hcds
      have hit2it : it2 = it := by
        rw [hit] at hit2
        injection hit2 with hh
        exact hh.symm
      subst hit2it
      rcases hdisj with hd | hd
      · exact Or.inl (snapshot_version hd hove)
      · exact Or.inr ⟨rfl, updateDepItem_snapshot_none it2 hd⟩

theorem localBuildTail_deps_roundtrip (doc : Doc) (mgc : List CrateInfo) (d4 : Doc)
    (h : localBuildTail doc mgc = .ok d4) :
    get_dependencies_table (restoreRecordedVersions d4) = get_dependencies_table doc := by
  obtain ⟨pt, doc2, doc3, hb, hs, ha, hi⟩ := localBuildTail_inv doc mgc d4 h
  have horig : get_original_versions d4 =
      sortByName (collectOriginalVersions doc (mgc.map (fun c => c.name))) :=
    buildTail_origs _ _ _ _ _ _ _ hs ha hi
  rw [get_deps_restore, horig, buildTail_deps _ _ _ _ _ _ _ hs ha hi, get_deps_updLoop]
  cases hdeps : get_dependencies_table doc with
  | none => rfl
  | some es =>
    simp only [Option.map_some', Option.map_map]
    have hcomp : opsFold
        ((sortByName (collectOriginalVersions doc (mgc.map (fun c => c.name)))).filter
          (fun p => p.2 != ""))
        (opsFold (updOps mgc (collectOriginalVersions doc (mgc.map (fun c => c.name)))) es)
        = es := by
      rw [← opsFold_append]
      exact local_ops_H doc mgc es hdeps
    rw [hcomp]

theorem gitBuildTail_inv (doc : Doc) (url : String) (ref : Option GitReference)
    (cds : List (String × String)) (managed : List String) (d4 : Doc)
    (h : gitBuildTail doc url ref cds managed = .ok d4) :
    ∃ doc2 doc3,
      store_original_versions doc (managed.foldl (fun acc n =>
        match lookupE cds n with
        | some v => insertE acc n v
        | none => acc) []) = some doc2
      ∧ add_managed_patch doc2 "crates-io" = some doc3
      ∧ insertPatchEntries doc3 "crates-io"
          (managed.foldl (fun t n => insertE t n (gitPatchSpec url ref)) []) = some d4 := by
  unfold gitBuildTail at h
  simp only [] at h
  cases hs : store_original_versions doc (managed.foldl (fun acc n =>
      match lookupE cds n with
      | some v => insertE acc n v
      | none => acc) []) with
  | none => rw [hs] at h; exact absurd h (by simp)
  | some doc2 =>
    rw [hs] at h
    simp only [] at h
    cases ha : add_managed_patch doc2 "crates-io" with
    | none => rw [ha] at h; exact absurd h (by simp)
    | some doc3 =>
      rw [ha] at h
      simp only [] at h
      cases hi : insertPatchEntries doc3 "crates-io"
          (managed.foldl (fun t n => insertE t n (gitPatchSpec url ref)) []) with
      | none => rw [hi] at h; exact absurd h (by simp)
      | some doc4 =>
        rw [hi] at h
        simp only [Except.ok.injEq] at h
        subst h
        exact ⟨doc2, doc3, rfl, ha, hi⟩

theorem gitBuildTail_deps_roundtrip (doc : Doc) (url : String) (ref : Option GitReference)
    (cds : List (String × String)) (managed : List String) (d4 : Doc)
    (h : gitBuildTail doc url ref cds managed = .ok d4)
    (hsnap : ∀ es, get_dependencies_table doc = some es →
      ∀ n v, lookupE cds n = some v → ∃ it, lookupE es n = some it ∧
        (depVersionSnapshot it = some v ∨ depVersionSnapshot it = none)) :
    get_dependencies_table (restoreRecordedVersions d4) = get_dependencies_table doc := by
  obtain ⟨doc2, doc3, hs, ha, hi⟩ := gitBuildTail_inv doc url ref cds managed d4 h
  have horig : get_original_versions d4 =
      sortByName (managed.foldl (fun acc n =>
        match lookupE cds n with
        | some v => insertE acc n v
        | none => acc) []) :=
    buildTail_origs _ _ _ _ _ _ _ hs ha hi
  rw [get_deps_restore, horig, buildTail_deps _ _ _ _ _ _ _ hs ha hi]
  cases hdeps : get_dependencies_table doc with
  | none => rfl
  | some es =>
    simp only [Option.map_some']
    rw [git_ops_H cds managed es (hsnap es hdeps)]

/-! ### `clear_metadata` -/

theorem clearMetaRoot_shape (x : Doc) (r : String) :
    clearMetaRoot x r = x
    ∨ ∃ w w', lookupE x r = some w ∧ clearMetaRoot x r = insertE x r w'
        ∧ (∀ sub, ¬ sub = "metadata" → Item.getKey? w' sub = Item.getKey? w sub)
        ∧ (Item.getKey? w "metadata").isSome := by
  unfold clearMetaRoot
  cases hw : lookupE x r with
  | none => left; rfl
  | some w =>
    simp only []
    cases hm : Item.getKey? w "metadata" with
    | none => left; rfl
    | some m =>
      cases m with
      | table mes =>
        simp only []
        right
        by_cases hemp : (removeE mes metadataKey).isEmpty
        · rw [if_pos hemp]
          cases w with
          | table wes =>
            refine ⟨.table wes, .table (removeE wes "metadata"), rfl, rfl, ?_, by rw [hm]; rfl⟩
            intro sub hsub
            show lookupE (removeE wes "metadata") sub = lookupE wes sub
            exact lookupE_removeE_ne wes "metadata" sub hsub
          | str s =>
            exact ⟨.str s, (Item.str s).setKey "metadata" (.table (removeE mes metadataKey)),
              rfl, rfl, fun sub _ => rfl, by rw [hm]; rfl⟩
          | scalar =>
            exact ⟨.scalar, Item.scalar.setKey "metadata" (.table (removeE mes metadataKey)),
              rfl, rfl, fun sub _ => rfl, by rw [hm]; rfl⟩
          | arr xs =>
            exact ⟨.arr xs, (Item.arr xs).setKey "metadata" (.table (removeE mes metadataKey)),
              rfl, rfl, fun sub _ => rfl, by rw [hm]; rfl⟩
          | inlineTbl fs =>
            refine ⟨.inlineTbl fs,
              (Item.inlineTbl fs).setKey "metadata" (.table (removeE mes metadataKey)),
              rfl, rfl, ?_, by rw [hm]; rfl⟩
            intro sub hsub
            show lookupE (insertE fs "metadata" _) sub = lookupE fs sub
            exact lookupE_insertE_ne fs "metadata" sub _ hsub
        · rw [if_neg hemp]
          refine ⟨w, w.setKey "metadata" (.table (removeE mes metadataKey)),
            rfl, rfl, ?_, by rw [hm]; rfl⟩
          intro sub hsub
          cases w with
          | table wes =>
            show lookupE (insertE wes "metadata" _) sub = lookupE wes sub
            exact lookupE_insertE_ne wes "metadata" sub _ hsub
          | inlineTbl fs =>
            show lookupE (insertE fs "metadata" _) sub = lookupE fs sub
            exact lookupE_insertE_ne fs "metadata" sub _ hsub
          | str s => rfl
          | scalar => rfl
          | arr xs => rfl
      | str s => left; rfl
      | scalar => left; rfl
      | arr xs => left; rfl
      | inlineTbl fs => left; rfl

theorem clearMetaRoot_top_ne (x : Doc) (r k : String) (h : ¬ k = r) :
    lookupE (clearMetaRoot x r) k = lookupE x k := by
  rcases clearMetaRoot_shape x r with hs | ⟨w, w', _, hs, _, _⟩
  · rw [hs]
  · rw [hs, lookupE_insertE_ne _ _ _ _ h]

theorem clearMetaRoot_sub_ne (x : Doc) (r sub : String) (hsub : ¬ sub = "metadata") :
    ((lookupE (clearMetaRoot x r) r).bind (fun w => Item.getKey? w sub)) =
      ((lookupE x r).bind (fun w => Item.getKey? w sub)) := by
  rcases clearMetaRoot_shape x r with hs | ⟨w, w', hw, hs, hsubs, _⟩
  · rw [hs]
  · rw [hs, lookupE_insertE_self, hw]
    simp only [Option.some_bind]
    exact hsubs sub hsub

theorem clearMetaRoot_hasMeta (x : Doc) (r : String)
    (h : hasMetadataUnder (clearMetaRoot x r) r = true) : hasMetadataUnder x r = true := by
  rcases clearMetaRoot_shape x r with hs | ⟨w, w', hw, hs, _, hpre⟩
  · rw [hs] at h
    exact h
  · unfold hasMetadataUnder
    rw [hw]
    simpa using hpre

theorem clearMetaRoot_kills (x : Doc) (r : String) (w : Item) (mes : Entries)
    (hw : lookupE x r = some w) (hm : Item.getKey? w "metadata" = some (.table mes)) :
    metaFrom (clearMetaRoot x r) r = none := by
  unfold clearMetaRoot
  rw [hw]
  simp only []
  rw [hm]
  simp only []
  by_cases hemp : (removeE mes metadataKey).isEmpty
  · rw [if_pos hemp]
    cases w with
    | table wes =>
      unfold metaFrom
      rw [lookupE_insertE_self]
      simp only [Option.some_bind]
      have hnone : Item.getKey? (Item.table (removeE wes "metadata")) "metadata" = none := by
        show lookupE (removeE wes "metadata") "metadata" = none
        exact lookupE_removeE_self wes "metadata"
      rw [hnone]
    | str s => simp [Item.getKey?] at hm
    | scalar => simp [Item.getKey?] at hm
    | arr xs => simp [Item.getKey?] at hm
    | inlineTbl fs =>
      unfold metaFrom
      rw [lookupE_insertE_self]
      simp only [Option.some_bind]
      have hset : Item.getKey? ((Item.inlineTbl fs).setKey "metadata"
          (.table (removeE mes metadataKey))) "metadata" =
          some (.table (removeE mes metadataKey)) := by
        show lookupE (insertE fs "metadata" _) "metadata" = _
        rw [lookupE_insertE_self]
      rw [hset]
      simp only []
      have hkey : Item.getKey? (Item.table (removeE mes metadataKey)) metadataKey = none := by
        show lookupE (removeE mes metadataKey) metadataKey = none
        exact lookupE_removeE_self mes metadataKey
      rw [hkey]
  · rw [if_neg hemp]
    unfold metaFrom
    rw [lookupE_insertE_self]
    simp only [Option.some_bind]
    cases w with
    | table wes =>
      have hset : Item.getKey? ((Item.table wes).setKey "metadata"
          (.table (removeE mes metadataKey))) "metadata" =
          some (.table (removeE mes metadataKey)) := by
        show lookupE (insertE wes "metadata" _) "metadata" = _
        rw [lookupE_insertE_self]
      rw [hset]
      simp only []
      have hkey : Item.getKey? (Item.table (removeE mes metadataKey)) metadataKey = none := by
        show lookupE (removeE mes metadataKey) metadataKey = none
        exact lookupE_removeE_self mes metadataKey
      rw [hkey]
    | inlineTbl fs =>
      have hset : Item.getKey? ((Item.inlineTbl fs).setKey "metadata"
          (.table (removeE mes metadataKey))) "metadata" =
          some (.table (removeE mes metadataKey)) := by
        show lookupE (insertE fs "metadata" _) "metadata" = _
        rw [lookupE_insertE_self]
      rw [hset]
      simp only []
      have hkey : Item.getKey? (Item.table (removeE mes metadataKey)) metadataKey = none := by
        show lookupE (removeE mes metadataKey) metadataKey = none
        exact lookupE_removeE_self mes metadataKey
      rw [hkey]
    | str s => simp [Item.getKey?] at hm
    | scalar => simp [Item.getKey?] at hm
    | arr xs => simp [Item.getKey?] at hm

theorem metaFrom_congr (a b : Doc) (r : String)
    (h : ((lookupE a r).bind (fun w => Item.getKey? w "metadata")) =
         ((lookupE b r).bind (fun w => Item.getKey? w "metadata"))) :
    metaFrom a r = metaFrom b r := by
  unfold metaFrom
  rw [h]

theorem hasMeta_congr (a b : Doc) (r : String)
    (h : ((lookupE a r).bind (fun w => Item.getKey? w "metadata")) =
         ((lookupE b r).bind (fun w => Item.getKey? w "metadata"))) :
    hasMetadataUnder a r = hasMetadataUnder b r := by
  unfold hasMetadataUnder
  rw [h]

/-- `clear_metadata` at a root other than the one the build wrote (or on
any root whose metadata agrees with a reference document `y`): metadata
presence and private-table presence only ever shrink towards `y`'s. -/
theorem cmr_other (x y : Doc) (r : String)
    (heq : ((lookupE x r).bind (fun w => Item.getKey? w "metadata")) =
           ((lookupE y r).bind (fun w => Item.getKey? w "metadata"))) :
    (hasMetadataUnder (clearMetaRoot x r) r = true → hasMetadataUnder y r = true)
    ∧ ((metaFrom (clearMetaRoot x r) r).isSome → (metaFrom y r).isSome) := by
  constructor
  · intro h
    have h1 := clearMetaRoot_hasMeta x r h
    rw [hasMeta_congr x y r heq] at h1
    exact h1
  · intro h
    cases hw : lookupE x r with
    | none =>
      have hid : clearMetaRoot x r = x := by
        unfold clearMetaRoot
        rw [hw]
      rw [hid, metaFrom_congr x y r heq] at h
      exact h
    | some w =>
      cases hm : Item.getKey? w "metadata" with
      | none =>
        have hid : clearMetaRoot x r = x := by
          unfold clearMetaRoot
          rw [hw]
          simp only []
          rw [hm]
        rw [hid, metaFrom_congr x y r heq] at h
        exact h
      | some m =>
        cases m with
        | table mes =>
          rw [clearMetaRoot_kills x r w mes hw hm] at h
          simp at h
        | str s =>
          have hid : clearMetaRoot x r = x := by
            unfold clearMetaRoot
            rw [hw]
            simp only []
            rw [hm]
          rw [hid, metaFrom_congr x y r heq] at h
          exact h
        | scalar =>
          have hid : clearMetaRoot x r = x := by
            unfold clearMetaRoot
            rw [hw]
            simp only []
            rw [hm]
          rw [hid, metaFrom_congr x y r heq] at h
          exact h
        | arr xs =>
          have hid : clearMetaRoot x r = x := by
            unfold clearMetaRoot
            rw [hw]
            simp only []
            rw [hm]
          rw [hid, metaFrom_congr x y r heq] at h
          exact h
        | inlineTbl fs =>
          have hid : clearMetaRoot x r = x := by
            unfold clearMetaRoot
            rw [hw]
            simp only []
            rw [hm]
          rw [hid, metaFrom_congr x y r heq] at h
          exact h

/-- `clear_metadata` at the root the build wrote: the private table is
gone afterwards, and a surviving `metadata` key means the pre-apply
document already had one (the freshly created singleton is pruned). -/
theorem cmr_writeRoot (x : Doc) (r : String) (wes r2 metaT : Entries)
    (hwes : lookupE x r = some (.table wes))
    (hmetaM : lookupE wes "metadata" =
      some (.table (insertE r2 metadataKey (.table metaT)))) :
    metaFrom (clearMetaRoot x r) r = none
    ∧ (hasMetadataUnder (clearMetaRoot x r) r = true → ¬ r2 = []) := by
  have hget : Item.getKey? (Item.table wes) "metadata" =
      some (.table (insertE r2 metadataKey (.table metaT))) := hmetaM
  refine ⟨clearMetaRoot_kills x r _ _ hwes hget, ?_⟩
  intro h hr2
  subst hr2
  have hmes2 : removeE (insertE ([] : Entries) metadataKey (.table metaT)) metadataKey
      = [] := by
    rw [removeE_insertE]
    rfl
  unfold clearMetaRoot at h
  rw [hwes] at h
  simp only [] at h
  rw [hget] at h
  simp only [] at h
  rw [hmes2] at h
  simp only [List.isEmpty_nil, if_true] at h
  unfold hasMetadataUnder at h
  rw [lookupE_insertE_self] at h
  simp only [Option.some_bind] at h
  have hnone : Item.getKey? (Item.table (removeE wes "metadata")) "metadata" = none := by
    show lookupE (removeE wes "metadata") "metadata" = none
    exact lookupE_removeE_self wes "metadata"
  rw [hnone] at h
  simp at h

/-! ### Frames through the restore fold and the patch strip -/

theorem restoreFold_lookup_ne (l : List (String × String)) (d : Doc) (k : String)
    (h1 : ¬ k = "workspace") (h2 : ¬ k = "dependencies") :
    lookupE (l.foldl (fun d p => update_dependency_version d p.1 p.2) d) k =
      lookupE d k := by
  induction l generalizing d with
  | nil => rfl
  | cons p rest ih =>
    rw [List.foldl_cons, ih]
    unfold update_dependency_version
    exact modifyDeps_lookupE_ne d _ k h1 h2

theorem restoreFold_ws_meta (l : List (String × String)) (d : Doc) :
    ((lookupE (l.foldl (fun d p => update_dependency_version d p.1 p.2) d)
        "workspace").bind (fun w => Item.getKey? w "metadata")) =
      ((lookupE d "workspace").bind (fun w => Item.getKey? w "metadata")) := by
  induction l generalizing d with
  | nil => rfl
  | cons p rest ih =>
    rw [List.foldl_cons, ih]
    unfold update_dependency_version
    exact modifyDeps_ws_getKey_ne d _ "metadata" (by decide)

theorem restoreFold_is_workspace (l : List (String × String)) (d : Doc) :
    is_workspace (l.foldl (fun d p => update_dependency_version d p.1 p.2) d) =
      is_workspace d := by
  induction l generalizing d with
  | nil => rfl
  | cons p rest ih =>
    rw [List.foldl_cons, ih, is_workspace_update]

theorem update_ws_shape (d : Doc) (n v : String) (X : Entries)
    (h : lookupE d "workspace" = some (.table X)) :
    ∃ X2, lookupE (update_dependency_version d n v) "workspace" = some (.table X2) := by
  rcases modifyDeps_shape d (fun es => depsUpdate1 es n v) with hmod | ⟨w, es, hwl, hdw, hmod⟩
    | ⟨es, htop, hmod⟩
  · unfold update_dependency_version
    rw [hmod]
    exact ⟨X, h⟩
  · unfold update_dependency_version
    rw [hmod, lookupE_insertE_self]
    have hwX : w = .table X := by
      rw [h] at hwl
      injection hwl with hh
      exact hh.symm
    subst hwX
    exact ⟨insertE X "dependencies" (.table (depsUpdate1 es n v)), rfl⟩
  · unfold update_dependency_version
    rw [hmod, lookupE_insertE_ne _ _ _ _ (by decide)]
    exact ⟨X, h⟩

theorem restoreFold_ws_shape (l : List (String × String)) (d : Doc) (X : Entries)
    (h : lookupE d "workspace" = some (.table X)) :
    ∃ X2, lookupE (l.foldl (fun d p => update_dependency_version d p.1 p.2) d)
      "workspace" = some (.table X2) := by
  induction l generalizing d X with
  | nil => exact ⟨X, h⟩
  | cons p rest ih =>
    rw [List.foldl_cons]
    obtain ⟨X2, hX2⟩ := update_ws_shape d p.1 p.2 X h
    exact ih _ _ hX2

/-! ### The metadata actually written by the build tail -/

theorem get_metadata_none_iff (d : Doc) :
    get_metadata_table d = none ↔
      (metaFrom d "workspace" = none ∧ metaFrom d "package" = none) := by
  unfold get_metadata_table
  cases h : metaFrom d "workspace" <;> simp [h]

theorem metaFrom_root_none (d : Doc) (h : get_metadata_table d = none) :
    metaFrom d (metaRootKey d) = none := by
  obtain ⟨h1, h2⟩ := (get_metadata_none_iff d).mp h
  rcases metaRootKey_cases d with ⟨_, hroot⟩ | ⟨_, hroot⟩ <;> rw [hroot]
  · exact h1
  · exact h2

/-- The root-item view of a successful `withMetaTable` write: the chosen
root is a standard table whose `metadata` key holds the old metadata
entries (or none) with the private table freshly inserted. -/
theorem withMetaTable_content (doc : Doc) (f : Entries → Entries) (d' : Doc)
    (h : withMetaTable doc f = some d') :
    ∃ m r2 wes,
      (metaFrom doc (metaRootKey doc) = some m ∨
        (metaFrom doc (metaRootKey doc) = none ∧ m = []))
      ∧ ((lookupE doc (metaRootKey doc)).bind (fun w => Item.getKey? w "metadata")
            = some (.table r2)
          ∨ ((lookupE doc (metaRootKey doc)).bind (fun w => Item.getKey? w "metadata") = none
              ∧ r2 = []))
      ∧ lookupE d' (metaRootKey doc) = some (.table wes)
      ∧ lookupE wes "metadata"
          = some (.table (insertE r2 metadataKey (.table (f m)))) := by
  obtain ⟨wes0, L1, hroot, h2, hd'⟩ := withTableAt1_spec h
  obtain ⟨r2, L2, hmeta, h3, hL1⟩ := withTableAt1_spec h2
  obtain ⟨m, mm, hkey, hfm, hL2⟩ := withTableAt1_spec h3
  have hmm : mm = f m := by simpa using hfm.symm
  subst hmm
  subst hd'
  subst hL1
  subst hL2
  refine ⟨m, r2, _, ?_, ?_, lookupE_insertE_self _ _ _, ?_⟩
  · rcases hroot with hroot | ⟨hroot, hwes⟩
    · rcases hmeta with hmeta | ⟨hmeta, hr2⟩
      · rcases hkey with hkey | ⟨hkey, hm⟩
        · left
          unfold metaFrom
          rw [hroot]
          simp only [Option.some_bind, Item.getKey?, hmeta, hkey]
        · right
          refine ⟨?_, hm⟩
          unfold metaFrom
          rw [hroot]
          simp only [Option.some_bind, Item.getKey?, hmeta, hkey]
      · subst hr2
        rcases hkey with hkey | ⟨hkey, hm⟩
        · simp [lookupE] at hkey
        · right
          refine ⟨?_, hm⟩
          unfold metaFrom
          rw [hroot]
          simp only [Option.some_bind, Item.getKey?, hmeta]
    · subst hwes
      rcases hmeta with hmeta | ⟨hmeta, hr2⟩
      · simp [lookupE] at hmeta
      · subst hr2
        rcases hkey with hkey | ⟨hkey, hm⟩
        · simp [lookupE] at hkey
        · right
          refine ⟨?_, hm⟩
          unfold metaFrom
          rw [hroot]
          simp
  · rcases hroot with hroot | ⟨hroot, hwes⟩
    · rw [hroot]
      simp only [Option.some_bind, Item.getKey?]
      rcases hmeta with hmeta | ⟨hmeta, hr2⟩
      · left
        exact hmeta
      · right
        exact ⟨hmeta, hr2⟩
    · subst hwes
      rw [hroot]
      rcases hmeta with hmeta | ⟨hmeta, hr2⟩
      · simp [lookupE] at hmeta
      · right
        exact ⟨rfl, hr2⟩
  · rw [lookupE_insertE_self]

/-- The metadata table the build tail leaves behind, computed: the sorted
version record under `original-versions` and the singleton managed list. -/
theorem storeAddFun_calc (origs : List (String × String)) (key : String) :
    addManagedFun key (storeVersionsFun origs []) =
      [(originalVersionsKey,
          .inlineTbl ((sortByName origs).map (fun p => (p.1, Item.str p.2)))),
        (managedPatchesKey, .arr [Item.str key])] := by
  unfold addManagedFun storeVersionsFun
  have h1 : insertE ([] : Entries) originalVersionsKey
      (.inlineTbl ((sortByName origs).map (fun p => (p.1, Item.str p.2)))) =
      [(originalVersionsKey,
        .inlineTbl ((sortByName origs).map (fun p => (p.1, Item.str p.2))))] := rfl
  rw [h1]
  have h2 : lookupE [(originalVersionsKey,
      Item.inlineTbl ((sortByName origs).map (fun p => (p.1, Item.str p.2))))]
      managedPatchesKey = none := by
    simp [lookupE, originalVersionsKey, managedPatchesKey]
  rw [h2]
  simp [insertE, originalVersionsKey, managedPatchesKey]

/-- On a document with no prior metadata, the build tail records exactly
the one origin key it wrote, and the root it wrote is a standard table
whose metadata holds the freshly created private table. -/
theorem buildTail_state (doc1 : Doc) (origs : List (String × String)) (key : String)
    (pt : Entries) (doc2 doc3 d4 : Doc)
    (hmeta1 : get_metadata_table doc1 = none)
    (hstore : store_original_versions doc1 origs = some doc2)
    (hadd : add_managed_patch doc2 key = some doc3)
    (hins : insertPatchEntries doc3 key pt = some d4) :
    get_managed_patches d4 = [key]
    ∧ ∃ r2 wes,
        ((lookupE doc1 (metaRootKey doc1)).bind (fun w => Item.getKey? w "metadata")
            = some (.table r2)
          ∨ ((lookupE doc1 (metaRootKey doc1)).bind
              (fun w => Item.getKey? w "metadata") = none ∧ r2 = []))
        ∧ lookupE doc3 (metaRootKey doc1) = some (.table wes)
        ∧ lookupE wes "metadata" = some (.table (insertE r2 metadataKey
            (.table (addManagedFun key (storeVersionsFun origs []))))) := by
  have hroot2 : metaRootKey doc2 = metaRootKey doc1 := by
    unfold metaRootKey
    rw [withMeta_is_workspace _ _ _ hstore]
  obtain ⟨m1, hm1, hmf2⟩ :=
    (withMetaTable_spec doc1 (storeVersionsFun origs) doc2 hstore).2.2.2
  have hm1nil : m1 = [] := by
    rcases hm1 with hm1 | ⟨_, hm⟩
    · rw [metaFrom_root_none doc1 hmeta1] at hm1
      exact absurd hm1 (by simp)
    · exact hm
  subst hm1nil
  constructor
  · -- the managed list of d4
    obtain ⟨m2, hm2, hgm3⟩ := withMeta_meta doc2 (addManagedFun key) doc3 hadd
    rw [hroot2] at hm2
    have hm2eq : m2 = storeVersionsFun origs [] := by
      rcases hm2 with hm2 | ⟨hm2, _⟩
      · rw [hmf2] at hm2
        injection hm2 with hh
        exact hh.symm
      · rw [hmf2] at hm2
        exact absurd hm2 (by simp)
    subst hm2eq
    obtain ⟨pes, ses, _, _, hd4⟩ := insertPatchEntries_spec hins
    subst hd4
    unfold get_managed_patches
    rw [get_metadata_insertE_other _ _ _ (by decide) (by decide), hgm3, storeAddFun_calc]
    simp only []
    have hlk : lookupE [(originalVersionsKey,
        Item.inlineTbl ((sortByName origs).map (fun p => (p.1, Item.str p.2)))),
        (managedPatchesKey, Item.arr [Item.str key])] managedPatchesKey =
        some (.arr [Item.str key]) := by
      simp [lookupE, originalVersionsKey, managedPatchesKey]
    rw [hlk]
    simp [Item.asStr?]
  · -- the root item of doc3
    obtain ⟨m1', r2s, wesS, hm1', hr2s, hwesS, hgetS⟩ :=
      withMetaTable_content doc1 (storeVersionsFun origs) doc2 hstore
    have hm1'nil : m1' = [] := by
      rcases hm1' with hm1' | ⟨_, hm⟩
      · rw [metaFrom_root_none doc1 hmeta1] at hm1'
        exact absurd hm1' (by simp)
      · exact hm
    subst hm1'nil
    obtain ⟨m2, r2a, wesA, hm2, hr2a, hwesA, hgetA⟩ :=
      withMetaTable_content doc2 (addManagedFun key) doc3 hadd
    rw [hroot2] at hm2 hr2a hwesA
    have hm2eq : m2 = storeVersionsFun origs [] := by
      rcases hm2 with hm2 | ⟨hm2, _⟩
      · rw [hmf2] at hm2
        injection hm2 with hh
        exact hh.symm
      · rw [hmf2] at hm2
        exact absurd hm2 (by simp)
    subst hm2eq
    have hbind2 : ((lookupE doc2 (metaRootKey doc1)).bind
        (fun w => Item.getKey? w "metadata")) =
        some (.table (insertE r2s metadataKey (.table (storeVersionsFun origs [])))) := by
      rw [hwesS]
      simp only [Option.some_bind]
      exact hgetS
    have hr2aeq : r2a = insertE r2s metadataKey (.table (storeVersionsFun origs [])) := by
      rcases hr2a with hr2a | ⟨hr2a, _⟩
      · rw [hbind2] at hr2a
        injection hr2a with hh
        injection hh with hh2
        exact hh2.symm
      · rw [hbind2] at hr2a
        exact absurd hr2a (by simp)
    subst hr2aeq
    refine ⟨r2s, wesA, hr2s, hwesA, ?_⟩
    rw [hgetA, insertE_insertE]

/-! ### The strip step of `remove_managed_patches` on the built document -/

theorem strip_single (pes ses pt : Entries) (key : String)
    (patchedCrates : List String)
    (hses : lookupE pes key = some (.table ses) ∨ (lookupE pes key = none ∧ ses = []))
    (hpt_sub : ∀ p ∈ pt, patchedCrates.contains p.1 = true)
    (hpt_fresh : ∀ p ∈ pt, ¬ p.1 ∈ ses.map Prod.fst)
    (hses_out : ∀ q ∈ ses, patchedCrates.contains q.1 = false) :
    stripPatchKeys (insertE pes key (.table (pt.foldl (fun s p => insertE s p.1 p.2) ses)))
        [key] patchedCrates =
      if ses.isEmpty then removeE pes key else pes := by
  unfold stripPatchKeys
  rw [List.foldl_cons, List.foldl_nil, lookupE_insertE_self]
  simp only []
  have hsrc : patchedCrates.foldl (fun s c => removeE s c)
      (pt.foldl (fun s p => insertE s p.1 p.2) ses) = ses := by
    rw [insertFold_split pt ses hpt_fresh, removeFold_eq_filter, List.filter_append]
    have h1 : ses.filter (fun p => !(patchedCrates.contains p.1)) = ses := by
      rw [List.filter_eq_self]
      intro q hq
      rw [hses_out q hq]
      rfl
    have h2 : (pt.foldl (fun s p => insertE s p.1 p.2) []).filter
        (fun p => !(patchedCrates.contains p.1)) = [] := by
      rw [List.filter_eq_nil_iff]
      intro q hq
      rcases insertFold_keys pt [] q hq with h | h
      · simp at h
      · obtain ⟨p, hp, hpq⟩ := List.mem_map.mp h
        rw [← hpq, hpt_sub p hp]
        simp
    rw [h1, h2, List.append_nil]
  rw [hsrc]
  by_cases hemp : ses.isEmpty
  · rw [if_pos hemp, if_pos hemp, removeE_insertE]
  · rw [if_neg hemp, if_neg hemp, insertE_insertE]
    rcases hses with hses2 | ⟨_, hnil⟩
    · exact insertE_of_lookupE pes key _ hses2
    · subst hnil
      simp at hemp

/-- `remove_managed_patches` on the document produced by the build tail:
the recorded crate names strip exactly the inserted entries, the
untouched part of the origin table is restored verbatim, and the
metadata is cleared. -/
theorem remove_on_built (r1 : Doc) (pes ses pt : Entries) (key : String)
    (origsSorted : List (String × String))
    (hmanaged : get_managed_patches r1 = [key])
    (horig : get_original_versions r1 = origsSorted)
    (hpatch : lookupE r1 "patch" = some (.table
      (insertE pes key (.table (pt.foldl (fun s p => insertE s p.1 p.2) ses)))))
    (hses : lookupE pes key = some (.table ses) ∨ (lookupE pes key = none ∧ ses = []))
    (hpt_sub : ∀ p ∈ pt, (origsSorted.map (fun p => p.1)).contains p.1 = true)
    (hpt_fresh : ∀ p ∈ pt, ¬ p.1 ∈ ses.map Prod.fst)
    (hses_out : ∀ q ∈ ses, (origsSorted.map (fun p => p.1)).contains q.1 = false) :
    remove_managed_patches r1 = .ok (clear_metadata (
      if (if ses.isEmpty then removeE pes key else pes).isEmpty
      then removeE r1 "patch"
      else insertE r1 "patch" (.table (if ses.isEmpty then removeE pes key else pes)))) := by
  unfold remove_managed_patches
  rw [hmanaged]
  simp only [List.isEmpty_cons, Bool.false_eq_true, if_false]
  rw [horig, hpatch]
  simp only []
  rw [strip_single pes ses pt key (origsSorted.map (fun p => p.1))
    hses hpt_sub hpt_fresh hses_out]

/-! ### Membership in `collect_existing_patched_crates` -/

theorem collect_fold_mono (pes : Entries) (acc : List String) (x : String)
    (hx : x ∈ acc) :
    x ∈ pes.foldl (fun acc p =>
      match p.2 with
      | Item.table ses => acc ++ ses.map (fun q => q.1)
      | _ => acc) acc := by
  induction pes generalizing acc with
  | nil => exact hx
  | cons p rest ih =>
    rw [List.foldl_cons]
    apply ih
    cases p.2 <;> simp [hx]

theorem collect_fold_mem (pes : Entries) (acc : List String) (key : String)
    (ses : Entries) (hmem : (key, Item.table ses) ∈ pes) (x : String)
    (hx : x ∈ ses.map (fun q => q.1)) :
    x ∈ pes.foldl (fun acc p =>
      match p.2 with
      | Item.table ses => acc ++ ses.map (fun q => q.1)
      | _ => acc) acc := by
  induction pes generalizing acc with
  | nil => simp at hmem
  | cons p rest ih =>
    rw [List.foldl_cons]
    rcases List.mem_cons.mp hmem with h | h
    · subst h
      simp only []
      apply collect_fold_mono
      simp [hx]
    · exact ih _ h

theorem collect_mem (doc : Doc) (pes : Entries) (key : String) (ses : Entries)
    (hp : lookupE doc "patch" = some (.table pes))
    (hk : lookupE pes key = some (.table ses)) (x : String)
    (hx : x ∈ ses.map (fun q => q.1)) :
    x ∈ collect_existing_patched_crates doc := by
  unfold collect_existing_patched_crates
  rw [hp]
  simp only []
  exact collect_fold_mem pes [] key ses (mem_of_lookupE_eq_some hk) x hx

/-! ### Dependency-table and metadata frames under removal and clearing -/

theorem get_deps_remove_other (doc : Doc) (k : String)
    (h1 : ¬ k = "workspace") (h2 : ¬ k = "dependencies") :
    get_dependencies_table (removeE doc k) = get_dependencies_table doc := by
  rw [get_dependencies_table_eq_bind, get_dependencies_table_eq_bind doc]
  rw [lookupE_removeE_ne doc k "workspace" (fun hh => h1 hh.symm)]
  have htop : topLevelDeps (removeE doc k) = topLevelDeps doc := by
    unfold topLevelDeps
    rw [lookupE_removeE_ne doc k "dependencies" (fun hh => h2 hh.symm)]
  rw [htop]

theorem clearMetaRoot_deps (x : Doc) (r : String)
    (hr : r = "workspace" ∨ r = "package") :
    get_dependencies_table (clearMetaRoot x r) = get_dependencies_table x := by
  rcases clearMetaRoot_shape x r with hs | ⟨w, w', hw, hs, hsubs, _⟩
  · rw [hs]
  · rw [hs]
    rcases hr with hr | hr <;> subst hr
    · rw [get_dependencies_table_eq_bind, get_dependencies_table_eq_bind x]
      rw [lookupE_insertE_self, hw]
      simp only [Option.some_bind]
      rw [hsubs "dependencies" (by decide)]
      have htop : topLevelDeps (insertE x "workspace" w') = topLevelDeps x := by
        unfold topLevelDeps
        rw [lookupE_insertE_ne _ _ _ _ (by decide)]
      rw [htop]
    · rw [get_dependencies_table_eq_bind, get_dependencies_table_eq_bind x]
      rw [lookupE_insertE_ne _ _ _ _ (by decide)]
      have htop : topLevelDeps (insertE x "package" w') = topLevelDeps x := by
        unfold topLevelDeps
        rw [lookupE_insertE_ne _ _ _ _ (by decide)]
      rw [htop]

theorem clear_metadata_deps (x : Doc) :
    get_dependencies_table (clear_metadata x) = get_dependencies_table x := by
  unfold clear_metadata
  rw [clearMetaRoot_deps _ "package" (Or.inr rfl), clearMetaRoot_deps _ "workspace" (Or.inl rfl)]

theorem clear_metadata_patch (x : Doc) :
    lookupE (clear_metadata x) "patch" = lookupE x "patch" := by
  unfold clear_metadata
  rw [clearMetaRoot_top_ne _ _ _ (by decide), clearMetaRoot_top_ne _ _ _ (by decide)]

theorem cmr_frame_other (x : Doc) (r r2 : String) (h : ¬ r2 = r) :
    hasMetadataUnder (clearMetaRoot x r) r2 = hasMetadataUnder x r2
    ∧ metaFrom (clearMetaRoot x r) r2 = metaFrom x r2 := by
  have hl := clearMetaRoot_top_ne x r r2 h
  constructor
  · unfold hasMetadataUnder
    rw [hl]
  · unfold metaFrom
    rw [hl]

/-! ### Helpers for the second Apply run (idempotence) -/

theorem is_workspace_cmr (x : Doc) (r : String) :
    is_workspace (clearMetaRoot x r) = is_workspace x := by
  rcases clearMetaRoot_shape x r with hs | ⟨w, w2, hw, hs, _, _⟩
  · rw [hs]
  · rw [hs]
    unfold is_workspace
    by_cases hr : "workspace" = r
    · rw [← hr] at hw ⊢
      rw [lookupE_insertE_self, hw]
      rfl
    · rw [lookupE_insertE_ne _ _ _ _ hr]

theorem is_workspace_clear (x : Doc) :
    is_workspace (clear_metadata x) = is_workspace x := by
  unfold clear_metadata
  rw [is_workspace_cmr, is_workspace_cmr]

/-- The root item left by clearing the root the build wrote: a standard
table whose metadata either vanished or became a table without the
private key. -/
theorem cmr_writeRoot_result (x : Doc) (r : String) (W r2 metaT : Entries)
    (hW : lookupE x r = some (.table W))
    (hM : lookupE W "metadata" =
      some (.table (insertE r2 metadataKey (.table metaT)))) :
    ∃ W2, lookupE (clearMetaRoot x r) r = some (.table W2)
      ∧ (lookupE W2 "metadata" = none
         ∨ ∃ mes2, lookupE W2 "metadata" = some (.table mes2)
             ∧ lookupE mes2 metadataKey = none) := by
  have hget : Item.getKey? (Item.table W) "metadata" =
      some (.table (insertE r2 metadataKey (.table metaT))) := hM
  unfold clearMetaRoot
  rw [hW]
  simp only []
  rw [hget]
  simp only []
  by_cases hemp : (removeE (insertE r2 metadataKey (.table metaT)) metadataKey).isEmpty
  · rw [if_pos hemp]
    refine ⟨removeE W "metadata", lookupE_insertE_self _ _ _, Or.inl ?_⟩
    exact lookupE_removeE_self W "metadata"
  · rw [if_neg hemp]
    refine ⟨insertE W "metadata"
      (.table (removeE (insertE r2 metadataKey (.table metaT)) metadataKey)),
      lookupE_insertE_self _ _ _, Or.inr ⟨_, lookupE_insertE_self _ _ _, ?_⟩⟩
    rw [removeE_insertE]
    exact lookupE_removeE_self r2 metadataKey

/-- `get_or_create_metadata_table` succeeds whenever the chosen root is a
standard table whose `metadata` key (if any) is a standard table whose
private key (if any) is a standard table. -/
theorem withMetaTable_succeeds_general (x : Doc) (f : Entries → Entries) (W2 : Entries)
    (hW : lookupE x (metaRootKey x) = some (.table W2))
    (hmet : lookupE W2 "metadata" = none
      ∨ ∃ mes2, lookupE W2 "metadata" = some (.table mes2)
          ∧ (lookupE mes2 metadataKey = none
             ∨ ∃ mt, lookupE mes2 metadataKey = some (.table mt))) :
    ∃ d2, withMetaTable x f = some d2 := by
  unfold withMetaTable
  unfold withTableAt1
  rw [hW]
  simp only []
  rcases hmet with hmet | ⟨mes2, hmet, hkey⟩
  · rw [hmet]
    simp only []
    have hnil : lookupE ([] : Entries) metadataKey = none := rfl
    rw [hnil]
    simp only []
    exact ⟨_, rfl⟩
  · rw [hmet]
    simp only []
    rcases hkey with hkey | ⟨mt, hkey⟩
    · rw [hkey]
      simp only []
      exact ⟨_, rfl⟩
    · rw [hkey]
      simp only []
      exact ⟨_, rfl⟩

theorem insertPatchEntries_succeeds (x : Doc) (key : String) (pt : Entries)
    (hpx : lookupE x "patch" = none
      ∨ ∃ P, lookupE x "patch" = some (.table P)
          ∧ (lookupE P key = none ∨ ∃ S, lookupE P key = some (.table S))) :
    ∃ d2, insertPatchEntries x key pt = some d2 := by
  unfold insertPatchEntries
  rcases hpx with hpx | ⟨P, hpx, hk⟩
  · rw [hpx]
    simp only []
    have hnil : lookupE ([] : Entries) key = none := rfl
    rw [hnil]
    simp only []
    exact ⟨_, rfl⟩
  · rw [hpx]
    simp only []
    rcases hk with hk | ⟨S, hk⟩
    · rw [hk]
      simp only []
      exact ⟨_, rfl⟩
    · rw [hk]
      simp only []
      exact ⟨_, rfl⟩

theorem currentDeps_congr (a b : Doc)
    (h : get_dependencies_table a = get_dependencies_table b) :
    currentDeps a = currentDeps b := by
  unfold currentDeps
  rw [h]

theorem detect_congr (a b : Doc) (names : List String)
    (h : get_dependencies_table a = get_dependencies_table b) :
    detect_common_git_url a names = detect_common_git_url b names := by
  unfold detect_common_git_url
  rw [h]

theorem collectOrig_congr (a b : Doc) (names : List String)
    (h : get_dependencies_table a = get_dependencies_table b) :
    collectOriginalVersions a names = collectOriginalVersions b names := by
  unfold collectOriginalVersions
  rw [h]

theorem removeE_nil_keys {β : Type} {pes : List (String × β)} {key : String}
    (h : removeE pes key = []) : ∀ q ∈ pes, q.1 = key := by
  intro q hq
  rw [removeE_eq_filter] at h
  have h2 := List.filter_eq_nil_iff.mp h q hq
  simp at h2
  exact h2

theorem removeE_nil_lookup {β : Type} {pes : List (String × β)} {key : String}
    (h : removeE pes key = []) (k : String) (hk : ¬ k = key) :
    lookupE pes k = none := by
  apply lookupE_eq_none_of_not_mem
  intro q hq hqk
  exact hk (hqk ▸ removeE_nil_keys h q hq)

/-- Membership in the existing-patched-crates fold, characterized. -/
theorem collect_fold_mem_iff (L : Entries) (acc : List String) (x : String) :
    (x ∈ L.foldl (fun acc p =>
      match p.2 with
      | Item.table ses => acc ++ ses.map (fun q => q.1)
      | _ => acc) acc)
    ↔ (x ∈ acc ∨ ∃ k2 ses2, (k2, Item.table ses2) ∈ L ∧ x ∈ ses2.map (fun q => q.1)) := by
  induction L generalizing acc with
  | nil => simp
  | cons p rest ih =>
    obtain ⟨k1, v1⟩ := p
    rw [List.foldl_cons]
    cases v1 with
    | table s1 =>
      simp only []
      rw [ih]
      constructor
      · rintro (h | ⟨k2, ses2, hmem, hx⟩)
        · rcases List.mem_append.mp h with h | h
          · exact Or.inl h
          · exact Or.inr ⟨k1, s1, by simp, h⟩
        · exact Or.inr ⟨k2, ses2, by simp [hmem], hx⟩
      · rintro (h | ⟨k2, ses2, hmem, hx⟩)
        · exact Or.inl (List.mem_append.mpr (Or.inl h))
        · rcases List.mem_cons.mp hmem with h2 | h2
          · left
            apply List.mem_append.mpr
            right
            have hs : s1 = ses2 := by
              have hsnd := congrArg Prod.snd h2
              simp at hsnd
              exact hsnd.symm
            rw [hs]
            exact hx
          · exact Or.inr ⟨k2, ses2, h2, hx⟩
    | str s =>
      simp only []
      rw [ih]
      constructor
      · rintro (h | ⟨k2, ses2, hmem, hx⟩)
        · exact Or.inl h
        · exact Or.inr ⟨k2, ses2, by simp [hmem], hx⟩
      · rintro (h | ⟨k2, ses2, hmem, hx⟩)
        · exact Or.inl h
        · rcases List.mem_cons.mp hmem with h2 | h2
          · exfalso
            injection h2.symm with hh1 hh2
            exact absurd hh2 (by simp)
          · exact Or.inr ⟨k2, ses2, h2, hx⟩
    | scalar =>
      simp only []
      rw [ih]
      constructor
      · rintro (h | ⟨k2, ses2, hmem, hx⟩)
        · exact Or.inl h
        · exact Or.inr ⟨k2, ses2, by simp [hmem], hx⟩
      · rintro (h | ⟨k2, ses2, hmem, hx⟩)
        · exact Or.inl h
        · rcases List.mem_cons.mp hmem with h2 | h2
          · exfalso
            injection h2.symm with hh1 hh2
            exact absurd hh2 (by simp)
          · exact Or.inr ⟨k2, ses2, h2, hx⟩
    | arr xs =>
      simp only []
      rw [ih]
      constructor
      · rintro (h | ⟨k2, ses2, hmem, hx⟩)
        · exact Or.inl h
        · exact Or.inr ⟨k2, ses2, by simp [hmem], hx⟩
      · rintro (h | ⟨k2, ses2, hmem, hx⟩)
        · exact Or.inl h
        · rcases List.mem_cons.mp hmem with h2 | h2
          · exfalso
            injection h2.symm with hh1 hh2
            exact absurd hh2 (by simp)
          · exact Or.inr ⟨k2, ses2, h2, hx⟩
    | inlineTbl fs =>
      simp only []
      rw [ih]
      constructor
      · rintro (h | ⟨k2, ses2, hmem, hx⟩)
        · exact Or.inl h
        · exact Or.inr ⟨k2, ses2, by simp [hmem], hx⟩
      · rintro (h | ⟨k2, ses2, hmem, hx⟩)
        · exact Or.inl h
        · rcases List.mem_cons.mp hmem with h2 | h2
          · exfalso
            injection h2.symm with hh1 hh2
            exact absurd hh2 (by simp)
          · exact Or.inr ⟨k2, ses2, h2, hx⟩

theorem updLoop_ws_shape (mc : List CrateInfo) (origs : List (String × String))
    (doc : Doc) (X : Entries) (h : lookupE doc "workspace" = some (.table X)) :
    ∃ X2, lookupE (mc.foldl (fun d c =>
      match lookupE origs c.name with
      | some ov => if ov ≠ "" then update_dependency_version d c.name c.version else d
      | none => d) doc) "workspace" = some (.table X2) := by
  induction mc generalizing doc X with
  | nil => exact ⟨X, h⟩
  | cons x rest ih =>
    have hstep : (match lookupE origs x.name with
        | some ov => if ov ≠ "" then update_dependency_version doc x.name x.version else doc
        | none => doc) = doc
        ∨ (match lookupE origs x.name with
            | some ov => if ov ≠ "" then update_dependency_version doc x.name x.version else doc
            | none => doc) = update_dependency_version doc x.name x.version := by
      cases hl : lookupE origs x.name with
      | none => exact Or.inl rfl
      | some ov =>
        by_cases hov : ov ≠ ""
        · right; simp [hov]
        · left; simp [hov]
    rw [List.foldl_cons]
    rcases hstep with hg | hg <;> rw [hg]
    · exact ih doc X h
    · obtain ⟨X2, hX2⟩ := update_ws_shape doc x.name x.version X h
      exact ih _ X2 hX2

/-! ### Removal of everything either build tail wrote -/

/-- Remove, run on the document either apply flow built over a document
with no prior metadata: it succeeds, the dependency table comes back to
its pre-apply content, and any patch table, metadata key or private
metadata table present afterwards already existed before the apply. -/
theorem built_remove_conclusions
    (doc doc1 : Doc) (origs : List (String × String)) (key : String) (pt : Entries)
    (doc2 doc3 d4 : Doc)
    (hstore : store_original_versions doc1 origs = some doc2)
    (hadd : add_managed_patch doc2 key = some doc3)
    (hins : insertPatchEntries doc3 key pt = some d4)
    (hmeta : get_metadata_table doc = none)
    (hf_patch : lookupE doc1 "patch" = lookupE doc "patch")
    (hf_meta : get_metadata_table doc1 = get_metadata_table doc)
    (hf_ws : is_workspace doc1 = is_workspace doc)
    (hf_wsmeta : ((lookupE doc1 "workspace").bind (fun w => Item.getKey? w "metadata")) =
      ((lookupE doc "workspace").bind (fun w => Item.getKey? w "metadata")))
    (hf_pkg : lookupE doc1 "package" = lookupE doc "package")
    (hdeps_rt : get_dependencies_table (restoreRecordedVersions d4) =
      get_dependencies_table doc)
    (hpt_names : ∀ p ∈ pt, (lookupE origs p.1).isSome)
    (hpt_not_existing : ∀ p ∈ pt, ¬ p.1 ∈ collect_existing_patched_crates doc)
    (horig_keys : ∀ p ∈ origs, ¬ p.1 ∈ collect_existing_patched_crates doc) :
    ∃ dfin, remove_patches_doc d4 = .ok dfin
      ∧ get_dependencies_table dfin = get_dependencies_table doc
      ∧ ((lookupE dfin "patch").isSome → (lookupE doc "patch").isSome)
      ∧ (∀ k, (patchOriginTable dfin k).isSome → (patchOriginTable doc k).isSome)
      ∧ (hasMetadataUnder dfin "workspace" = true →
          hasMetadataUnder doc "workspace" = true)
      ∧ (hasMetadataUnder dfin "package" = true → hasMetadataUnder doc "package" = true)
      ∧ (hasCpsTable dfin "workspace" = true → hasCpsTable doc "workspace" = true)
      ∧ (hasCpsTable dfin "package" = true → hasCpsTable doc "package" = true)
      ∧ (is_workspace dfin = is_workspace doc
        ∧ (∃ pes ses,
            (lookupE doc "patch" = some (.table pes)
              ∨ (lookupE doc "patch" = none ∧ pes = []))
            ∧ (lookupE pes key = some (.table ses)
              ∨ (lookupE pes key = none ∧ ses = []))
            ∧ lookupE dfin "patch" =
                (if (if ses.isEmpty then removeE pes key else pes).isEmpty then none
                 else some (.table (if ses.isEmpty then removeE pes key else pes))))
        ∧ (∃ W2, lookupE dfin (metaRootKey doc) = some (.table W2)
            ∧ (lookupE W2 "metadata" = none
               ∨ ∃ mes2, lookupE W2 "metadata" = some (.table mes2)
                   ∧ lookupE mes2 metadataKey = none))) := by
  obtain ⟨pes, ses, hpes, hses, hd4⟩ := insertPatchEntries_spec hins
  have hmeta1 : get_metadata_table doc1 = none := by rw [hf_meta]; exact hmeta
  obtain ⟨hmanaged4, r2, wes3, hr2, hwes3, hmeta3⟩ :=
    buildTail_state doc1 origs key pt doc2 doc3 d4 hmeta1 hstore hadd hins
  have horig4 : get_original_versions d4 = sortByName origs :=
    buildTail_origs doc1 origs key pt doc2 doc3 d4 hstore hadd hins
  have hpatch3doc : lookupE doc3 "patch" = lookupE doc "patch" := by
    rw [withMeta_patch _ _ _ hadd, withMeta_patch _ _ _ hstore, hf_patch]
  have hman1 : get_managed_patches (restoreRecordedVersions d4) = [key] := by
    rw [get_managed_patches_restore, hmanaged4]
  have horig1 : get_original_versions (restoreRecordedVersions d4) = sortByName origs := by
    rw [get_original_versions_restore, horig4]
  have hpatch1 : lookupE (restoreRecordedVersions d4) "patch" =
      some (.table (insertE pes key
        (.table (pt.foldl (fun s p => insertE s p.1 p.2) ses)))) := by
    rw [patch_lookup_restore, hd4, lookupE_insertE_self]
  have hpt_sub : ∀ p ∈ pt,
      ((sortByName origs).map (fun p => p.1)).contains p.1 = true := by
    intro p hp
    obtain ⟨v, hv⟩ := Option.isSome_iff_exists.mp (hpt_names p hp)
    apply List.elem_eq_true_of_mem
    apply List.mem_map.mpr
    exact ⟨(p.1, v), (sortByName_perm origs).mem_iff.mpr (mem_of_lookupE_eq_some hv), rfl⟩
  have hses_collect : ∀ q ∈ ses, q.1 ∈ collect_existing_patched_crates doc := by
    intro q hq
    rcases hses with hses2 | ⟨_, hnil⟩
    · rcases hpes with hpes2 | ⟨_, hpesnil⟩
      · rw [hpatch3doc] at hpes2
        exact collect_mem doc pes key ses hpes2 hses2 q.1 (List.mem_map.mpr ⟨q, hq, rfl⟩)
      · subst hpesnil
        simp [lookupE] at hses2
    · subst hnil
      simp at hq
  have hpt_fresh : ∀ p ∈ pt, ¬ p.1 ∈ ses.map Prod.fst := by
    intro p hp hmem
    obtain ⟨q, hq, hqp⟩ := List.mem_map.mp hmem
    apply hpt_not_existing p hp
    rw [← hqp]
    exact hses_collect q hq
  have hses_out : ∀ q ∈ ses,
      ((sortByName origs).map (fun p => p.1)).contains q.1 = false := by
    intro q hq
    cases hcl : ((sortByName origs).map (fun p => p.1)).contains q.1 with
    | false => rfl
    | true =>
      exfalso
      have hmem := List.mem_of_elem_eq_true hcl
      obtain ⟨pr, hpr, hpreq⟩ := List.mem_map.mp hmem
      have hpr2 : pr ∈ origs := (sortByName_perm origs).mem_iff.mp hpr
      apply horig_keys pr hpr2
      rw [hpreq]
      exact hses_collect q hq
  have hremove := remove_on_built (restoreRecordedVersions d4) pes ses pt key
    (sortByName origs) hman1 horig1 hpatch1 hses hpt_sub hpt_fresh hses_out
  -- abbreviations
  set r1 := restoreRecordedVersions d4 with hr1def
  set P2 := if ses.isEmpty then removeE pes key else pes with hP2def
  set d5 := if P2.isEmpty = true then removeE r1 "patch"
    else insertE r1 "patch" (.table P2) with hd5def
  have hok : remove_patches_doc d4 = .ok (clear_metadata d5) := by
    unfold remove_patches_doc
    exact hremove
  -- the dependency table
  have hdeps : get_dependencies_table (clear_metadata d5) = get_dependencies_table doc := by
    rw [clear_metadata_deps]
    rw [hd5def]
    by_cases hPemp : P2.isEmpty
    · rw [if_pos hPemp, get_deps_remove_other _ _ (by decide) (by decide)]
      exact hdeps_rt
    · rw [if_neg (by simpa using hPemp), get_deps_insert_other _ _ _ (by decide) (by decide)]
      exact hdeps_rt
  -- the patch table only shrinks
  have hP2_of_pes_nil : pes = [] → P2 = [] := by
    intro hpesnil
    rw [hP2def]
    subst hpesnil
    rcases hses with hses2 | ⟨_, hnil⟩
    · simp [lookupE] at hses2
    · subst hnil
      rfl
  have hpatchpres : (lookupE (clear_metadata d5) "patch").isSome →
      (lookupE doc "patch").isSome := by
    intro h
    rw [clear_metadata_patch, hd5def] at h
    by_cases hPemp : P2.isEmpty
    · rw [if_pos hPemp, lookupE_removeE_self] at h
      simp at h
    · rw [if_neg (by simpa using hPemp)] at h
      rcases hpes with hpes2 | ⟨_, hpesnil⟩
      · rw [hpatch3doc] at hpes2
        rw [hpes2]
        rfl
      · exfalso
        apply hPemp
        rw [hP2_of_pes_nil hpesnil]
        rfl
  -- every surviving origin table existed
  have horigins : ∀ k, (patchOriginTable (clear_metadata d5) k).isSome →
      (patchOriginTable doc k).isSome := by
    intro k h
    unfold patchOriginTable at h ⊢
    rw [clear_metadata_patch, hd5def] at h
    by_cases hPemp : P2.isEmpty
    · rw [if_pos hPemp, lookupE_removeE_self] at h
      simp at h
    · rw [if_neg (by simpa using hPemp), lookupE_insertE_self] at h
      simp only [Option.some_bind] at h
      have hP2k : (lookupE P2 k).isSome := h
      have hpesk : (lookupE pes k).isSome := by
        rw [hP2def] at hP2k
        by_cases hsemp : ses.isEmpty
        · rw [if_pos hsemp] at hP2k
          by_cases hkk : k = key
          · subst hkk
            rw [lookupE_removeE_self] at hP2k
            simp at hP2k
          · rw [lookupE_removeE_ne pes key k (fun hh => hkk hh)] at hP2k
            exact hP2k
        · rw [if_neg (by simpa using hsemp)] at hP2k
          exact hP2k
      rcases hpes with hpes2 | ⟨_, hpesnil⟩
      · rw [hpatch3doc] at hpes2
        rw [hpes2]
        simp only [Option.some_bind]
        exact hpesk
      · subst hpesnil
        simp [lookupE] at hpesk
  -- the metadata side
  have hroot2 : metaRootKey doc2 = metaRootKey doc1 := by
    unfold metaRootKey
    rw [withMeta_is_workspace _ _ _ hstore]
  have hframe2 := (withMetaTable_spec doc1 (storeVersionsFun origs) doc2 hstore).1
  have hframe3 := (withMetaTable_spec doc2 (addManagedFun key) doc3 hadd).1
  have hRne_patch : ¬ metaRootKey doc1 = "patch" := by
    rcases metaRootKey_cases doc1 with ⟨_, hR⟩ | ⟨_, hR⟩ <;> rw [hR] <;> decide
  have hd4R : lookupE d4 (metaRootKey doc1) = some (.table wes3) := by
    rw [hd4, lookupE_insertE_ne _ _ _ _ hRne_patch]
    exact hwes3
  have hd5_lookup_ne : ∀ k, ¬ k = "patch" → lookupE d5 k = lookupE r1 k := by
    intro k hk
    rw [hd5def]
    by_cases hPemp : P2.isEmpty
    · rw [if_pos hPemp]
      exact lookupE_removeE_ne r1 "patch" k hk
    · rw [if_neg (by simpa using hPemp)]
      exact lookupE_insertE_ne r1 "patch" k _ hk
  have hmetaT := hmeta3
  have hfour : (hasMetadataUnder (clear_metadata d5) "workspace" = true →
        hasMetadataUnder doc "workspace" = true)
      ∧ (hasMetadataUnder (clear_metadata d5) "package" = true →
        hasMetadataUnder doc "package" = true)
      ∧ (hasCpsTable (clear_metadata d5) "workspace" = true →
        hasCpsTable doc "workspace" = true)
      ∧ (hasCpsTable (clear_metadata d5) "package" = true →
        hasCpsTable doc "package" = true)
      ∧ (∃ W2, lookupE (clear_metadata d5) (metaRootKey doc) = some (.table W2)
          ∧ (lookupE W2 "metadata" = none
             ∨ ∃ mes2, lookupE W2 "metadata" = some (.table mes2)
                 ∧ lookupE mes2 metadataKey = none)) := by
    rcases metaRootKey_cases doc1 with ⟨hwT, hR⟩ | ⟨hwF, hR⟩
    · -- the build wrote under [workspace]
      rw [hR] at hd4R hr2
      -- the root item of d5
      obtain ⟨W, hW⟩ := restoreFold_ws_shape
        ((get_original_versions d4).filter (fun p => p.2 != "")) d4 wes3 hd4R
      have hWr1 : lookupE r1 "workspace" = some (.table W) := hW
      have hbindW : lookupE W "metadata" = some (.table (insertE r2 metadataKey
          (.table (addManagedFun key (storeVersionsFun origs []))))) := by
        have hbind : ((lookupE r1 "workspace").bind (fun w => Item.getKey? w "metadata")) =
            ((lookupE d4 "workspace").bind (fun w => Item.getKey? w "metadata")) :=
          restoreFold_ws_meta _ d4
        rw [hWr1, hd4R] at hbind
        simp only [Option.some_bind] at hbind
        have hbind2 : lookupE W "metadata" = lookupE wes3 "metadata" := hbind
        rw [hbind2, hmetaT]
      have hd5W : lookupE d5 "workspace" = some (.table W) := by
        rw [hd5_lookup_ne "workspace" (by decide)]
        exact hWr1
      obtain ⟨hkill, hsurv⟩ := cmr_writeRoot d5 "workspace" W r2 _ hd5W hbindW
      have hfr := cmr_frame_other (clearMetaRoot d5 "workspace") "package" "workspace"
        (by decide)
      -- the package side of d5 agrees with the package side of doc
      have hbindO : ((lookupE d5 "package").bind (fun w => Item.getKey? w "metadata")) =
          ((lookupE doc "package").bind (fun w => Item.getKey? w "metadata")) := by
        have h5 := hd5_lookup_ne "package" (by decide)
        have h1 : lookupE r1 "package" = lookupE d4 "package" :=
          restoreFold_lookup_ne _ d4 "package" (by decide) (by decide)
        have h4 : lookupE d4 "package" = lookupE doc3 "package" := by
          rw [hd4]
          exact lookupE_insertE_ne _ _ _ _ (by decide)
        have h3 : lookupE doc3 "package" = lookupE doc2 "package" := by
          apply hframe3
          rw [hroot2, hR]
          decide
        have h32 : lookupE doc2 "package" = lookupE doc1 "package" := by
          apply hframe2
          rw [hR]
          decide
        rw [h5, h1, h4, h3, h32, hf_pkg]
      have hOther := cmr_other (clearMetaRoot d5 "workspace") doc "package" (by
        rw [(clearMetaRoot_top_ne d5 "workspace" "package" (by decide) :
          lookupE (clearMetaRoot d5 "workspace") "package" = lookupE d5 "package")]
        exact hbindO)
      have hRdoc : metaRootKey doc = "workspace" := by
        unfold metaRootKey
        rw [← hf_ws, hwT]
        simp
      refine ⟨?_, ?_, ?_, ?_, ?_⟩
      · -- metadata under workspace
        intro h
        unfold clear_metadata at h
        rw [hfr.1] at h
        have hr2ne := hsurv h
        rcases hr2 with hr2l | ⟨_, hr2nil⟩
        · unfold hasMetadataUnder
          rw [← hf_wsmeta, hr2l]
          rfl
        · exact absurd hr2nil hr2ne
      · -- metadata under package
        intro h
        unfold clear_metadata at h
        exact hOther.1 h
      · -- private table under workspace is gone
        intro h
        unfold clear_metadata hasCpsTable at h
        rw [hfr.2, hkill] at h
        simp at h
      · -- private table under package
        intro h
        unfold clear_metadata hasCpsTable at h
        exact hOther.2 h
      · -- the cleared write root
        obtain ⟨W2, hW2, hW2m⟩ := cmr_writeRoot_result d5 "workspace" W r2 _ hd5W hbindW
        rw [hRdoc]
        refine ⟨W2, ?_, hW2m⟩
        unfold clear_metadata
        rw [clearMetaRoot_top_ne _ "package" "workspace" (by decide)]
        exact hW2
    · -- the build wrote under [package]
      rw [hR] at hd4R hr2
      have hWr1 : lookupE r1 "package" = some (.table wes3) := by
        rw [hr1def]
        unfold restoreRecordedVersions
        rw [restoreFold_lookup_ne _ d4 "package" (by decide) (by decide)]
        exact hd4R
      have hd5W : lookupE d5 "package" = some (.table wes3) := by
        rw [hd5_lookup_ne "package" (by decide)]
        exact hWr1
      -- the workspace side of d5 agrees with the workspace side of doc
      have hbindO : ((lookupE d5 "workspace").bind (fun w => Item.getKey? w "metadata")) =
          ((lookupE doc "workspace").bind (fun w => Item.getKey? w "metadata")) := by
        have h5 := hd5_lookup_ne "workspace" (by decide)
        have h1 : ((lookupE r1 "workspace").bind (fun w => Item.getKey? w "metadata")) =
            ((lookupE d4 "workspace").bind (fun w => Item.getKey? w "metadata")) :=
          restoreFold_ws_meta _ d4
        have h4 : lookupE d4 "workspace" = lookupE doc3 "workspace" := by
          rw [hd4]
          exact lookupE_insertE_ne _ _ _ _ (by decide)
        have h3 : lookupE doc3 "workspace" = lookupE doc2 "workspace" := by
          apply hframe3
          rw [hroot2, hR]
          decide
        have h32 : lookupE doc2 "workspace" = lookupE doc1 "workspace" := by
          apply hframe2
          rw [hR]
          decide
        rw [h5, h1, h4, h3, h32, hf_wsmeta]
      have hOtherWs := cmr_other d5 doc "workspace" hbindO
      -- clearing the workspace root leaves the package side alone
      have hx1pkg : lookupE (clearMetaRoot d5 "workspace") "package" =
          lookupE d5 "package" :=
        clearMetaRoot_top_ne d5 "workspace" "package" (by decide)
      have hx1W : lookupE (clearMetaRoot d5 "workspace") "package" =
          some (.table wes3) := by
        rw [hx1pkg]
        exact hd5W
      obtain ⟨hkill, hsurv⟩ :=
        cmr_writeRoot (clearMetaRoot d5 "workspace") "package" wes3 r2 _ hx1W hmetaT
      have hfr := cmr_frame_other (clearMetaRoot d5 "workspace") "package" "workspace"
        (by decide)
      have hRdoc : metaRootKey doc = "package" := by
        unfold metaRootKey
        rw [← hf_ws, hwF]
        simp
      refine ⟨?_, ?_, ?_, ?_, ?_⟩
      · intro h
        unfold clear_metadata at h
        rw [hfr.1] at h
        exact hOtherWs.1 h
      · intro h
        unfold clear_metadata at h
        have hr2ne := hsurv h
        rcases hr2 with hr2l | ⟨_, hr2nil⟩
        · unfold hasMetadataUnder
          rw [← hf_pkg, hr2l]
          rfl
        · exact absurd hr2nil hr2ne
      · intro h
        unfold clear_metadata hasCpsTable at h
        rw [hfr.2] at h
        exact hOtherWs.2 h
      · intro h
        unfold clear_metadata hasCpsTable at h
        rw [hkill] at h
        simp at h
      · obtain ⟨W2, hW2, hW2m⟩ := cmr_writeRoot_result (clearMetaRoot d5 "workspace")
          "package" wes3 r2 _ hx1W hmetaT
        rw [hRdoc]
        exact ⟨W2, hW2, hW2m⟩
  have hwsfin : is_workspace (clear_metadata d5) = is_workspace doc := by
    rw [is_workspace_clear]
    have h5 : is_workspace d5 = is_workspace r1 := by
      rw [hd5def]
      by_cases hPemp : P2.isEmpty
      · rw [if_pos hPemp]
        unfold is_workspace
        rw [lookupE_removeE_ne r1 "patch" "workspace" (by decide)]
      · rw [if_neg (by simpa using hPemp)]
        exact is_workspace_insertE_other r1 "patch" _ (by decide)
    rw [h5, hr1def]
    unfold restoreRecordedVersions
    rw [restoreFold_is_workspace, hd4, is_workspace_insertE_other _ _ _ (by decide),
      withMeta_is_workspace _ _ _ hadd, withMeta_is_workspace _ _ _ hstore, hf_ws]
  have hpesdoc : lookupE doc "patch" = some (.table pes)
      ∨ (lookupE doc "patch" = none ∧ pes = []) := by
    rcases hpes with h | ⟨h, hnil⟩
    · left
      rw [← hpatch3doc]
      exact h
    · right
      refine ⟨?_, hnil⟩
      rw [← hpatch3doc]
      exact h
  have hpatchfin : lookupE (clear_metadata d5) "patch" =
      (if P2.isEmpty then none else some (.table P2)) := by
    rw [clear_metadata_patch, hd5def]
    by_cases hPemp : P2.isEmpty
    · rw [if_pos hPemp, if_pos hPemp]
      exact lookupE_removeE_self r1 "patch"
    · rw [if_neg (by simpa using hPemp), if_neg (by simpa using hPemp)]
      exact lookupE_insertE_self r1 "patch" _
  refine ⟨clear_metadata d5, hok, hdeps, hpatchpres, horigins,
    hfour.1, hfour.2.1, hfour.2.2.1, hfour.2.2.2.1, hwsfin, ⟨pes, ses, hpesdoc, hses, ?_⟩,
    hfour.2.2.2.2⟩
  rw [← hP2def]
  exact hpatchfin

/-! ### The apply flows, inverted -/

theorem updLoop_ws_meta (mc : List CrateInfo) (origs : List (String × String)) (doc : Doc) :
    ((lookupE (mc.foldl (fun d c =>
        match lookupE origs c.name with
        | some ov => if ov ≠ "" then update_dependency_version d c.name c.version else d
        | none => d) doc) "workspace").bind (fun w => Item.getKey? w "metadata")) =
      ((lookupE doc "workspace").bind (fun w => Item.getKey? w "metadata")) := by
  induction mc generalizing doc with
  | nil => rfl
  | cons x rest ih =>
    have hstep : (match lookupE origs x.name with
        | some ov => if ov ≠ "" then update_dependency_version doc x.name x.version else doc
        | none => doc) = doc
        ∨ (match lookupE origs x.name with
            | some ov => if ov ≠ "" then update_dependency_version doc x.name x.version else doc
            | none => doc) = update_dependency_version doc x.name x.version := by
      cases hl : lookupE origs x.name with
      | none => exact Or.inl rfl
      | some ov =>
        by_cases hov : ov ≠ ""
        · right; simp [hov]
        · left; simp [hov]
    rw [List.foldl_cons]
    rcases hstep with hg | hg <;> rw [hg]
    · exact ih doc
    · rw [ih _]
      unfold update_dependency_version
      exact modifyDeps_ws_getKey_ne doc _ "metadata" (by decide)

theorem removeOnDisk_nometa (doc : Doc) (hmeta : get_metadata_table doc = none) :
    removeOnDisk doc = doc := by
  have hman : get_managed_patches (restoreRecordedVersions doc) = [] := by
    rw [get_managed_patches_restore]
    unfold get_managed_patches
    rw [hmeta]
  unfold removeOnDisk remove_patches_doc remove_managed_patches
  rw [hman]
  rfl

theorem fiwFold_keys (g : String → Option String) (names : List String)
    (acc : List (String × String)) (p : String × String)
    (h : p ∈ names.foldl (fun acc n =>
      match g n with | some v => insertE acc n v | none => acc) acc) :
    p ∈ acc ∨ p.1 ∈ names := by
  induction names generalizing acc with
  | nil => exact Or.inl h
  | cons n rest ih =>
    rw [List.foldl_cons] at h
    cases hg : g n with
    | none =>
      rw [hg] at h
      rcases ih _ h with h2 | h2
      · exact Or.inl h2
      · right; simp [h2]
    | some v =>
      rw [hg] at h
      rcases ih _ h with h2 | h2
      · rcases mem_insertE h2 with h3 | h3
        · right
          rw [h3]
          simp
        · exact Or.inl h3
      · right; simp [h2]

theorem apply_local_inv (doc : Doc) (members : List CrateInfo)
    (cds : List (String × String)) (pattern : Option String) (d1 : Doc)
    (h : apply_local_path_patches doc members cds pattern = .ok d1) :
    d1 = doc ∨ ∃ mgc, (∀ c ∈ mgc, (lookupE cds c.name).isSome)
      ∧ (∀ c ∈ mgc, ¬ c.name ∈ collect_existing_patched_crates doc)
      ∧ localBuildTail doc mgc = .ok d1 := by
  unfold apply_local_path_patches at h
  by_cases hm : members.isEmpty
  · rw [if_pos hm] at h
    exact absurd h (by simp)
  · rw [if_neg hm] at h
    cases hf : filter_crates_by_pattern members pattern with
    | error e => rw [hf] at h; exact absurd h (by simp)
    | ok sourceCrates =>
      rw [hf] at h
      simp only [] at h
      by_cases hcp : (sourceCrates.filter (fun c => (lookupE cds c.name).isSome)).isEmpty
      · rw [if_pos hcp] at h
        simp only [Except.ok.injEq] at h
        exact Or.inl h.symm
      · rw [if_neg hcp] at h
        by_cases hmg : ((sourceCrates.filter (fun c => (lookupE cds c.name).isSome)).filter
            (fun c => !((collect_existing_patched_crates doc).contains c.name))).isEmpty
        · rw [if_pos hmg] at h
          simp only [Except.ok.injEq] at h
          exact Or.inl h.symm
        · rw [if_neg hmg] at h
          right
          refine ⟨_, ?_, ?_, h⟩
          · intro c hc
            have h2 := (List.mem_filter.mp (List.mem_filter.mp hc).1).2
            simpa using h2
          · intro c hc hcol
            have h2 := (List.mem_filter.mp hc).2
            simp only [List.contains] at h2
            rw [List.elem_eq_true_of_mem hcol] at h2
            simp at h2

theorem apply_git_inv (doc : Doc) (url : String) (ref : Option GitReference)
    (cds : List (String × String)) (pattern : Option String) (d1 : Doc)
    (h : apply_git_patches doc url ref cds pattern = .ok d1) :
    d1 = doc ∨ ∃ managed : List String,
      (∀ n ∈ managed, n ∈ cds.map Prod.fst)
      ∧ (∀ n ∈ managed, ¬ n ∈ collect_existing_patched_crates doc)
      ∧ gitBuildTail doc url ref cds managed = .ok d1 := by
  unfold apply_git_patches at h
  cases pattern with
  | none => exact absurd h (by simp)
  | some p =>
    simp only [] at h
    cases hg : glob_pattern_regex p with
    | error e => rw [hg] at h; exact absurd h (by simp)
    | ok toks =>
      rw [hg] at h
      simp only [] at h
      by_cases hcp : ((cds.map (fun q => q.1)).filter
          (fun n => reMatch toks n.toList)).isEmpty
      · rw [if_pos hcp] at h
        exact absurd h (by simp)
      · rw [if_neg hcp] at h
        by_cases hmg : (((cds.map (fun q => q.1)).filter
            (fun n => reMatch toks n.toList)).filter
            (fun n => !((collect_existing_patched_crates doc).contains n))).isEmpty
        · rw [if_pos hmg] at h
          simp only [Except.ok.injEq] at h
          exact Or.inl h.symm
        · rw [if_neg hmg] at h
          right
          refine ⟨_, ?_, ?_, h⟩
          · intro n hn
            have h1 := (List.mem_filter.mp (List.mem_filter.mp hn).1).1
            obtain ⟨q, hq, hqn⟩ := List.mem_map.mp h1
            exact List.mem_map.mpr ⟨q, hq, hqn⟩
          · intro n hn hcol
            have h2 := (List.mem_filter.mp hn).2
            simp only [List.contains] at h2
            rw [List.elem_eq_true_of_mem hcol] at h2
            simp at h2

theorem gitPT_keys (managed : List String) (x : Item) (acc : Entries)
    (p : String × Item) (h : p ∈ managed.foldl (fun t n => insertE t n x) acc) :
    p ∈ acc ∨ p.1 ∈ managed := by
  induction managed generalizing acc with
  | nil => exact Or.inl h
  | cons n rest ih =>
    rw [List.foldl_cons] at h
    rcases ih _ h with h2 | h2
    · rcases mem_insertE h2 with h3 | h3
      · right
        rw [h3]
        simp
      · exact Or.inl h3
    · right; simp [h2]

set_option maxHeartbeats 2000000 in
/-- C1 (amended): on a manifest carrying no prior tool metadata, a
successful Apply followed by Remove restores the dependency table to its
exact pre-apply content, and the on-disk result holds no patch table,
patch origin, metadata key or private metadata table that did not
already exist before the Apply. -/
theorem c1_roundtrip (src : PatchSourceM) (doc : Doc) (pattern : Option String) (d1 : Doc)
    (hmeta : get_metadata_table doc = none)
    (happ : apply_patches_doc src doc pattern = .ok d1) :
    get_dependencies_table (removeOnDisk d1) = get_dependencies_table doc
    ∧ ((lookupE (removeOnDisk d1) "patch").isSome → (lookupE doc "patch").isSome)
    ∧ (∀ k, (patchOriginTable (removeOnDisk d1) k).isSome →
        (patchOriginTable doc k).isSome)
    ∧ (hasMetadataUnder (removeOnDisk d1) "workspace" = true →
        hasMetadataUnder doc "workspace" = true)
    ∧ (hasMetadataUnder (removeOnDisk d1) "package" = true →
        hasMetadataUnder doc "package" = true)
    ∧ (hasCpsTable (removeOnDisk d1) "workspace" = true →
        hasCpsTable doc "workspace" = true)
    ∧ (hasCpsTable (removeOnDisk d1) "package" = true →
        hasCpsTable doc "package" = true) := by
  have hclean : selfCleanStep doc = .ok doc := by
    unfold selfCleanStep
    have hman : get_managed_patches doc = [] := by
      unfold get_managed_patches
      rw [hmeta]
    rw [hman]
    rfl
  unfold apply_patches_doc at happ
  rw [hclean] at happ
  simp only [] at happ
  unfold applySourceDispatch at happ
  cases src with
  | localPath members =>
    simp only [] at happ
    rcases apply_local_inv doc members (currentDeps doc) pattern d1 happ with
      hdd | ⟨mgc, hcds, hexist, hbuild⟩
    · rw [hdd, removeOnDisk_nometa doc hmeta]
      exact ⟨rfl, fun h => h, fun k h => h, fun h => h, fun h => h, fun h => h, fun h => h⟩
    · obtain ⟨pt, doc2, doc3, hb, hs, ha, hi⟩ := localBuildTail_inv doc mgc d1 hbuild
      obtain ⟨hfp, hfm, hfw, _⟩ := updLoop_frames mgc
        (collectOriginalVersions doc (mgc.map (fun c => c.name))) doc
      have hdeps_rt : get_dependencies_table (restoreRecordedVersions d1) =
          get_dependencies_table doc :=
        localBuildTail_deps_roundtrip doc mgc d1 hbuild
      have hpt_names : ∀ p ∈ pt,
          (lookupE (collectOriginalVersions doc (mgc.map (fun c => c.name))) p.1).isSome := by
        intro p hp
        rcases buildPathEntries_keys mgc [] pt hb p hp with h0 | h0
        · simp at h0
        · obtain ⟨c, hc, hcn⟩ := List.mem_map.mp h0
          obtain ⟨v, hv⟩ := Option.isSome_iff_exists.mp (hcds c hc)
          obtain ⟨es, it, hdeps, hit, _⟩ := currentDeps_resolve hv
          rw [← hcn]
          apply collectOrig_isSome doc _ es hdeps c.name (List.mem_map.mpr ⟨c, hc, rfl⟩)
          rw [hit]
          rfl
      have hpt_not_existing : ∀ p ∈ pt, ¬ p.1 ∈ collect_existing_patched_crates doc := by
        intro p hp
        rcases buildPathEntries_keys mgc [] pt hb p hp with h0 | h0
        · simp at h0
        · obtain ⟨c, hc, hcn⟩ := List.mem_map.mp h0
          rw [← hcn]
          exact hexist c hc
      have horig_keys : ∀ p ∈ collectOriginalVersions doc (mgc.map (fun c => c.name)),
          ¬ p.1 ∈ collect_existing_patched_crates doc := by
        intro p hp
        unfold collectOriginalVersions at hp
        cases hdeps : get_dependencies_table doc with
        | none =>
          rw [hdeps] at hp
          simp at hp
        | some deps =>
          rw [hdeps] at hp
          simp only [] at hp
          rcases origsFold_keys deps (mgc.map (fun c => c.name)) [] p hp with h0 | h0
          · simp at h0
          · obtain ⟨c, hc, hcn⟩ := List.mem_map.mp h0
            rw [← hcn]
            exact hexist c hc
      have hfp2 : lookupE (applyVersionUpdates doc mgc
          (collectOriginalVersions doc (mgc.map (fun c => c.name)))) "patch" =
          lookupE doc "patch" := hfp
      have hfm2 : get_metadata_table (applyVersionUpdates doc mgc
          (collectOriginalVersions doc (mgc.map (fun c => c.name)))) =
          get_metadata_table doc := hfm
      have hfw2 : is_workspace (applyVersionUpdates doc mgc
          (collectOriginalVersions doc (mgc.map (fun c => c.name)))) =
          is_workspace doc := hfw
      have hwsm2 : ((lookupE (applyVersionUpdates doc mgc
          (collectOriginalVersions doc (mgc.map (fun c => c.name)))) "workspace").bind
            (fun w => Item.getKey? w "metadata")) =
          ((lookupE doc "workspace").bind (fun w => Item.getKey? w "metadata")) :=
        updLoop_ws_meta mgc _ doc
      have hpkg2 : lookupE (applyVersionUpdates doc mgc
          (collectOriginalVersions doc (mgc.map (fun c => c.name)))) "package" =
          lookupE doc "package" :=
        deps_lookup_updLoop mgc _ doc "package" (by decide) (by decide)
      obtain ⟨dfin, hok, hcc⟩ := built_remove_conclusions doc
        (applyVersionUpdates doc mgc (collectOriginalVersions doc (mgc.map (fun c => c.name))))
        (collectOriginalVersions doc (mgc.map (fun c => c.name)))
        ((detect_common_git_url doc (mgc.map (fun c => c.name))).getD "crates-io") pt
        doc2 doc3 d1 hs ha hi hmeta hfp2 hfm2 hfw2 hwsm2 hpkg2
        hdeps_rt hpt_names hpt_not_existing horig_keys
      have hrod : removeOnDisk d1 = dfin := by
        unfold removeOnDisk
        rw [hok]
      rw [hrod]
      exact ⟨hcc.1, hcc.2.1, hcc.2.2.1, hcc.2.2.2.1, hcc.2.2.2.2.1,
        hcc.2.2.2.2.2.1, hcc.2.2.2.2.2.2.1⟩
  | git url ref =>
    simp only [] at happ
    rcases apply_git_inv doc url ref (currentDeps doc) pattern d1 happ with
      hdd | ⟨managed, hcds, hexist, hbuild⟩
    · rw [hdd, removeOnDisk_nometa doc hmeta]
      exact ⟨rfl, fun h => h, fun k h => h, fun h => h, fun h => h, fun h => h, fun h => h⟩
    · obtain ⟨doc2, doc3, hs, ha, hi⟩ :=
        gitBuildTail_inv doc url ref (currentDeps doc) managed d1 hbuild
      have hsnap : ∀ es, get_dependencies_table doc = some es →
          ∀ n v, lookupE (currentDeps doc) n = some v → ∃ it, lookupE es n = some it ∧
            (depVersionSnapshot it = some v ∨ depVersionSnapshot it = none) := by
        intro es hdeps n v hv
        obtain ⟨es2, it, hdeps2, hit, hdisj⟩ := currentDeps_resolve hv
        have hes : es2 = es := by
          rw [hdeps] at hdeps2
          injection hdeps2 with hh
          exact hh.symm
        subst hes
        exact ⟨it, hit, hdisj⟩
      have hdeps_rt : get_dependencies_table (restoreRecordedVersions d1) =
          get_dependencies_table doc :=
        gitBuildTail_deps_roundtrip doc url ref (currentDeps doc) managed d1 hbuild hsnap
      have hpt_names : ∀ p ∈ (managed.foldl
          (fun t n => insertE t n (gitPatchSpec url ref)) []),
          (lookupE (managed.foldl (fun acc n =>
            match lookupE (currentDeps doc) n with
            | some v => insertE acc n v
            | none => acc) []) p.1).isSome := by
        intro p hp
        rcases gitPT_keys managed _ [] p hp with h0 | h0
        · simp at h0
        · apply fiwFold_isSome (fun n => lookupE (currentDeps doc) n) managed [] p.1 h0
          exact lookupE_isSome_of_key_mem (hcds p.1 h0)
      have hpt_not_existing : ∀ p ∈ (managed.foldl
          (fun t n => insertE t n (gitPatchSpec url ref)) []),
          ¬ p.1 ∈ collect_existing_patched_crates doc := by
        intro p hp
        rcases gitPT_keys managed _ [] p hp with h0 | h0
        · simp at h0
        · exact hexist p.1 h0
      have horig_keys : ∀ p ∈ (managed.foldl (fun acc n =>
            match lookupE (currentDeps doc) n with
            | some v => insertE acc n v
            | none => acc) []),
          ¬ p.1 ∈ collect_existing_patched_crates doc := by
        intro p hp
        rcases fiwFold_keys (fun n => lookupE (currentDeps doc) n) managed [] p hp with
          h0 | h0
        · simp at h0
        · exact hexist p.1 h0
      obtain ⟨dfin, hok, hcc⟩ := built_remove_conclusions doc doc
        (managed.foldl (fun acc n =>
          match lookupE (currentDeps doc) n with
          | some v => insertE acc n v
          | none => acc) [])
        "crates-io"
        (managed.foldl (fun t n => insertE t n (gitPatchSpec url ref)) [])
        doc2 doc3 d1 hs ha hi hmeta rfl rfl rfl rfl rfl
        hdeps_rt hpt_names hpt_not_existing horig_keys
      have hrod : removeOnDisk d1 = dfin := by
        unfold removeOnDisk
        rw [hok]
      rw [hrod]
      exact ⟨hcc.1, hcc.2.1, hcc.2.2.1, hcc.2.2.2.1, hcc.2.2.2.2.1,
        hcc.2.2.2.2.2.1, hcc.2.2.2.2.2.2.1⟩

/-! ### The second Apply run, on the self-cleaned document -/

/-- A key that `lookupE` misses heads no entry of the list. -/
theorem lookupE_none_keys {β : Type} {es : List (String × β)} {k : String}
    (h : lookupE es k = none) : ∀ p ∈ es, ¬ p.1 = k := by
  induction es with
  | nil => intro p hp; simp at hp
  | cons q rest ih =>
    obtain ⟨k1, v1⟩ := q
    intro p hp
    by_cases h1 : k1 = k
    · simp [lookupE, h1] at h
    · simp only [lookupE] at h
      rw [if_neg (by simpa using h1)] at h
      rcases List.mem_cons.mp hp with hp | hp
      · rw [hp]
        exact h1
      · exact ih h p hp

theorem removeE_id_of_lookup_none {β : Type} {es : List (String × β)} {k : String}
    (h : lookupE es k = none) : removeE es k = es := by
  rw [removeE_eq_filter]
  apply List.filter_eq_self.mpr
  intro p hp
  simp [lookupE_none_keys h p hp]

/-- The self-clean strip leaves a patch section over which the patch
writer's own case analysis resolves. -/
theorem second_patch_px (x : Doc) (pes ses : Entries) (K : String)
    (hses : lookupE pes K = some (.table ses) ∨ (lookupE pes K = none ∧ ses = []))
    (hp : lookupE x "patch" =
      (if (if ses.isEmpty then removeE pes K else pes).isEmpty then none
       else some (.table (if ses.isEmpty then removeE pes K else pes)))) :
    lookupE x "patch" = none
    ∨ ∃ P, lookupE x "patch" = some (.table P)
        ∧ (lookupE P K = none ∨ ∃ S, lookupE P K = some (.table S)) := by
  rw [hp]
  by_cases hPemp : (if ses.isEmpty then removeE pes K else pes).isEmpty
  · rw [if_pos hPemp]
    exact Or.inl rfl
  · rw [if_neg hPemp]
    right
    refine ⟨_, rfl, ?_⟩
    by_cases hsemp : ses.isEmpty
    · rw [if_pos hsemp]
      exact Or.inl (lookupE_removeE_self pes K)
    · rw [if_neg hsemp]
      rcases hses with hsesl | ⟨_, hnil⟩
      · exact Or.inr ⟨ses, hsesl⟩
      · subst hnil
        simp at hsemp

/-- The patch table and origin sub-table the second run reads back are
the originals: the stripped section determines them. -/
theorem second_patch_ident (x : Doc) (pes ses pes2 ses2x : Entries) (K : String)
    (hses : lookupE pes K = some (.table ses) ∨ (lookupE pes K = none ∧ ses = []))
    (hxp : lookupE x "patch" =
      (if (if ses.isEmpty then removeE pes K else pes).isEmpty then none
       else some (.table (if ses.isEmpty then removeE pes K else pes))))
    (hpes2 : lookupE x "patch" = some (.table pes2)
      ∨ (lookupE x "patch" = none ∧ pes2 = []))
    (hses2x : lookupE pes2 K = some (.table ses2x)
      ∨ (lookupE pes2 K = none ∧ ses2x = [])) :
    ses2x = ses ∧ (∀ k, ¬ k = K → lookupE pes2 k = lookupE pes k) := by
  by_cases hsemp : ses.isEmpty
  · have hsnil : ses = [] := List.isEmpty_iff.mp hsemp
    rw [if_pos hsemp] at hxp
    by_cases hP2emp : (removeE pes K).isEmpty
    · rw [if_pos hP2emp] at hxp
      have hP2nil : removeE pes K = [] := List.isEmpty_iff.mp hP2emp
      rcases hpes2 with hpes2l | ⟨_, hpnil⟩
      · rw [hxp] at hpes2l
        simp at hpes2l
      · subst hpnil
        have hs2 : ses2x = [] := by
          rcases hses2x with hses2l | ⟨_, hnil⟩
          · simp [lookupE] at hses2l
          · exact hnil
        refine ⟨by rw [hs2, hsnil], ?_⟩
        intro k hk
        rw [removeE_nil_lookup hP2nil k hk]
        rfl
    · rw [if_neg hP2emp] at hxp
      rcases hpes2 with hpes2l | ⟨hpnone, _⟩
      · rw [hxp] at hpes2l
        have hpeq : pes2 = removeE pes K := by
          injection hpes2l with hh
          injection hh with hh2
          exact hh2.symm
        subst hpeq
        have hs2 : ses2x = [] := by
          rcases hses2x with hses2l | ⟨_, hnil⟩
          · rw [lookupE_removeE_self] at hses2l
            simp at hses2l
          · exact hnil
        refine ⟨by rw [hs2, hsnil], ?_⟩
        intro k hk
        exact lookupE_removeE_ne pes K k hk
      · rw [hxp] at hpnone
        simp at hpnone
  · have hpesne : ¬ pes.isEmpty := by
      intro hpe
      have hpnil : pes = [] := List.isEmpty_iff.mp hpe
      rcases hses with hsesl | ⟨_, hnil⟩
      · rw [hpnil] at hsesl
        simp [lookupE] at hsesl
      · subst hnil
        simp at hsemp
    rw [if_neg hsemp, if_neg hpesne] at hxp
    rcases hpes2 with hpes2l | ⟨hpnone, _⟩
    · rw [hxp] at hpes2l
      have hpeq : pes2 = pes := by
        injection hpes2l with hh
        injection hh with hh2
        exact hh2.symm
      subst hpeq
      rcases hses with hsesl | ⟨_, hnil⟩
      · have hs2 : ses2x = ses := by
          rcases hses2x with hses2l | ⟨hnone2, _⟩
          · rw [hsesl] at hses2l
            injection hses2l with hh
            injection hh with hh2
            exact hh2.symm
          · rw [hsesl] at hnone2
            simp at hnone2
        exact ⟨hs2, fun k _ => rfl⟩
      · subst hnil
        simp at hsemp
    · rw [hxp] at hpnone
      simp at hpnone

/-- Running the local build tail again on a document `dfin` whose
dependency table equals `doc`'s, with no private metadata, and whose
patch section is exactly what stripping the first run's entries left:
it succeeds, records the same sorted original versions and the same
single origin key, and rebuilds exactly the patch section the first
run built over `pes`/`ses`. -/
theorem second_build_local (dfin doc : Doc) (mgc : List CrateInfo) (pes ses pt : Entries)
    (hdeq : get_dependencies_table dfin = get_dependencies_table doc)
    (hmeta2 : get_metadata_table dfin = none)
    (hb : buildPathEntries mgc = some pt)
    (hses : lookupE pes
        ((detect_common_git_url doc (mgc.map (fun c => c.name))).getD "crates-io") =
          some (.table ses)
      ∨ (lookupE pes
          ((detect_common_git_url doc (mgc.map (fun c => c.name))).getD "crates-io") = none
        ∧ ses = []))
    (hpatch2 : lookupE dfin "patch" =
      (if (if ses.isEmpty then removeE pes
            ((detect_common_git_url doc (mgc.map (fun c => c.name))).getD "crates-io")
          else pes).isEmpty then none
       else some (.table (if ses.isEmpty then removeE pes
            ((detect_common_git_url doc (mgc.map (fun c => c.name))).getD "crates-io")
          else pes))))
    (hroot2 : ∃ W2, lookupE dfin (metaRootKey dfin) = some (.table W2)
        ∧ (lookupE W2 "metadata" = none
           ∨ ∃ mes2, lookupE W2 "metadata" = some (.table mes2)
               ∧ lookupE mes2 metadataKey = none)) :
    ∃ d2, localBuildTail dfin mgc = .ok d2
      ∧ get_original_versions d2 =
          sortByName (collectOriginalVersions doc (mgc.map (fun c => c.name)))
      ∧ get_managed_patches d2 =
          [(detect_common_git_url doc (mgc.map (fun c => c.name))).getD "crates-io"]
      ∧ ∀ k, patchOriginTable d2 k =
          lookupE (insertE pes
            ((detect_common_git_url doc (mgc.map (fun c => c.name))).getD "crates-io")
            (.table (pt.foldl (fun s p => insertE s p.1 p.2) ses))) k := by
  set K := (detect_common_git_url doc (mgc.map (fun c => c.name))).getD "crates-io"
    with hKdef
  set X := collectOriginalVersions doc (mgc.map (fun c => c.name)) with hXdef
  obtain ⟨W2, hW2, hW2m⟩ := hroot2
  have hfp : lookupE (applyVersionUpdates dfin mgc X) "patch" = lookupE dfin "patch" :=
    (updLoop_frames mgc X dfin).1
  have hfm : get_metadata_table (applyVersionUpdates dfin mgc X) =
      get_metadata_table dfin := (updLoop_frames mgc X dfin).2.1
  have hfw : is_workspace (applyVersionUpdates dfin mgc X) = is_workspace dfin :=
    (updLoop_frames mgc X dfin).2.2.1
  have hrootu : metaRootKey (applyVersionUpdates dfin mgc X) = metaRootKey dfin := by
    unfold metaRootKey
    rw [hfw]
  -- transfer the write-root shape through the version-update loop
  have hWup : ∃ W3, lookupE (applyVersionUpdates dfin mgc X) (metaRootKey dfin) =
      some (.table W3) ∧ lookupE W3 "metadata" = lookupE W2 "metadata" := by
    rcases metaRootKey_cases dfin with ⟨_, hR⟩ | ⟨_, hR⟩
    · rw [hR] at hW2 ⊢
      obtain ⟨W3, hW3⟩ := updLoop_ws_shape mgc X dfin W2 hW2
      have hW3c : lookupE (applyVersionUpdates dfin mgc X) "workspace" =
          some (.table W3) := hW3
      refine ⟨W3, hW3c, ?_⟩
      have hbind : ((lookupE (applyVersionUpdates dfin mgc X) "workspace").bind
          (fun w => Item.getKey? w "metadata")) =
          ((lookupE dfin "workspace").bind (fun w => Item.getKey? w "metadata")) :=
        updLoop_ws_meta mgc X dfin
      rw [hW3c, hW2] at hbind
      simp only [Option.some_bind] at hbind
      exact hbind
    · rw [hR] at hW2 ⊢
      have hpk : lookupE (applyVersionUpdates dfin mgc X) "package" =
          lookupE dfin "package" :=
        deps_lookup_updLoop mgc X dfin "package" (by decide) (by decide)
      rw [hpk]
      exact ⟨W2, hW2, rfl⟩
  obtain ⟨W3, hW3, hW3m⟩ := hWup
  -- the store step succeeds
  obtain ⟨doc2b, hstore2⟩ := withMetaTable_succeeds_general
    (applyVersionUpdates dfin mgc X) (storeVersionsFun X) W3
    (by rw [hrootu]; exact hW3)
    (by
      rw [hW3m]
      rcases hW2m with h | ⟨mes2, hm, hk⟩
      · exact Or.inl h
      · exact Or.inr ⟨mes2, hm, Or.inl hk⟩)
  have hstore2c : store_original_versions (applyVersionUpdates dfin mgc X) X =
      some doc2b := hstore2
  -- the add step succeeds
  obtain ⟨mS, r2S, wesS, hmS, hr2S, hwesS, hgetS⟩ :=
    withMetaTable_content (applyVersionUpdates dfin mgc X) (storeVersionsFun X) doc2b
      hstore2
  have hrootS : metaRootKey doc2b = metaRootKey (applyVersionUpdates dfin mgc X) := by
    unfold metaRootKey
    rw [withMeta_is_workspace _ _ _ hstore2]
  obtain ⟨doc3b, hadd2⟩ := withMetaTable_succeeds_general doc2b (addManagedFun K) wesS
    (by rw [hrootS]; exact hwesS)
    (Or.inr ⟨insertE r2S metadataKey (.table (storeVersionsFun X mS)), hgetS,
      Or.inr ⟨storeVersionsFun X mS, lookupE_insertE_self _ _ _⟩⟩)
  have hadd2c : add_managed_patch doc2b K = some doc3b := hadd2
  -- the patch-section merge succeeds
  have hpatch3b : lookupE doc3b "patch" = lookupE dfin "patch" := by
    rw [withMeta_patch _ _ _ hadd2, withMeta_patch _ _ _ hstore2, hfp]
  have hpx := second_patch_px doc3b pes ses K hses (hpatch3b.trans hpatch2)
  obtain ⟨d2, hins2⟩ := insertPatchEntries_succeeds doc3b K pt hpx
  -- the tail run computes
  have hloc : localBuildTail dfin mgc = .ok d2 := by
    unfold localBuildTail
    simp only []
    rw [collectOrig_congr dfin doc _ hdeq, detect_congr dfin doc _ hdeq, ← hXdef,
      ← hKdef, hb]
    simp only []
    rw [hstore2c]
    simp only []
    rw [hadd2c]
    simp only []
    rw [hins2]
  -- identify the patch table the second run saw
  obtain ⟨pes2, ses2x, hpes2, hses2x, hd2⟩ := insertPatchEntries_spec hins2
  have hdoc3bpatch : lookupE doc3b "patch" =
      (if (if ses.isEmpty then removeE pes K else pes).isEmpty then none
       else some (.table (if ses.isEmpty then removeE pes K else pes))) :=
    hpatch3b.trans hpatch2
  obtain ⟨hs2eq, hpeslk⟩ :=
    second_patch_ident doc3b pes ses pes2 ses2x K hses hdoc3bpatch hpes2 hses2x
  have hmetau : get_metadata_table (applyVersionUpdates dfin mgc X) = none := by
    rw [hfm]
    exact hmeta2
  refine ⟨d2, hloc, ?_, ?_, ?_⟩
  · exact buildTail_origs _ X K pt _ _ _ hstore2c hadd2c hins2
  · exact (buildTail_state _ X K pt _ _ _ hmetau hstore2c hadd2c hins2).1
  · intro k
    rw [hd2]
    unfold patchOriginTable
    rw [lookupE_insertE_self]
    simp only [Option.some_bind]
    have hgk : ∀ (es : Entries) (k2 : String),
        Item.getKey? (.table es) k2 = lookupE es k2 := fun _ _ => rfl
    rw [hgk, hs2eq]
    by_cases hk : k = K
    · subst hk
      rw [lookupE_insertE_self, lookupE_insertE_self]
    · rw [lookupE_insertE_ne pes2 K k _ hk, lookupE_insertE_ne pes K k _ hk]
      exact hpeslk k hk

/-- Running the git build tail again on a self-cleaned document with the
same dependency table: it succeeds and reproduces the first run's
original-version record, managed list and patch section. -/
theorem second_build_git (dfin doc : Doc) (url : String) (ref : Option GitReference)
    (managed : List String) (pes ses : Entries)
    (hdeq : get_dependencies_table dfin = get_dependencies_table doc)
    (hmeta2 : get_metadata_table dfin = none)
    (hses : lookupE pes "crates-io" = some (.table ses)
      ∨ (lookupE pes "crates-io" = none ∧ ses = []))
    (hpatch2 : lookupE dfin "patch" =
      (if (if ses.isEmpty then removeE pes "crates-io" else pes).isEmpty then none
       else some (.table (if ses.isEmpty then removeE pes "crates-io" else pes))))
    (hroot2 : ∃ W2, lookupE dfin (metaRootKey dfin) = some (.table W2)
        ∧ (lookupE W2 "metadata" = none
           ∨ ∃ mes2, lookupE W2 "metadata" = some (.table mes2)
               ∧ lookupE mes2 metadataKey = none)) :
    ∃ d2, gitBuildTail dfin url ref (currentDeps dfin) managed = .ok d2
      ∧ get_original_versions d2 = sortByName (managed.foldl (fun acc n =>
          match lookupE (currentDeps doc) n with
          | some v => insertE acc n v
          | none => acc) [])
      ∧ get_managed_patches d2 = ["crates-io"]
      ∧ ∀ k, patchOriginTable d2 k =
          lookupE (insertE pes "crates-io"
            (.table ((managed.foldl (fun t n =>
                insertE t n (gitPatchSpec url ref)) []).foldl
              (fun s p => insertE s p.1 p.2) ses))) k := by
  have hcd : currentDeps dfin = currentDeps doc := currentDeps_congr dfin doc hdeq
  set O := managed.foldl (fun acc n =>
    match lookupE (currentDeps doc) n with
    | some v => insertE acc n v
    | none => acc) [] with hOdef
  set pt := managed.foldl (fun t n => insertE t n (gitPatchSpec url ref)) [] with hptdef
  obtain ⟨W2, hW2, hW2m⟩ := hroot2
  -- the store step succeeds, directly on dfin
  obtain ⟨doc2b, hstore2⟩ := withMetaTable_succeeds_general dfin (storeVersionsFun O) W2
    hW2
    (by
      rcases hW2m with h | ⟨mes2, hm, hk⟩
      · exact Or.inl h
      · exact Or.inr ⟨mes2, hm, Or.inl hk⟩)
  have hstore2c : store_original_versions dfin O = some doc2b := hstore2
  -- the add step succeeds
  obtain ⟨mS, r2S, wesS, hmS, hr2S, hwesS, hgetS⟩ :=
    withMetaTable_content dfin (storeVersionsFun O) doc2b hstore2
  have hrootS : metaRootKey doc2b = metaRootKey dfin := by
    unfold metaRootKey
    rw [withMeta_is_workspace _ _ _ hstore2]
  obtain ⟨doc3b, hadd2⟩ := withMetaTable_succeeds_general doc2b
    (addManagedFun "crates-io") wesS
    (by rw [hrootS]; exact hwesS)
    (Or.inr ⟨insertE r2S metadataKey (.table (storeVersionsFun O mS)), hgetS,
      Or.inr ⟨storeVersionsFun O mS, lookupE_insertE_self _ _ _⟩⟩)
  have hadd2c : add_managed_patch doc2b "crates-io" = some doc3b := hadd2
  -- the patch-section merge succeeds
  have hpatch3b : lookupE doc3b "patch" = lookupE dfin "patch" := by
    rw [withMeta_patch _ _ _ hadd2, withMeta_patch _ _ _ hstore2]
  have hpx := second_patch_px doc3b pes ses "crates-io" hses (hpatch3b.trans hpatch2)
  obtain ⟨d2, hins2⟩ := insertPatchEntries_succeeds doc3b "crates-io" pt hpx
  -- the tail run computes
  have hloc : gitBuildTail dfin url ref (currentDeps dfin) managed = .ok d2 := by
    unfold gitBuildTail
    simp only []
    rw [hcd, ← hOdef, ← hptdef, hstore2c]
    simp only []
    rw [hadd2c]
    simp only []
    rw [hins2]
  -- identify the patch table the second run saw
  obtain ⟨pes2, ses2x, hpes2, hses2x, hd2⟩ := insertPatchEntries_spec hins2
  obtain ⟨hs2eq, hpeslk⟩ := second_patch_ident doc3b pes ses pes2 ses2x "crates-io"
    hses (hpatch3b.trans hpatch2) hpes2 hses2x
  refine ⟨d2, hloc, ?_, ?_, ?_⟩
  · exact buildTail_origs _ O "crates-io" pt _ _ _ hstore2c hadd2c hins2
  · exact (buildTail_state _ O "crates-io" pt _ _ _ hmeta2 hstore2c hadd2c hins2).1
  · intro k
    rw [hd2]
    unfold patchOriginTable
    rw [lookupE_insertE_self]
    simp only [Option.some_bind]
    have hgk : ∀ (es : Entries) (k2 : String),
        Item.getKey? (.table es) k2 = lookupE es k2 := fun _ _ => rfl
    rw [hgk, hs2eq]
    by_cases hk : k = "crates-io"
    · subst hk
      rw [lookupE_insertE_self, lookupE_insertE_self]
    · rw [lookupE_insertE_ne pes2 "crates-io" k _ hk,
        lookupE_insertE_ne pes "crates-io" k _ hk]
      exact hpeslk k hk

/-! ### The existing-patched-crates set after the self-clean strip -/

/-- Membership in the existing-patched-crates scan, phrased over the
patch table behind the document's `patch` key. -/
theorem collect_mem_char (d : Doc) (pes : Entries)
    (h : lookupE d "patch" = some (.table pes) ∨ (lookupE d "patch" = none ∧ pes = []))
    (x : String) :
    (x ∈ collect_existing_patched_crates d ↔
      ∃ k2 ses2, (k2, Item.table ses2) ∈ pes ∧ x ∈ ses2.map (fun q => q.1)) := by
  unfold collect_existing_patched_crates
  rcases h with h | ⟨h, hnil⟩
  · rw [h]
    simp only []
    rw [collect_fold_mem_iff]
    simp
  · rw [h]
    subst hnil
    simp

/-- The same scan on a document holding the stripped patch section. -/
theorem collect_mem_char_strip (d : Doc) (pes ses : Entries) (K : String)
    (hp : lookupE d "patch" =
      (if (if ses.isEmpty then removeE pes K else pes).isEmpty then none
       else some (.table (if ses.isEmpty then removeE pes K else pes))))
    (x : String) :
    (x ∈ collect_existing_patched_crates d ↔
      ∃ k2 ses2, (k2, Item.table ses2) ∈ (if ses.isEmpty then removeE pes K else pes)
        ∧ x ∈ ses2.map (fun q => q.1)) := by
  by_cases hPemp : (if ses.isEmpty then removeE pes K else pes).isEmpty
  · have hnil : (if ses.isEmpty then removeE pes K else pes) = ([] : Entries) :=
      List.isEmpty_iff.mp hPemp
    rw [if_pos hPemp] at hp
    rw [hnil]
    unfold collect_existing_patched_crates
    rw [hp]
    simp
  · rw [if_neg hPemp] at hp
    exact collect_mem_char d _ (Or.inl hp) x

/-- Stripping the tool's own origin (whose sub-table was empty before
the first run) does not change which crates count as already patched,
provided the patch table's keys are unique. -/
theorem strip_mem_equiv (pes ses : Entries) (K : String)
    (hwf : (pes.map Prod.fst).Nodup)
    (hses : lookupE pes K = some (.table ses) ∨ (lookupE pes K = none ∧ ses = []))
    (x : String) :
    ((∃ k2 ses2, (k2, Item.table ses2) ∈ (if ses.isEmpty then removeE pes K else pes)
      ∧ x ∈ ses2.map (fun q => q.1))
    ↔ (∃ k2 ses2, (k2, Item.table ses2) ∈ pes ∧ x ∈ ses2.map (fun q => q.1))) := by
  by_cases hsemp : ses.isEmpty
  · have hsnil : ses = [] := List.isEmpty_iff.mp hsemp
    rw [if_pos hsemp]
    constructor
    · rintro ⟨k2, ses2, hmem, hx⟩
      rw [removeE_eq_filter] at hmem
      exact ⟨k2, ses2, (List.mem_filter.mp hmem).1, hx⟩
    · rintro ⟨k2, ses2, hmem, hx⟩
      by_cases hk2 : k2 = K
      · subst hk2
        have hlk := lookupE_of_mem_nodup hwf hmem
        rcases hses with hsesl | ⟨hnone, _⟩
        · rw [hsesl] at hlk
          simp only [Option.some.injEq, Item.table.injEq] at hlk
          rw [← hlk, hsnil] at hx
          simp at hx
        · rw [hnone] at hlk
          simp at hlk
      · refine ⟨k2, ses2, ?_, hx⟩
        rw [removeE_eq_filter]
        exact List.mem_filter.mpr ⟨hmem, by simp [hk2]⟩
  · rw [if_neg hsemp]

theorem contains_eq_of_mem_iff (l l2 : List String) (a : String)
    (h : a ∈ l ↔ a ∈ l2) : l.contains a = l2.contains a := by
  show l.elem a = l2.elem a
  by_cases hy : a ∈ l
  · rw [List.elem_eq_true_of_mem hy, List.elem_eq_true_of_mem (h.mp hy)]
  · have hy2 : ¬ a ∈ l2 := fun hh => hy (h.mpr hh)
    have e1 : l.elem a = false := by
      cases he : l.elem a
      · rfl
      · exact absurd (List.mem_of_elem_eq_true he) hy
    have e2 : l2.elem a = false := by
      cases he : l2.elem a
      · rfl
      · exact absurd (List.mem_of_elem_eq_true he) hy2
    rw [e1, e2]

/-! ### The full data of a first Apply run -/

/-- `apply_local_path_patches` inverted, keeping the candidate set. -/
theorem apply_local_inv2 (doc : Doc) (members : List CrateInfo)
    (cds : List (String × String)) (pattern : Option String) (d1 : Doc)
    (h : apply_local_path_patches doc members cds pattern = .ok d1) :
    d1 = doc ∨ ∃ sourceCrates,
      members.isEmpty = false
      ∧ filter_crates_by_pattern members pattern = .ok sourceCrates
      ∧ (sourceCrates.filter (fun c => (lookupE cds c.name).isSome)).isEmpty = false
      ∧ ((sourceCrates.filter (fun c => (lookupE cds c.name).isSome)).filter
          (fun c => !((collect_existing_patched_crates doc).contains c.name))).isEmpty
          = false
      ∧ localBuildTail doc
          ((sourceCrates.filter (fun c => (lookupE cds c.name).isSome)).filter
            (fun c => !((collect_existing_patched_crates doc).contains c.name)))
          = .ok d1 := by
  unfold apply_local_path_patches at h
  by_cases hm : members.isEmpty
  · rw [if_pos hm] at h
    exact absurd h (by simp)
  · rw [if_neg hm] at h
    cases hf : filter_crates_by_pattern members pattern with
    | error e => rw [hf] at h; exact absurd h (by simp)
    | ok sourceCrates =>
      rw [hf] at h
      simp only [] at h
      by_cases hcp : (sourceCrates.filter (fun c => (lookupE cds c.name).isSome)).isEmpty
      · rw [if_pos hcp] at h
        simp only [Except.ok.injEq] at h
        exact Or.inl h.symm
      · rw [if_neg hcp] at h
        by_cases hmg : ((sourceCrates.filter (fun c => (lookupE cds c.name).isSome)).filter
            (fun c => !((collect_existing_patched_crates doc).contains c.name))).isEmpty
        · rw [if_pos hmg] at h
          simp only [Except.ok.injEq] at h
          exact Or.inl h.symm
        · rw [if_neg hmg] at h
          exact Or.inr ⟨sourceCrates, by simpa using hm, rfl, by simpa using hcp,
            by simpa using hmg, h⟩

/-- `apply_git_patches` inverted, keeping the candidate set. -/
theorem apply_git_inv2 (doc : Doc) (url : String) (ref : Option GitReference)
    (cds : List (String × String)) (pattern : Option String) (d1 : Doc)
    (h : apply_git_patches doc url ref cds pattern = .ok d1) :
    d1 = doc ∨ ∃ p toks,
      pattern = some p
      ∧ glob_pattern_regex p = .ok toks
      ∧ ((cds.map (fun q => q.1)).filter (fun n => reMatch toks n.toList)).isEmpty = false
      ∧ (((cds.map (fun q => q.1)).filter (fun n => reMatch toks n.toList)).filter
          (fun n => !((collect_existing_patched_crates doc).contains n))).isEmpty = false
      ∧ gitBuildTail doc url ref cds
          (((cds.map (fun q => q.1)).filter (fun n => reMatch toks n.toList)).filter
            (fun n => !((collect_existing_patched_crates doc).contains n))) = .ok d1 := by
  unfold apply_git_patches at h
  cases pattern with
  | none => exact absurd h (by simp)
  | some p =>
    simp only [] at h
    cases hg : glob_pattern_regex p with
    | error e => rw [hg] at h; exact absurd h (by simp)
    | ok toks =>
      rw [hg] at h
      simp only [] at h
      by_cases hcp : ((cds.map (fun q => q.1)).filter (fun n => reMatch toks n.toList)).isEmpty
      · rw [if_pos hcp] at h
        exact absurd h (by simp)
      · rw [if_neg hcp] at h
        by_cases hmg : (((cds.map (fun q => q.1)).filter
            (fun n => reMatch toks n.toList)).filter
            (fun n => !((collect_existing_patched_crates doc).contains n))).isEmpty
        · rw [if_pos hmg] at h
          simp only [Except.ok.injEq] at h
          exact Or.inl h.symm
        · rw [if_neg hmg] at h
          exact Or.inr ⟨p, toks, rfl, hg, by simpa using hcp, by simpa using hmg, h⟩

set_option maxHeartbeats 2000000 in
/-- C2 (amended): on a manifest carrying no prior tool metadata and whose
`[patch]` table (if any) has no duplicate origin keys, a second Apply with
the same source and pattern immediately after a successful first Apply
also succeeds and produces the same original-versions record, the same
managed-patches list and the same patch-table entries as the first. -/
theorem c2_idempotent (src : PatchSourceM) (doc : Doc) (pattern : Option String) (d1 : Doc)
    (hmeta : get_metadata_table doc = none)
    (hwf : ∀ pes, lookupE doc "patch" = some (.table pes) → (pes.map Prod.fst).Nodup)
    (happ : apply_patches_doc src doc pattern = .ok d1) :
    ∃ d2, apply_patches_doc src d1 pattern = .ok d2
      ∧ get_original_versions d2 = get_original_versions d1
      ∧ get_managed_patches d2 = get_managed_patches d1
      ∧ ∀ k, patchOriginTable d2 k = patchOriginTable d1 k := by
  have hclean : selfCleanStep doc = .ok doc := by
    unfold selfCleanStep
    have hman : get_managed_patches doc = [] := by
      unfold get_managed_patches
      rw [hmeta]
    rw [hman]
    rfl
  unfold apply_patches_doc at happ
  rw [hclean] at happ
  simp only [] at happ
  unfold applySourceDispatch at happ
  cases src with
  | localPath members =>
    simp only [] at happ
    rcases apply_local_inv2 doc members (currentDeps doc) pattern d1 happ with
      hdd | ⟨sourceCrates, hm, hf, hcp, hmg, hbuild⟩
    · refine ⟨d1, ?_, rfl, rfl, fun k => rfl⟩
      unfold apply_patches_doc
      have hcleand1 : selfCleanStep d1 = .ok d1 := by rw [hdd]; exact hclean
      rw [hcleand1]
      simp only []
      unfold applySourceDispatch
      simp only []
      rw [hdd] at happ ⊢
      exact happ
    · obtain ⟨mgc, hmgc⟩ : ∃ m, m = (sourceCrates.filter
          (fun c => (lookupE (currentDeps doc) c.name).isSome)).filter
          (fun c => !((collect_existing_patched_crates doc).contains c.name)) := ⟨_, rfl⟩
      rw [← hmgc] at hmg hbuild
      have hcds : ∀ c ∈ mgc, (lookupE (currentDeps doc) c.name).isSome := by
        intro c hc
        rw [hmgc] at hc
        have h2 := (List.mem_filter.mp (List.mem_filter.mp hc).1).2
        simpa using h2
      have hexist : ∀ c ∈ mgc, ¬ c.name ∈ collect_existing_patched_crates doc := by
        intro c hc hcol
        rw [hmgc] at hc
        have h2 := (List.mem_filter.mp hc).2
        simp only [List.contains] at h2
        rw [List.elem_eq_true_of_mem hcol] at h2
        simp at h2
      obtain ⟨pt, doc2, doc3, hb, hs, ha, hi⟩ := localBuildTail_inv doc mgc d1 hbuild
      obtain ⟨hfp, hfm, hfw, _⟩ := updLoop_frames mgc
        (collectOriginalVersions doc (mgc.map (fun c => c.name))) doc
      have hdeps_rt : get_dependencies_table (restoreRecordedVersions d1) =
          get_dependencies_table doc :=
        localBuildTail_deps_roundtrip doc mgc d1 hbuild
      have hpt_names : ∀ p ∈ pt,
          (lookupE (collectOriginalVersions doc (mgc.map (fun c => c.name))) p.1).isSome := by
        intro p hp
        rcases buildPathEntries_keys mgc [] pt hb p hp with h0 | h0
        · simp at h0
        · obtain ⟨c, hc, hcn⟩ := List.mem_map.mp h0
          obtain ⟨v, hv⟩ := Option.isSome_iff_exists.mp (hcds c hc)
          obtain ⟨es, it, hdeps, hit, _⟩ := currentDeps_resolve hv
          rw [← hcn]
          apply collectOrig_isSome doc _ es hdeps c.name (List.mem_map.mpr ⟨c, hc, rfl⟩)
          rw [hit]
          rfl
      have hpt_not_existing : ∀ p ∈ pt, ¬ p.1 ∈ collect_existing_patched_crates doc := by
        intro p hp
        rcases buildPathEntries_keys mgc [] pt hb p hp with h0 | h0
        · simp at h0
        · obtain ⟨c, hc, hcn⟩ := List.mem_map.mp h0
          rw [← hcn]
          exact hexist c hc
      have horig_keys : ∀ p ∈ collectOriginalVersions doc (mgc.map (fun c => c.name)),
          ¬ p.1 ∈ collect_existing_patched_crates doc := by
        intro p hp
        unfold collectOriginalVersions at hp
        cases hdeps : get_dependencies_table doc with
        | none =>
          rw [hdeps] at hp
          simp at hp
        | some deps =>
          rw [hdeps] at hp
          simp only [] at hp
          rcases origsFold_keys deps (mgc.map (fun c => c.name)) [] p hp with h0 | h0
          · simp at h0
          · obtain ⟨c, hc, hcn⟩ := List.mem_map.mp h0
            rw [← hcn]
            exact hexist c hc
      have hfp2 : lookupE (applyVersionUpdates doc mgc
          (collectOriginalVersions doc (mgc.map (fun c => c.name)))) "patch" =
          lookupE doc "patch" := hfp
      have hfm2 : get_metadata_table (applyVersionUpdates doc mgc
          (collectOriginalVersions doc (mgc.map (fun c => c.name)))) =
          get_metadata_table doc := hfm
      have hfw2 : is_workspace (applyVersionUpdates doc mgc
          (collectOriginalVersions doc (mgc.map (fun c => c.name)))) =
          is_workspace doc := hfw
      have hwsm2 : ((lookupE (applyVersionUpdates doc mgc
          (collectOriginalVersions doc (mgc.map (fun c => c.name)))) "workspace").bind
            (fun w => Item.getKey? w "metadata")) =
          ((lookupE doc "workspace").bind (fun w => Item.getKey? w "metadata")) :=
        updLoop_ws_meta mgc _ doc
      have hpkg2 : lookupE (applyVersionUpdates doc mgc
          (collectOriginalVersions doc (mgc.map (fun c => c.name)))) "package" =
          lookupE doc "package" :=
        deps_lookup_updLoop mgc _ doc "package" (by decide) (by decide)
      obtain ⟨dfin, hok, hcc⟩ := built_remove_conclusions doc
        (applyVersionUpdates doc mgc (collectOriginalVersions doc (mgc.map (fun c => c.name))))
        (collectOriginalVersions doc (mgc.map (fun c => c.name)))
        ((detect_common_git_url doc (mgc.map (fun c => c.name))).getD "crates-io") pt
        doc2 doc3 d1 hs ha hi hmeta hfp2 hfm2 hfw2 hwsm2 hpkg2
        hdeps_rt hpt_names hpt_not_existing horig_keys
      have hdeq : get_dependencies_table dfin = get_dependencies_table doc := hcc.1
      have hmeta2 : get_metadata_table dfin = none := by
        obtain ⟨hw0, hp0⟩ := (get_metadata_none_iff doc).mp hmeta
        apply (get_metadata_none_iff dfin).mpr
        constructor
        · cases hmw : metaFrom dfin "workspace" with
          | none => rfl
          | some m =>
            have h6 : hasCpsTable doc "workspace" = true := hcc.2.2.2.2.2.1 (by
              unfold hasCpsTable
              rw [hmw]
              rfl)
            unfold hasCpsTable at h6
            rw [hw0] at h6
            simp at h6
        · cases hmw : metaFrom dfin "package" with
          | none => rfl
          | some m =>
            have h7 : hasCpsTable doc "package" = true := hcc.2.2.2.2.2.2.1 (by
              unfold hasCpsTable
              rw [hmw]
              rfl)
            unfold hasCpsTable at h7
            rw [hp0] at h7
            simp at h7
      obtain ⟨hws, ⟨pes, ses, hdocp, hses, hpatch2⟩, hWex⟩ := hcc.2.2.2.2.2.2.2
      have hrk : metaRootKey dfin = metaRootKey doc := by
        unfold metaRootKey
        rw [hws]
      have hroot2 : ∃ W2, lookupE dfin (metaRootKey dfin) = some (.table W2)
          ∧ (lookupE W2 "metadata" = none
             ∨ ∃ mes2, lookupE W2 "metadata" = some (.table mes2)
                 ∧ lookupE mes2 metadataKey = none) := by
        obtain ⟨W2, hW2, hW2m⟩ := hWex
        exact ⟨W2, by rw [hrk]; exact hW2, hW2m⟩
      have hwfp : (pes.map Prod.fst).Nodup := by
        rcases hdocp with h | ⟨_, hnil⟩
        · exact hwf pes h
        · rw [hnil]
          simp
      have hmemiff : ∀ x, x ∈ collect_existing_patched_crates dfin ↔
          x ∈ collect_existing_patched_crates doc := by
        intro x
        rw [collect_mem_char_strip dfin pes ses
          ((detect_common_git_url doc (mgc.map (fun c => c.name))).getD "crates-io")
          hpatch2 x, collect_mem_char doc pes hdocp x]
        exact strip_mem_equiv pes ses _ hwfp hses x
      have hmgceq : (sourceCrates.filter
          (fun c => (lookupE (currentDeps doc) c.name).isSome)).filter
          (fun c => !((collect_existing_patched_crates dfin).contains c.name)) = mgc := by
        rw [hmgc]
        apply List.filter_congr
        intro c _
        rw [contains_eq_of_mem_iff _ _ _ (hmemiff c.name)]
      have hmetau : get_metadata_table (applyVersionUpdates doc mgc
          (collectOriginalVersions doc (mgc.map (fun c => c.name)))) = none := by
        rw [hfm2]
        exact hmeta
      have hman1 : get_managed_patches d1 =
          [(detect_common_git_url doc (mgc.map (fun c => c.name))).getD "crates-io"] :=
        (buildTail_state _ _ _ pt doc2 doc3 d1 hmetau hs ha hi).1
      have hsc1 : selfCleanStep d1 = .ok dfin := by
        unfold selfCleanStep
        rw [hman1]
        simp only []
        rw [if_neg (by simp)]
        have hrm : remove_managed_patches (restoreRecordedVersions d1) = .ok dfin := hok
        rw [hrm]
      have hcd : currentDeps dfin = currentDeps doc := currentDeps_congr dfin doc hdeq
      have hdisp2 : apply_local_path_patches dfin members (currentDeps dfin) pattern =
          localBuildTail dfin mgc := by
        unfold apply_local_path_patches
        rw [if_neg (by simp [hm])]
        rw [hf]
        simp only []
        rw [hcd]
        rw [if_neg (by simp [hcp])]
        rw [hmgceq]
        rw [if_neg (by simp [hmg])]
      obtain ⟨pes1, ses1, hpes1, hses1, hd1⟩ := insertPatchEntries_spec hi
      have hp3 : lookupE doc3 "patch" = lookupE doc "patch" := by
        rw [withMeta_patch _ _ _ ha, withMeta_patch _ _ _ hs, hfp2]
      have hpes1eq : pes1 = pes := by
        rcases hpes1 with h1 | ⟨h1, h1nil⟩ <;> rcases hdocp with h2 | ⟨h2, h2nil⟩
        · rw [hp3, h2] at h1
          simp only [Option.some.injEq, Item.table.injEq] at h1
          exact h1.symm
        · rw [hp3, h2] at h1
          simp at h1
        · rw [hp3, h2] at h1
          simp at h1
        · rw [h1nil, h2nil]
      have hses1eq : ses1 = ses := by
        rw [hpes1eq] at hses1
        rcases hses1 with h1 | ⟨h1, h1nil⟩ <;> rcases hses with h2 | ⟨h2, h2nil⟩
        · rw [h2] at h1
          simp only [Option.some.injEq, Item.table.injEq] at h1
          exact h1.symm
        · rw [h2] at h1
          simp at h1
        · rw [h2] at h1
          simp at h1
        · rw [h1nil, h2nil]
      have hgk : ∀ (es : Entries) (k2 : String),
          Item.getKey? (.table es) k2 = lookupE es k2 := fun _ _ => rfl
      have hpo1 : ∀ k, patchOriginTable d1 k =
          lookupE (insertE pes
            ((detect_common_git_url doc (mgc.map (fun c => c.name))).getD "crates-io")
            (.table (pt.foldl (fun s p => insertE s p.1 p.2) ses))) k := by
        intro k
        rw [hd1]
        unfold patchOriginTable
        rw [lookupE_insertE_self]
        simp only [Option.some_bind]
        rw [hgk, hpes1eq, hses1eq]
      have horig1 : get_original_versions d1 =
          sortByName (collectOriginalVersions doc (mgc.map (fun c => c.name))) :=
        buildTail_origs _ _ _ pt doc2 doc3 d1 hs ha hi
      obtain ⟨d2, hloc2, horig2, hman2, hpo2⟩ := second_build_local dfin doc mgc pes ses pt
        hdeq hmeta2 hb hses hpatch2 hroot2
      refine ⟨d2, ?_, ?_, ?_, ?_⟩
      · unfold apply_patches_doc
        rw [hsc1]
        simp only []
        unfold applySourceDispatch
        simp only []
        rw [hdisp2]
        exact hloc2
      · rw [horig2, horig1]
      · rw [hman2, hman1]
      · intro k
        rw [hpo2 k, hpo1 k]
  | git url ref =>
    simp only [] at happ
    rcases apply_git_inv2 doc url ref (currentDeps doc) pattern d1 happ with
      hdd | ⟨p, toks, hpat, hg, hcp, hmg, hbuild⟩
    · refine ⟨d1, ?_, rfl, rfl, fun k => rfl⟩
      unfold apply_patches_doc
      have hcleand1 : selfCleanStep d1 = .ok d1 := by rw [hdd]; exact hclean
      rw [hcleand1]
      simp only []
      unfold applySourceDispatch
      simp only []
      rw [hdd] at happ ⊢
      exact happ
    · obtain ⟨managed, hmanaged⟩ : ∃ m, m = (((currentDeps doc).map
          (fun q => q.1)).filter (fun n => reMatch toks n.toList)).filter
          (fun n => !((collect_existing_patched_crates doc).contains n)) := ⟨_, rfl⟩
      rw [← hmanaged] at hmg hbuild
      have hcds : ∀ n ∈ managed, n ∈ (currentDeps doc).map Prod.fst := by
        intro n hn
        rw [hmanaged] at hn
        exact (List.mem_filter.mp (List.mem_filter.mp hn).1).1
      have hexist : ∀ n ∈ managed, ¬ n ∈ collect_existing_patched_crates doc := by
        intro n hn hcol
        rw [hmanaged] at hn
        have h2 := (List.mem_filter.mp hn).2
        simp only [List.contains] at h2
        rw [List.elem_eq_true_of_mem hcol] at h2
        simp at h2
      obtain ⟨doc2, doc3, hs, ha, hi⟩ :=
        gitBuildTail_inv doc url ref (currentDeps doc) managed d1 hbuild
      have hsnap : ∀ es, get_dependencies_table doc = some es →
          ∀ n v, lookupE (currentDeps doc) n = some v → ∃ it, lookupE es n = some it ∧
            (depVersionSnapshot it = some v ∨ depVersionSnapshot it = none) := by
        intro es hdeps n v hv
        obtain ⟨es2, it, hdeps2, hit, hdisj⟩ := currentDeps_resolve hv
        have hes : es2 = es := by
          rw [hdeps] at hdeps2
          injection hdeps2 with hh
          exact hh.symm
        subst hes
        exact ⟨it, hit, hdisj⟩
      have hdeps_rt : get_dependencies_table (restoreRecordedVersions d1) =
          get_dependencies_table doc :=
        gitBuildTail_deps_roundtrip doc url ref (currentDeps doc) managed d1 hbuild hsnap
      have hpt_names : ∀ p2 ∈ (managed.foldl
          (fun t n => insertE t n (gitPatchSpec url ref)) []),
          (lookupE (managed.foldl (fun acc n =>
            match lookupE (currentDeps doc) n with
            | some v => insertE acc n v
            | none => acc) []) p2.1).isSome := by
        intro p2 hp
        rcases gitPT_keys managed _ [] p2 hp with h0 | h0
        · simp at h0
        · apply fiwFold_isSome (fun n => lookupE (currentDeps doc) n) managed [] p2.1 h0
          exact lookupE_isSome_of_key_mem (hcds p2.1 h0)
      have hpt_not_existing : ∀ p2 ∈ (managed.foldl
          (fun t n => insertE t n (gitPatchSpec url ref)) []),
          ¬ p2.1 ∈ collect_existing_patched_crates doc := by
        intro p2 hp
        rcases gitPT_keys managed _ [] p2 hp with h0 | h0
        · simp at h0
        · exact hexist p2.1 h0
      have horig_keys : ∀ p2 ∈ (managed.foldl (fun acc n =>
            match lookupE (currentDeps doc) n with
            | some v => insertE acc n v
            | none => acc) []),
          ¬ p2.1 ∈ collect_existing_patched_crates doc := by
        intro p2 hp
        rcases fiwFold_keys (fun n => lookupE (currentDeps doc) n) managed [] p2 hp with
          h0 | h0
        · simp at h0
        · exact hexist p2.1 h0
      obtain ⟨dfin, hok, hcc⟩ := built_remove_conclusions doc doc
        (managed.foldl (fun acc n =>
          match lookupE (currentDeps doc) n with
          | some v => insertE acc n v
          | none => acc) [])
        "crates-io"
        (managed.foldl (fun t n => insertE t n (gitPatchSpec url ref)) [])
        doc2 doc3 d1 hs ha hi hmeta rfl rfl rfl rfl rfl
        hdeps_rt hpt_names hpt_not_existing horig_keys
      have hdeq : get_dependencies_table dfin = get_dependencies_table doc := hcc.1
      have hmeta2 : get_metadata_table dfin = none := by
        obtain ⟨hw0, hp0⟩ := (get_metadata_none_iff doc).mp hmeta
        apply (get_metadata_none_iff dfin).mpr
        constructor
        · cases hmw : metaFrom dfin "workspace" with
          | none => rfl
          | some m =>
            have h6 : hasCpsTable doc "workspace" = true := hcc.2.2.2.2.2.1 (by
              unfold hasCpsTable
              rw [hmw]
              rfl)
            unfold hasCpsTable at h6
            rw [hw0] at h6
            simp at h6
        · cases hmw : metaFrom dfin "package" with
          | none => rfl
          | some m =>
            have h7 : hasCpsTable doc "package" = true := hcc.2.2.2.2.2.2.1 (by
              unfold hasCpsTable
              rw [hmw]
              rfl)
            unfold hasCpsTable at h7
            rw [hp0] at h7
            simp at h7
      obtain ⟨hws, ⟨pes, ses, hdocp, hses, hpatch2⟩, hWex⟩ := hcc.2.2.2.2.2.2.2
      have hrk : metaRootKey dfin = metaRootKey doc := by
        unfold metaRootKey
        rw [hws]
      have hroot2 : ∃ W2, lookupE dfin (metaRootKey dfin) = some (.table W2)
          ∧ (lookupE W2 "metadata" = none
             ∨ ∃ mes2, lookupE W2 "metadata" = some (.table mes2)
                 ∧ lookupE mes2 metadataKey = none) := by
        obtain ⟨W2, hW2, hW2m⟩ := hWex
        exact ⟨W2, by rw [hrk]; exact hW2, hW2m⟩
      have hwfp : (pes.map Prod.fst).Nodup := by
        rcases hdocp with h | ⟨_, hnil⟩
        · exact hwf pes h
        · rw [hnil]
          simp
      have hmemiff : ∀ x, x ∈ collect_existing_patched_crates dfin ↔
          x ∈ collect_existing_patched_crates doc := by
        intro x
        rw [collect_mem_char_strip dfin pes ses "crates-io" hpatch2 x,
          collect_mem_char doc pes hdocp x]
        exact strip_mem_equiv pes ses _ hwfp hses x
      have hmgceq : (((currentDeps doc).map
          (fun q => q.1)).filter (fun n => reMatch toks n.toList)).filter
          (fun n => !((collect_existing_patched_crates dfin).contains n)) = managed := by
        rw [hmanaged]
        apply List.filter_congr
        intro n _
        rw [contains_eq_of_mem_iff _ _ _ (hmemiff n)]
      have hman1 : get_managed_patches d1 = ["crates-io"] :=
        (buildTail_state doc _ _ _ doc2 doc3 d1 hmeta hs ha hi).1
      have hsc1 : selfCleanStep d1 = .ok dfin := by
        unfold selfCleanStep
        rw [hman1]
        simp only []
        rw [if_neg (by simp)]
        have hrm : remove_managed_patches (restoreRecordedVersions d1) = .ok dfin := hok
        rw [hrm]
      have hcd : currentDeps dfin = currentDeps doc := currentDeps_congr dfin doc hdeq
      have hdisp2 : apply_git_patches dfin url ref (currentDeps dfin) pattern =
          gitBuildTail dfin url ref (currentDeps doc) managed := by
        unfold apply_git_patches
        rw [hpat]
        simp only []
        rw [hg]
        simp only []
        rw [hcd]
        rw [if_neg (by simp only [hcp]; exact Bool.false_ne_true)]
        rw [hmgceq]
        rw [if_neg (by simp [hmg])]
      obtain ⟨pes1, ses1, hpes1, hses1, hd1⟩ := insertPatchEntries_spec hi
      have hp3 : lookupE doc3 "patch" = lookupE doc "patch" := by
        rw [withMeta_patch _ _ _ ha, withMeta_patch _ _ _ hs]
      have hpes1eq : pes1 = pes := by
        rcases hpes1 with h1 | ⟨h1, h1nil⟩ <;> rcases hdocp with h2 | ⟨h2, h2nil⟩
        · rw [hp3, h2] at h1
          simp only [Option.some.injEq, Item.table.injEq] at h1
          exact h1.symm
        · rw [hp3, h2] at h1
          simp at h1
        · rw [hp3, h2] at h1
          simp at h1
        · rw [h1nil, h2nil]
      have hses1eq : ses1 = ses := by
        rw [hpes1eq] at hses1
        rcases hses1 with h1 | ⟨h1, h1nil⟩ <;> rcases hses with h2 | ⟨h2, h2nil⟩
        · rw [h2] at h1
          simp only [Option.some.injEq, Item.table.injEq] at h1
          exact h1.symm
        · rw [h2] at h1
          simp at h1
        · rw [h2] at h1
          simp at h1
        · rw [h1nil, h2nil]
      have hgk : ∀ (es : Entries) (k2 : String),
          Item.getKey? (.table es) k2 = lookupE es k2 := fun _ _ => rfl
      have hpo1 : ∀ k, patchOriginTable d1 k =
          lookupE (insertE pes "crates-io"
            (.table ((managed.foldl (fun t n =>
                insertE t n (gitPatchSpec url ref)) []).foldl
              (fun s p2 => insertE s p2.1 p2.2) ses))) k := by
        intro k
        rw [hd1]
        unfold patchOriginTable
        rw [lookupE_insertE_self]
        simp only [Option.some_bind]
        rw [hgk, hpes1eq, hses1eq]
      have horig1 : get_original_versions d1 =
          sortByName (managed.foldl (fun acc n =>
            match lookupE (currentDeps doc) n with
            | some v => insertE acc n v
            | none => acc) []) :=
        buildTail_origs doc _ _ _ doc2 doc3 d1 hs ha hi
      obtain ⟨d2, hloc2, horig2, hman2, hpo2⟩ := second_build_git dfin doc url ref
        managed pes ses hdeq hmeta2 hses hpatch2 hroot2
      rw [hcd] at hloc2
      refine ⟨d2, ?_, ?_, ?_, ?_⟩
      · unfold apply_patches_doc
        rw [hsc1]
        simp only []
        unfold applySourceDispatch
        simp only []
        rw [hdisp2]
        exact hloc2
      · rw [horig2, horig1]
      · rw [hman2, hman1]
      · intro k
        rw [hpo2 k, hpo1 k]

/-! ### Concrete round-trip and idempotence scenarios -/

/-- A workspace manifest with no prior tool metadata. -/
def c1WDoc : Doc :=
  [("workspace", .table [("members", .arr [.str "crates/*"]),
      ("dependencies", .table [("alpha", .str "1.2.0"),
        ("beta", .inlineTbl [("version", .str "0.3.0"),
          ("features", .arr [.str "std"])])])])]

def c1WMembers : List CrateInfo :=
  [⟨"alpha", "9.0.0", ["repo", "crates", "alpha", "Cargo.toml"]⟩]

/-- The document a first Apply produces on `c1WDoc`. -/
def c1WApplied : Doc :=
  [("workspace", .table [("members", .arr [.str "crates/*"]),
      ("dependencies", .table [("alpha", .str "9.0.0"),
        ("beta", .inlineTbl [("version", .str "0.3.0"),
          ("features", .arr [.str "std"])])]),
      ("metadata", .table [("cargo-patch-source", .table [
        ("original-versions", .inlineTbl [("alpha", .str "1.2.0")]),
        ("managed-patches", .arr [.str "crates-io"])])])]),
   ("patch", .table [("crates-io", .table [("alpha",
      .inlineTbl [("path", .str "repo/crates/alpha")])])])]

/-- A manifest carrying stale tool metadata from an earlier run: the
recorded original version `1.0.0` no longer matches the declared
dependency `2.0.0`. -/
def c1CDoc : Doc :=
  [("package", .table [("name", .str "demo"),
      ("metadata", .table [("cargo-patch-source", .table [
        ("original-versions", .inlineTbl [("foo", .str "1.0.0")]),
        ("managed-patches", .arr [.str "somekey"])])])]),
   ("dependencies", .table [("foo", .str "2.0.0")])]

def c1CMembers : List CrateInfo :=
  [⟨"foo", "3.0.0", ["ws", "foo", "Cargo.toml"]⟩]

/-- The document Apply produces on `c1CDoc`. -/
def c1CApplied : Doc :=
  [("package", .table [("name", .str "demo"),
      ("metadata", .table [("cargo-patch-source", .table [
        ("original-versions", .inlineTbl [("foo", .str "1.0.0")]),
        ("managed-patches", .arr [.str "somekey", .str "crates-io"])])])]),
   ("dependencies", .table [("foo", .str "3.0.0")]),
   ("patch", .table [("crates-io",
      .table [("foo", .inlineTbl [("path", .str "ws/foo")])])])]

/-- C1 counterexample: on a manifest with stale recorded metadata, Apply
succeeds and the following Remove also succeeds, but it rewrites the
dependency to the stale recorded version `1.0.0` instead of the
pre-Apply declaration `2.0.0`, so the dependency table is not restored
to its pre-Apply content. -/
theorem c1_counterexample :
    apply_patches_doc (.localPath c1CMembers) c1CDoc none = .ok c1CApplied
    ∧ remove_patches_doc c1CApplied =
        .ok [("package", .table [("name", Item.str "demo")]),
             ("dependencies", .table [("foo", Item.str "1.0.0")])]
    ∧ depsEntry (removeOnDisk c1CApplied) "foo" = some (.str "1.0.0")
    ∧ depsEntry c1CDoc "foo" = some (.str "2.0.0")
    ∧ ¬ get_dependencies_table (removeOnDisk c1CApplied) =
        get_dependencies_table c1CDoc := by
  refine ⟨rfl, rfl, rfl, rfl, ?_⟩
  intro h
  have h2 : depsEntry (removeOnDisk c1CApplied) "foo" = depsEntry c1CDoc "foo" := by
    unfold depsEntry
    rw [h]
  have hA : depsEntry (removeOnDisk c1CApplied) "foo" = some (.str "1.0.0") := rfl
  have hB : depsEntry c1CDoc "foo" = some (.str "2.0.0") := rfl
  rw [hA, hB] at h2
  simp only [Option.some.injEq, Item.str.injEq] at h2
  exact absurd h2 (by decide)

/-- C1 witness: the amended round trip at a concrete workspace manifest
with no prior metadata. -/
theorem c1_roundtrip_witness :
    get_metadata_table c1WDoc = none
    ∧ apply_patches_doc (.localPath c1WMembers) c1WDoc none = .ok c1WApplied
    ∧ (get_dependencies_table (removeOnDisk c1WApplied) = get_dependencies_table c1WDoc
      ∧ ((lookupE (removeOnDisk c1WApplied) "patch").isSome →
          (lookupE c1WDoc "patch").isSome)
      ∧ (∀ k, (patchOriginTable (removeOnDisk c1WApplied) k).isSome →
          (patchOriginTable c1WDoc k).isSome)
      ∧ (hasMetadataUnder (removeOnDisk c1WApplied) "workspace" = true →
          hasMetadataUnder c1WDoc "workspace" = true)
      ∧ (hasMetadataUnder (removeOnDisk c1WApplied) "package" = true →
          hasMetadataUnder c1WDoc "package" = true)
      ∧ (hasCpsTable (removeOnDisk c1WApplied) "workspace" = true →
          hasCpsTable c1WDoc "workspace" = true)
      ∧ (hasCpsTable (removeOnDisk c1WApplied) "package" = true →
          hasCpsTable c1WDoc "package" = true)) :=
  ⟨rfl, rfl, c1_roundtrip (.localPath c1WMembers) c1WDoc none c1WApplied rfl rfl⟩

/-- The same clean workspace manifest, for the idempotence scenario. -/
def c2WDoc : Doc :=
  [("workspace", .table [("members", .arr [.str "crates/*"]),
      ("dependencies", .table [("alpha", .str "1.2.0"),
        ("beta", .inlineTbl [("version", .str "0.3.0"),
          ("features", .arr [.str "std"])])])])]

def c2WMembers : List CrateInfo :=
  [⟨"alpha", "9.0.0", ["repo", "crates", "alpha", "Cargo.toml"]⟩]

/-- The document a first Apply produces on `c2WDoc`. -/
def c2WApplied : Doc :=
  [("workspace", .table [("members", .arr [.str "crates/*"]),
      ("dependencies", .table [("alpha", .str "9.0.0"),
        ("beta", .inlineTbl [("version", .str "0.3.0"),
          ("features", .arr [.str "std"])])]),
      ("metadata", .table [("cargo-patch-source", .table [
        ("original-versions", .inlineTbl [("alpha", .str "1.2.0")]),
        ("managed-patches", .arr [.str "crates-io"])])])]),
   ("patch", .table [("crates-io", .table [("alpha",
      .inlineTbl [("path", .str "repo/crates/alpha")])])])]

/-- A manifest with stale managed state under the foreign key `somekey`,
for the idempotence counterexample. -/
def c2CDoc : Doc :=
  [("package", .table [("name", .str "demo"),
      ("metadata", .table [("cargo-patch-source", .table [
        ("original-versions", .inlineTbl [("foo", .str "1.0.0")]),
        ("managed-patches", .arr [.str "somekey"])])])]),
   ("dependencies", .table [("foo", .str "2.0.0")])]

def c2CMembers : List CrateInfo :=
  [⟨"foo", "3.0.0", ["ws", "foo", "Cargo.toml"]⟩]

/-- The first Apply's output on `c2CDoc`: the stale key stays in the
managed list. -/
def c2CApplied1 : Doc :=
  [("package", .table [("name", .str "demo"),
      ("metadata", .table [("cargo-patch-source", .table [
        ("original-versions", .inlineTbl [("foo", .str "1.0.0")]),
        ("managed-patches", .arr [.str "somekey", .str "crates-io"])])])]),
   ("dependencies", .table [("foo", .str "3.0.0")]),
   ("patch", .table [("crates-io",
      .table [("foo", .inlineTbl [("path", .str "ws/foo")])])])]

/-- The second Apply's output: the self-clean drops the stale key. -/
def c2CApplied2 : Doc :=
  [("package", .table [("name", .str "demo"),
      ("metadata", .table [("cargo-patch-source", .table [
        ("original-versions", .inlineTbl [("foo", .str "1.0.0")]),
        ("managed-patches", .arr [.str "crates-io"])])])]),
   ("dependencies", .table [("foo", .str "3.0.0")]),
   ("patch", .table [("crates-io",
      .table [("foo", .inlineTbl [("path", .str "ws/foo")])])])]

/-- C2 counterexample: on a manifest with stale managed metadata, two
successive Applies produce different managed-patches lists, so the
second run's managed state is not identical to the first run's. -/
theorem c2_counterexample :
    apply_patches_doc (.localPath c2CMembers) c2CDoc none = .ok c2CApplied1
    ∧ apply_patches_doc (.localPath c2CMembers) c2CApplied1 none = .ok c2CApplied2
    ∧ get_managed_patches c2CApplied1 = ["somekey", "crates-io"]
    ∧ get_managed_patches c2CApplied2 = ["crates-io"]
    ∧ ¬ get_managed_patches c2CApplied2 = get_managed_patches c2CApplied1 :=
  ⟨rfl, rfl, rfl, rfl, by decide⟩

/-- C2 witness: the amended idempotence at a concrete clean workspace
manifest. -/
theorem c2_idempotent_witness :
    get_metadata_table c2WDoc = none
    ∧ apply_patches_doc (.localPath c2WMembers) c2WDoc none = .ok c2WApplied
    ∧ ∃ d2, apply_patches_doc (.localPath c2WMembers) c2WApplied none = .ok d2
        ∧ get_original_versions d2 = get_original_versions c2WApplied
        ∧ get_managed_patches d2 = get_managed_patches c2WApplied
        ∧ ∀ k, patchOriginTable d2 k = patchOriginTable c2WApplied k :=
  ⟨rfl, rfl, c2_idempotent (.localPath c2WMembers) c2WDoc none c2WApplied rfl
    (fun pes h => Option.noConfusion h) rfl⟩

end Cps
